import Mathlib

/-!
# XinterV4: lexer and recursive-descent evaluator

A shallow embedding of `src/lexer.go`, `src/parser.go` and the line handling of
`src/main.go`, followed by theorems about the embedded program.

Conventions of the embedding.

* A Go `string` / `[]rune` is a `List Char` (a sequence of code points).
* A Go `interface{}` payload is a `Value`; a failed type assertion `v.(T)` is the
  panic `Panic.TypeMismatch`.
* A Go `int` is an `Int`; `+ - * /` wrap to 64 bits through `wrap64`.
* `fmt.Print*` calls append an `OutLine` to the `out` field of the state.
* A Go `panic` (explicit or raised by the runtime) ends the computation with the
  state reached so far.
* Every `for` loop and every recursive call consumes one unit of an explicit
  iteration budget; the entry points supply a budget computed from the length of
  their input, and exhausting it is reported as `outOfFuel`, which is not a Go
  behaviour: `runLine_ne_outOfFuel` shows that it never happens.
-/

namespace Xinter

/-! ## Data model -/

/-- The strings stored in `Token.Type`; `empty` is the `""` of the zero `Token{}`. -/
inductive TokType where
  | empty
  | PLUS | MINUS | MULTIPLY | DIVIDE | EQUALS | AND | OR | NOT | LPAREN | RPAREN
  | NUMBER | STRING | BOOLEAN | IDENTIFIER
  deriving DecidableEq, Repr

/-- The dynamic content of an `interface{}`: `nil`, a `rune`, an `int`, a `string`
or a `bool`. -/
inductive Value where
  | nil
  | rune (c : Char)
  | int (n : Int)
  | str (s : List Char)
  | bool (b : Bool)
  deriving DecidableEq, Repr

/-- The Go record `Token{Type, Value}`. -/
structure Token where
  type : TokType
  value : Value
  deriving DecidableEq, Repr

/-- The zero value `Token{}`. -/
def Token.zero : Token := ⟨TokType.empty, Value.nil⟩

/-- The ways a line can abort. `UnexpectedCharacter`, `UnterminatedString`,
`UndefinedVariable`, `ExpectedRParen` and `UnexpectedToken` are the explicit
`panic(...)` calls of the source; `TypeMismatch` is the runtime panic of a failed
type assertion and `DivisionByZero` the runtime panic of an integer division by
zero. -/
inductive Panic where
  | UnexpectedCharacter (c : Char)
  | UnterminatedString
  | UndefinedVariable (name : List Char)
  | ExpectedRParen
  | UnexpectedToken (tok : Token)
  | TypeMismatch
  | DivisionByZero
  deriving DecidableEq, Repr

/-- One call of `fmt.Printf` / `fmt.Println`, in the order of the source:
the lexer trace, the lexer token dump, the parser trace, the assignment trace,
the calc-mode echo `Println("Result:", v)` and the `log` output `Println(v)`. -/
inductive OutLine where
  | lexerAdvance (pos : Int) (c : Char)
  | lexerTokens (toks : List Token)
  | parserAdvance (idx : Int) (tok : Token)
  | assigned (name : List Char) (v : Value)
  | result (v : Value)
  | println (v : Value)
  deriving DecidableEq, Repr

/-- The Go map `variables map[string]interface{}`. -/
abbrev Env := List Char → Option Value

/-- The map with no entry. -/
def Env.empty : Env := fun _ => none

/-- The map store `variables[name] = v`. -/
def Env.set (env : Env) (name : List Char) (v : Value) : Env :=
  fun k => if k = name then some v else env k

/-! ## Machine integers and `strconv.Atoi` -/

/-- The largest Go `int` on a 64-bit platform. -/
def maxInt64 : Int := 9223372036854775807

/-- Two's-complement wrap-around of an integer result to 64 bits. -/
def wrap64 (z : Int) : Int := (z + 9223372036854775808) % 18446744073709551616 - 9223372036854775808

/-- The value of a run of decimal digits. -/
def decimalValue (s : List Char) : Nat :=
  s.foldl (fun acc c => acc * 10 + (c.toNat - 48)) 0

/-- The rune NUL, which the lexer uses as its end-of-input mark. -/
def NUL : Char := Char.ofNat 0

/-- The field `digits: "1234567890"`. -/
def digits : List Char := "1234567890".toList

/-- The field `letters`. -/
def letters : List Char := "abcdefghijklmnopqrstuvwxyzABCDEFGHIJKLMNOPQRSTUVWXYZ_".toList

/-- The result of `strconv.Atoi` with its error dropped, as `parseNum` uses it
(`num, _ := strconv.Atoi(numStr)`), on the unsigned digit runs `parseNum` builds:
the decimal value, or the largest `int` when the value is out of range; `0` for a
text that is empty or has a non-digit. -/
def Atoi (s : List Char) : Int :=
  if s = [] ∨ ¬ s.all (fun c => digits.contains c) then 0
  else if (decimalValue s : Int) > maxInt64 then maxInt64
  else (decimalValue s : Int)

/-! ## Lexer (`src/lexer.go`) -/

/-- The Go struct `Lexer`; `out` collects what the lexer prints. -/
structure Lexer where
  src : List Char
  tokens : List Token
  pos : Int
  currChar : Char
  debug : Bool
  out : List OutLine

/-- How a lexer method ends. -/
inductive LexRes where
  | ok (l : Lexer)
  | panic (e : Panic) (l : Lexer)
  | outOfFuel

/-- The map `tokenMap` of `tokenize`. -/
def tokenMap (c : Char) : Option TokType :=
  if c = '+' then some TokType.PLUS
  else if c = '-' then some TokType.MINUS
  else if c = '*' then some TokType.MULTIPLY
  else if c = '/' then some TokType.DIVIDE
  else if c = '=' then some TokType.EQUALS
  else if c = '&' then some TokType.AND
  else if c = '|' then some TokType.OR
  else if c = '!' then some TokType.NOT
  else if c = '(' then some TokType.LPAREN
  else if c = ')' then some TokType.RPAREN
  else none

/-- The method `Lexer.advance`. -/
def Lexer.advance (l : Lexer) : Lexer :=
  let pos := l.pos + 1
  let c := if pos < (l.src.length : Int) then l.src.getD pos.toNat NUL else NUL
  { l with pos := pos, currChar := c,
           out := if l.debug then l.out ++ [OutLine.lexerAdvance pos c] else l.out }

/-- The `append(l.tokens, tok)` of the lexer methods. -/
def Lexer.push (l : Lexer) (tok : Token) : Lexer :=
  { l with tokens := l.tokens ++ [tok] }

/-- The loop of `parseNum`. -/
def Lexer.parseNumLoop : Nat → Lexer → List Char → Option (Lexer × List Char)
  | 0, _, _ => none
  | fuel + 1, l, numStr =>
    if l.currChar ≠ NUL ∧ digits.contains l.currChar = true then
      Lexer.parseNumLoop fuel l.advance (numStr ++ [l.currChar])
    else some (l, numStr)

/-- The method `Lexer.parseNum`. -/
def Lexer.parseNum (l : Lexer) : LexRes :=
  match Lexer.parseNumLoop (l.src.length + 1) l [] with
  | none => LexRes.outOfFuel
  | some (l1, numStr) => LexRes.ok (l1.push ⟨TokType.NUMBER, Value.int (Atoi numStr)⟩)

/-- The loop of `parseString`. -/
def Lexer.parseStringLoop : Nat → Lexer → List Char → Option (Lexer × List Char)
  | 0, _, _ => none
  | fuel + 1, l, strVal =>
    if l.currChar ≠ NUL ∧ l.currChar ≠ Char.ofNat 34 then
      Lexer.parseStringLoop fuel l.advance (strVal ++ [l.currChar])
    else some (l, strVal)

/-- The method `Lexer.parseString`. -/
def Lexer.parseString (l : Lexer) : LexRes :=
  match Lexer.parseStringLoop (l.src.length + 1) l.advance [] with
  | none => LexRes.outOfFuel
  | some (l1, strVal) =>
    if l1.currChar = Char.ofNat 34 then
      LexRes.ok (l1.advance.push ⟨TokType.STRING, Value.str strVal⟩)
    else LexRes.panic Panic.UnterminatedString l1

/-- The loop of `parseVar`. -/
def Lexer.parseVarLoop : Nat → Lexer → List Char → Option (Lexer × List Char)
  | 0, _, _ => none
  | fuel + 1, l, varStr =>
    if l.currChar ≠ NUL ∧ (letters ++ digits).contains l.currChar = true then
      Lexer.parseVarLoop fuel l.advance (varStr ++ [l.currChar])
    else some (l, varStr)

/-- The method `Lexer.parseVar`. -/
def Lexer.parseVar (l : Lexer) : LexRes :=
  match Lexer.parseVarLoop (l.src.length + 1) l [] with
  | none => LexRes.outOfFuel
  | some (l1, varStr) =>
    if varStr = "true".toList ∨ varStr = "false".toList then
      LexRes.ok (l1.push ⟨TokType.BOOLEAN, Value.bool (decide (varStr = "true".toList))⟩)
    else LexRes.ok (l1.push ⟨TokType.IDENTIFIER, Value.str varStr⟩)

/-- The loop `for l.currChar != 0` of `tokenize`. -/
def Lexer.tokenizeLoop : Nat → Lexer → LexRes
  | 0, _ => LexRes.outOfFuel
  | fuel + 1, l =>
    if l.currChar ≠ NUL then
      match tokenMap l.currChar with
      | some tokenType =>
        Lexer.tokenizeLoop fuel (l.push ⟨tokenType, Value.rune l.currChar⟩).advance
      | none =>
        if l.currChar = Char.ofNat 34 then
          match l.parseString with
          | LexRes.ok l1 => Lexer.tokenizeLoop fuel l1
          | r => r
        else if l.currChar = ' ' then Lexer.tokenizeLoop fuel l.advance
        else if digits.contains l.currChar = true then
          match l.parseNum with
          | LexRes.ok l1 => Lexer.tokenizeLoop fuel l1
          | r => r
        else if letters.contains l.currChar = true then
          match l.parseVar with
          | LexRes.ok l1 => Lexer.tokenizeLoop fuel l1
          | r => r
        else LexRes.panic (Panic.UnexpectedCharacter l.currChar) l
    else LexRes.ok l

/-- The method `Lexer.tokenize`. -/
def Lexer.tokenize (l : Lexer) : LexRes :=
  match Lexer.tokenizeLoop (l.src.length + 1) l with
  | LexRes.ok l1 =>
    LexRes.ok (if l1.debug then { l1 with out := l1.out ++ [OutLine.lexerTokens l1.tokens] } else l1)
  | r => r

/-- The constructor `NewLexer(text, debug)`. -/
def NewLexer (text : List Char) (debug : Bool) : LexRes :=
  let l : Lexer :=
    { src := text, tokens := [], pos := -1, currChar := NUL, debug := debug, out := [] }
  l.advance.tokenize

/-! ## Parser and evaluator (`src/parser.go`) -/

/-- The Go struct `Parser`; `vars` is its field `variables` and `out` collects what
the parser prints. -/
structure Parser where
  tokens : List Token
  idx : Int
  currTok : Token
  calcMode : Bool
  debug : Bool
  vars : Env
  out : List OutLine

/-- How a parser method ends: with a value, with a panic, or out of budget. -/
inductive Res (α : Type) where
  | ok (a : α) (p : Parser)
  | panic (e : Panic) (p : Parser)
  | outOfFuel

/-- Sequencing of two parser steps. -/
def Res.bind {α β : Type} (r : Res α) (f : α → Parser → Res β) : Res β :=
  match r with
  | Res.ok a p => f a p
  | Res.panic e p => Res.panic e p
  | Res.outOfFuel => Res.outOfFuel

/-- The method `Parser.advance`. -/
def Parser.advance (p : Parser) : Parser :=
  let idx := p.idx + 1
  let tok := if idx < (p.tokens.length : Int) then p.tokens.getD idx.toNat Token.zero else Token.zero
  { p with idx := idx, currTok := tok,
           out := if p.debug then p.out ++ [OutLine.parserAdvance idx tok] else p.out }

/-- The type assertion `v.(int)`. -/
def assertInt (v : Value) (p : Parser) (f : Int → Res Value) : Res Value :=
  match v with
  | Value.int n => f n
  | _ => Res.panic Panic.TypeMismatch p

/-- The type assertion `v.(bool)`. -/
def assertBool (v : Value) (p : Parser) (f : Bool → Res Value) : Res Value :=
  match v with
  | Value.bool b => f b
  | _ => Res.panic Panic.TypeMismatch p

mutual

/-- The method `Parser.expr`. -/
def Parser.expr : Nat → Parser → Res Value
  | 0, _ => Res.outOfFuel
  | fuel + 1, p =>
    (Parser.term fuel p).bind fun result p1 =>
    (Parser.exprLoop fuel result p1).bind fun result p2 =>
    Res.ok result
      (if p2.calcMode then { p2 with out := p2.out ++ [OutLine.result result] } else p2)

/-- The loop of `expr`. The left operand is asserted before the right operand is
parsed; `&&` and `||` do not evaluate `p.term()` when the left operand decides. -/
def Parser.exprLoop : Nat → Value → Parser → Res Value
  | 0, _, _ => Res.outOfFuel
  | fuel + 1, result, p =>
    match p.currTok.type with
    | TokType.PLUS =>
      let p1 := p.advance
      assertInt result p1 fun a =>
      (Parser.term fuel p1).bind fun r p2 =>
      assertInt r p2 fun b => Parser.exprLoop fuel (Value.int (wrap64 (a + b))) p2
    | TokType.MINUS =>
      let p1 := p.advance
      assertInt result p1 fun a =>
      (Parser.term fuel p1).bind fun r p2 =>
      assertInt r p2 fun b => Parser.exprLoop fuel (Value.int (wrap64 (a - b))) p2
    | TokType.AND =>
      let p1 := p.advance
      assertBool result p1 fun a =>
      if a then
        (Parser.term fuel p1).bind fun r p2 =>
        assertBool r p2 fun b => Parser.exprLoop fuel (Value.bool b) p2
      else Parser.exprLoop fuel (Value.bool false) p1
    | TokType.OR =>
      let p1 := p.advance
      assertBool result p1 fun a =>
      if a then Parser.exprLoop fuel (Value.bool true) p1
      else
        (Parser.term fuel p1).bind fun r p2 =>
        assertBool r p2 fun b => Parser.exprLoop fuel (Value.bool b) p2
    | _ => Res.ok result p

/-- The method `Parser.term`. -/
def Parser.term : Nat → Parser → Res Value
  | 0, _ => Res.outOfFuel
  | fuel + 1, p =>
    (Parser.factor fuel p).bind fun result p1 => Parser.termLoop fuel result p1

/-- The loop of `term`. -/
def Parser.termLoop : Nat → Value → Parser → Res Value
  | 0, _, _ => Res.outOfFuel
  | fuel + 1, result, p =>
    match p.currTok.type with
    | TokType.MULTIPLY =>
      let p1 := p.advance
      assertInt result p1 fun a =>
      (Parser.factor fuel p1).bind fun r p2 =>
      assertInt r p2 fun b => Parser.termLoop fuel (Value.int (wrap64 (a * b))) p2
    | TokType.DIVIDE =>
      let p1 := p.advance
      assertInt result p1 fun a =>
      (Parser.factor fuel p1).bind fun r p2 =>
      assertInt r p2 fun b =>
        if b = 0 then Res.panic Panic.DivisionByZero p2
        else Parser.termLoop fuel (Value.int (wrap64 (Int.tdiv a b))) p2
    | _ => Res.ok result p

/-- The method `Parser.factor`. -/
def Parser.factor : Nat → Parser → Res Value
  | 0, _ => Res.outOfFuel
  | fuel + 1, p =>
    match p.currTok.type with
    | TokType.NUMBER => Res.ok p.currTok.value p.advance
    | TokType.STRING => Res.ok p.currTok.value p.advance
    | TokType.BOOLEAN => Res.ok p.currTok.value p.advance
    | TokType.IDENTIFIER =>
      match p.currTok.value with
      | Value.str name =>
        match p.vars name with
        | some val => Res.ok val p.advance
        | none => Res.panic (Panic.UndefinedVariable name) p
      | _ => Res.panic Panic.TypeMismatch p
    | TokType.NOT =>
      let p1 := p.advance
      (Parser.factor fuel p1).bind fun r p2 =>
      assertBool r p2 fun b => Res.ok (Value.bool (!b)) p2
    | TokType.LPAREN =>
      let p1 := p.advance
      (Parser.expr fuel p1).bind fun result p2 =>
      if p2.currTok.type = TokType.RPAREN then Res.ok result p2.advance
      else Res.panic Panic.ExpectedRParen p2
    | _ => Res.panic (Panic.UnexpectedToken p.currTok) p

end

/-- The budget given to each top-level call of `expr`: three nested calls
(`expr`, `term`, `factor`) per token, and three more for the end of input. -/
def Parser.exprFuel (p : Parser) : Nat := 3 * p.tokens.length + 3

/-- The method `Parser.assign`. -/
def Parser.assign (p : Parser) : Res Unit :=
  match p.currTok.value with
  | Value.str varName =>
    (Parser.expr p.exprFuel p.advance.advance).bind fun value p1 =>
    Res.ok ()
      { p1 with vars := p1.vars.set varName value,
                out := if p1.debug then p1.out ++ [OutLine.assigned varName value] else p1.out }
  | _ => Res.panic Panic.TypeMismatch p

/-- The method `Parser.print`. -/
def Parser.print (p : Parser) : Res Unit :=
  (Parser.expr p.exprFuel p).bind fun value p1 =>
  Res.ok () { p1 with out := p1.out ++ [OutLine.println value] }

/-- The statement loop of `Parser.parse`. -/
def Parser.parseLoop : Nat → Parser → Res Unit
  | 0, _ => Res.outOfFuel
  | fuel + 1, p =>
    if p.currTok.type ≠ TokType.empty then
      let r : Res Unit :=
        if p.currTok.type = TokType.IDENTIFIER then
          if p.idx + 1 < (p.tokens.length : Int) ∧
              (p.tokens.getD (p.idx + 1).toNat Token.zero).type = TokType.EQUALS then
            p.assign
          else if p.currTok.value = Value.str "log".toList then
            p.advance.print
          else (Parser.expr p.exprFuel p).bind fun _ p1 => Res.ok () p1
        else (Parser.expr p.exprFuel p).bind fun _ p1 => Res.ok () p1
      r.bind fun _ p1 => Parser.parseLoop fuel p1
    else Res.ok () p

/-- The method `Parser.parse`. -/
def Parser.parse (p : Parser) : Res Unit :=
  Parser.parseLoop (p.tokens.length + 1) p

/-- The constructor `NewParser(tokens, calcMode, debug, variables)`. -/
def NewParser (tokens : List Token) (calcMode debug : Bool) (vars : Env) : Res Unit :=
  let p : Parser :=
    { tokens := tokens, idx := -1, currTok := Token.zero, calcMode := calcMode,
      debug := debug, vars := vars, out := [] }
  p.advance.parse

/-! ## One line of the session (`src/main.go`, the `default` case of `run`) -/

/-- What a line leaves behind: the variables and the printed lines, after a normal
end (`done`) or at the panic that aborted it (`panicked`). -/
inductive Outcome where
  | done (vars : Env) (out : List OutLine)
  | panicked (e : Panic) (vars : Env) (out : List OutLine)
  | outOfFuel

/-- The statements `lexer := NewLexer(text, debug)` and
`NewParser(lexer.tokens, calcMode, debug, variables)`. -/
def runLine (text : List Char) (calcMode debug : Bool) (vars : Env) : Outcome :=
  match NewLexer text debug with
  | LexRes.ok lexer =>
    match NewParser lexer.tokens calcMode debug vars with
    | Res.ok _ p => Outcome.done p.vars (lexer.out ++ p.out)
    | Res.panic e p => Outcome.panicked e p.vars (lexer.out ++ p.out)
    | Res.outOfFuel => Outcome.outOfFuel
  | LexRes.panic e lexer => Outcome.panicked e vars lexer.out
  | LexRes.outOfFuel => Outcome.outOfFuel

/-- The panic that aborted the line, if any. -/
def Outcome.panic? : Outcome → Option Panic
  | Outcome.panicked e _ _ => some e
  | _ => none

/-- The variables after the line. -/
def Outcome.vars? : Outcome → Option Env
  | Outcome.done env _ => some env
  | Outcome.panicked _ env _ => some env
  | Outcome.outOfFuel => none

/-- The binding of `name` after the line. -/
def Outcome.lookup (o : Outcome) (name : List Char) : Option Value :=
  match o.vars? with
  | some env => env name
  | none => none

/-- The lines printed by the line. -/
def Outcome.out : Outcome → List OutLine
  | Outcome.done _ out => out
  | Outcome.panicked _ _ out => out
  | Outcome.outOfFuel => []

/-- The line ended normally. -/
def Outcome.isDone : Outcome → Bool
  | Outcome.done _ _ => true
  | _ => false

/-! ## Vocabulary of the statements and of the proofs -/

/-- The line is a debug trace, not a `log` or `Result:` line. -/
def OutLine.isTrace : OutLine → Bool
  | OutLine.result _ => false
  | OutLine.println _ => false
  | _ => true

/-- The line is the output of a `log` statement. -/
def OutLine.isLog : OutLine → Bool
  | OutLine.println _ => true
  | _ => false

/-- The lexer stands after `pre` with `rest` still to read and has emitted `toks`;
it has printed trace lines only, and nothing with tracing off. -/
def Lexer.Sees (l : Lexer) (dbg : Bool) (pre rest : List Char) (toks : List Token) : Prop :=
  l.src = pre ++ rest ∧ l.pos = (pre.length : Int) ∧ l.currChar = rest.headD NUL ∧
    l.tokens = toks ∧ l.debug = dbg ∧ (dbg = false → l.out = []) ∧
    ∀ x ∈ l.out, x.isTrace = true

/-- The common shape of the three scanning loops: collect characters while `P` holds. -/
def Lexer.scanLoop (P : Char → Bool) : Nat → Lexer → List Char → Option (Lexer × List Char)
  | 0, _, _ => none
  | fuel + 1, l, acc =>
    if P l.currChar = true then Lexer.scanLoop P fuel l.advance (acc ++ [l.currChar])
    else some (l, acc)

/-- A piece of source text that the tokenizer reads in one iteration of its loop. -/
inductive Lexeme where
  | op (c : Char) (ty : TokType)
  | space
  | num (ds : List Char)
  | word (w : List Char)
  | strLit (s : List Char)

/-- The token `parseVar` appends for the word `w`. -/
def wordToken (w : List Char) : Token :=
  if w = "true".toList ∨ w = "false".toList then
    ⟨TokType.BOOLEAN, Value.bool (decide (w = "true".toList))⟩
  else ⟨TokType.IDENTIFIER, Value.str w⟩

/-- The characters of a lexeme. -/
def Lexeme.text : Lexeme → List Char
  | Lexeme.op c _ => [c]
  | Lexeme.space => [' ']
  | Lexeme.num ds => ds
  | Lexeme.word w => w
  | Lexeme.strLit s => Char.ofNat 34 :: (s ++ [Char.ofNat 34])

/-- The tokens a lexeme stands for. -/
def Lexeme.tokens : Lexeme → List Token
  | Lexeme.op c ty => [⟨ty, Value.rune c⟩]
  | Lexeme.space => []
  | Lexeme.num ds => [⟨TokType.NUMBER, Value.int (Atoi ds)⟩]
  | Lexeme.word w => [wordToken w]
  | Lexeme.strLit s => [⟨TokType.STRING, Value.str s⟩]

/-- The lexeme is well formed and is followed by the character `next` (`NUL` at the
end of the line), at which a number or a word stops. -/
def Lexeme.Valid (x : Lexeme) (next : Char) : Prop :=
  match x with
  | Lexeme.op c ty => tokenMap c = some ty
  | Lexeme.space => True
  | Lexeme.num ds =>
    ds ≠ [] ∧ (∀ c ∈ ds, digits.contains c = true) ∧ digits.contains next = false
  | Lexeme.word w =>
    letters.contains (w.headD NUL) = true ∧ (∀ c ∈ w, (letters ++ digits).contains c = true) ∧
      (letters ++ digits).contains next = false
  | Lexeme.strLit s => ∀ c ∈ s, c ≠ NUL ∧ c ≠ Char.ofNat 34

instance Lexeme.decidableValid (x : Lexeme) (next : Char) : Decidable (x.Valid next) :=
  match x with
  | Lexeme.op c ty => inferInstanceAs (Decidable (tokenMap c = some ty))
  | Lexeme.space => inferInstanceAs (Decidable True)
  | Lexeme.num ds => inferInstanceAs (Decidable
      (ds ≠ [] ∧ (∀ c ∈ ds, digits.contains c = true) ∧ digits.contains next = false))
  | Lexeme.word w => inferInstanceAs (Decidable
      (letters.contains (w.headD NUL) = true ∧ (∀ c ∈ w, (letters ++ digits).contains c = true) ∧
        (letters ++ digits).contains next = false))
  | Lexeme.strLit s => inferInstanceAs (Decidable (∀ c ∈ s, c ≠ NUL ∧ c ≠ Char.ofNat 34))

/-- The text of a sequence of lexemes. -/
def lexText : List Lexeme → List Char
  | [] => []
  | x :: xs => x.text ++ lexText xs

/-- The tokens of a sequence of lexemes. -/
def lexTokens : List Lexeme → List Token
  | [] => []
  | x :: xs => x.tokens ++ lexTokens xs

/-- Every lexeme of the sequence is valid where it stands. -/
def LexValid : List Lexeme → Prop
  | [] => True
  | x :: xs => x.Valid ((lexText xs).headD NUL) ∧ LexValid xs

/-- The outcome of a line whose lexer printed `out0` and whose parser ended with `r`. -/
def Outcome.ofParse (out0 : List OutLine) : Res Unit → Outcome
  | Res.ok _ p => Outcome.done p.vars (out0 ++ p.out)
  | Res.panic e p => Outcome.panicked e p.vars (out0 ++ p.out)
  | Res.outOfFuel => Outcome.outOfFuel

/-- A non-empty run of decimal digits: an unsigned integer literal. -/
def IsNumeral (ds : List Char) : Prop := ds ≠ [] ∧ ∀ c ∈ ds, digits.contains c = true

/-- The integer is a value of a Go `int` of 64 bits. -/
def InInt64 (z : Int) : Prop := -9223372036854775808 ≤ z ∧ z ≤ 9223372036854775807

instance IsNumeral.decidable (ds : List Char) : Decidable (IsNumeral ds) :=
  inferInstanceAs (Decidable (ds ≠ [] ∧ ∀ c ∈ ds, digits.contains c = true))

instance InInt64.decidable (z : Int) : Decidable (InInt64 z) :=
  inferInstanceAs (Decidable (-9223372036854775808 ≤ z ∧ z ≤ 9223372036854775807))

/-- The spelling of a boolean literal. -/
def boolLit (b : Bool) : List Char :=
  if b then "true".toList else "false".toList

instance LexValid.decidable : (xs : List Lexeme) → Decidable (LexValid xs)
  | [] => isTrue trivial
  | x :: xs =>
    have : Decidable (LexValid xs) := LexValid.decidable xs
    inferInstanceAs (Decidable (x.Valid ((lexText xs).headD NUL) ∧ LexValid xs))

/-- An identifier name: a letter or underscore followed by letters, digits and
underscores, not spelled `true` or `false`. -/
def IsIdentifier (n : List Char) : Prop :=
  letters.contains (n.headD NUL) = true ∧ (∀ c ∈ n, (letters ++ digits).contains c = true) ∧
    n ≠ "true".toList ∧ n ≠ "false".toList

instance IsIdentifier.decidable (n : List Char) : Decidable (IsIdentifier n) :=
  inferInstanceAs (Decidable (letters.contains (n.headD NUL) = true ∧
    (∀ c ∈ n, (letters ++ digits).contains c = true) ∧ n ≠ "true".toList ∧ n ≠ "false".toList))

/-- A literal of the language: an unsigned integer, a boolean or a string. -/
inductive Literal where
  | num (ds : List Char)
  | bool (b : Bool)
  | str (s : List Char)

/-- The spelling of a literal in a line. -/
def Literal.text : Literal → List Char
  | Literal.num ds => ds
  | Literal.bool b => boolLit b
  | Literal.str s => Char.ofNat 34 :: (s ++ [Char.ofNat 34])

/-- The value a literal denotes. -/
def Literal.value : Literal → Value
  | Literal.num ds => Value.int (decimalValue ds)
  | Literal.bool b => Value.bool b
  | Literal.str s => Value.str s

/-- The literal is an in-range integer, a boolean, or a string without a quote and
without NUL. -/
def Literal.Valid : Literal → Prop
  | Literal.num ds => IsNumeral ds ∧ InInt64 (decimalValue ds)
  | Literal.bool _ => True
  | Literal.str s => ∀ c ∈ s, c ≠ NUL ∧ c ≠ Char.ofNat 34

instance Literal.decidableValid (v : Literal) : Decidable v.Valid :=
  match v with
  | Literal.num ds => inferInstanceAs (Decidable (IsNumeral ds ∧ InInt64 (decimalValue ds)))
  | Literal.bool _ => inferInstanceAs (Decidable True)
  | Literal.str s => inferInstanceAs (Decidable (∀ c ∈ s, c ≠ NUL ∧ c ≠ Char.ofNat 34))

/-- The lexeme of a literal. -/
def Literal.lexeme : Literal → Lexeme
  | Literal.num ds => Lexeme.num ds
  | Literal.bool b => Lexeme.word (boolLit b)
  | Literal.str s => Lexeme.strLit s

/-- The token of a literal. -/
def Literal.token : Literal → Token
  | Literal.num ds => ⟨TokType.NUMBER, Value.int (decimalValue ds)⟩
  | Literal.bool b => ⟨TokType.BOOLEAN, Value.bool b⟩
  | Literal.str s => ⟨TokType.STRING, Value.str s⟩

/-- The cached current token agrees with the index: `currTok` is `tokens[idx]`, or
the zero token past the end. -/
def Parser.WF (p : Parser) : Prop :=
  0 ≤ p.idx ∧
    p.currTok = (if p.idx < (p.tokens.length : Int) then p.tokens.getD p.idx.toNat Token.zero
      else Token.zero)

/-- The number of tokens from the current index to the end. -/
def Parser.rem (p : Parser) : Nat := ((p.tokens.length : Int) - p.idx).toNat

/-- A parser method that started in state `p` ended within its budget, on the same
token sequence, with the index moved forward by at least `k` on success and not
moved backward on a panic. -/
def Res.Good {α : Type} (r : Res α) (p : Parser) (k : Int) : Prop :=
  match r with
  | Res.ok _ q => q.WF ∧ q.tokens = p.tokens ∧ p.idx + k ≤ q.idx
  | Res.panic _ q => q.tokens = p.tokens ∧ p.idx ≤ q.idx
  | Res.outOfFuel => False

/-- The cached current character agrees with the position: `currChar` is `src[pos]`,
or NUL past the end. -/
def Lexer.WF (l : Lexer) : Prop :=
  0 ≤ l.pos ∧
    l.currChar = (if l.pos < (l.src.length : Int) then l.src.getD l.pos.toNat NUL else NUL)

/-- The number of characters from the current position to the end. -/
def Lexer.rem (l : Lexer) : Nat := ((l.src.length : Int) - l.pos).toNat

/-- A lexer method that started in state `l` ended within its budget; on success it
reads the same text and its position has moved forward by at least `k`. -/
def LexRes.Good (r : LexRes) (l : Lexer) (k : Int) : Prop :=
  match r with
  | LexRes.ok l1 => l1.WF ∧ l1.src = l.src ∧ l.pos + k ≤ l1.pos
  | LexRes.panic _ _ => True
  | LexRes.outOfFuel => False

/-- The state in which a parser method ended, normally or by a panic, satisfies `I`. -/
def Res.Ends {α : Type} (r : Res α) (I : Parser → Prop) : Prop :=
  match r with
  | Res.ok _ q => I q
  | Res.panic _ q => I q
  | Res.outOfFuel => True

/-- The fields of the parser that `factor`, `term` and `expr` leave alone. -/
def Parser.Frame (p q : Parser) : Prop :=
  q.tokens = p.tokens ∧ q.calcMode = p.calcMode ∧ q.debug = p.debug ∧ q.vars = p.vars

/-- The name is the value of an `IDENTIFIER` token of `ts` that is immediately
followed by an `EQUALS` token. -/
def AssignTarget (ts : List Token) (name : List Char) : Prop :=
  ∃ i t, ts.get? i = some ⟨TokType.IDENTIFIER, Value.str name⟩ ∧ ts.get? (i + 1) = some t ∧
    t.type = TokType.EQUALS

/-- The environment of `q` comes from the environment of `p` by assignments to
assignment targets of the token sequence: no key is lost and every other name keeps
its binding. -/
def Parser.OnlyAssigned (p q : Parser) : Prop :=
  q.tokens = p.tokens ∧ (∀ k, p.vars k ≠ none → q.vars k ≠ none) ∧
    ∀ k, ¬ AssignTarget p.tokens k → q.vars k = p.vars k

/-- The body of the statement loop of `Parser.parse`: one statement. -/
def Parser.statement (p : Parser) : Res Unit :=
  if p.currTok.type = TokType.IDENTIFIER then
    if p.idx + 1 < (p.tokens.length : Int) ∧
        (p.tokens.getD (p.idx + 1).toNat Token.zero).type = TokType.EQUALS then
      p.assign
    else if p.currTok.value = Value.str "log".toList then
      p.advance.print
    else (Parser.expr p.exprFuel p).bind fun _ p1 => Res.ok () p1
  else (Parser.expr p.exprFuel p).bind fun _ p1 => Res.ok () p1

/-- The token sequence a lexer run returned, if it returned. -/
def LexRes.tokens? : LexRes → Option (List Token)
  | LexRes.ok l => some l.tokens
  | _ => none

/-- The panic that aborted a lexer run, if any. -/
def LexRes.panic? : LexRes → Option Panic
  | LexRes.panic e _ => some e
  | _ => none

/-- A word: a letter `a-z`, `A-Z` or underscore followed by letters, digits and
underscores. -/
def IsWord (w : List Char) : Prop :=
  letters.contains (w.headD NUL) = true ∧ ∀ c ∈ w, (letters ++ digits).contains c = true

instance IsWord.decidable (w : List Char) : Decidable (IsWord w) :=
  inferInstanceAs (Decidable (letters.contains (w.headD NUL) = true ∧
    ∀ c ∈ w, (letters ++ digits).contains c = true))

/-- The result with its end state replaced by `T` of it. -/
def Res.map {α : Type} (T : Parser → Parser) : Res α → Res α
  | Res.ok a p => Res.ok a (T p)
  | Res.panic e p => Res.panic e (T p)
  | Res.outOfFuel => Res.outOfFuel

/-- The method panicked with `Undefined variable`. -/
def Res.isUndefined {α : Type} : Res α → Prop
  | Res.panic (Panic.UndefinedVariable _) _ => True
  | _ => False

/-- The run `r2`, started from the `T`-image of the start of `r1`, ended as `r1`
did, in the `T`-image of the end state of `r1`; when `U` holds the comparison is
waived for an `r1` that panicked on an undefined variable. -/
def Res.Sim {α : Type} (U : Prop) (T : Parser → Parser) (r2 r1 : Res α) : Prop :=
  (U ∧ r1.isUndefined) ∨ r2 = r1.map T

/-- A change of the parser state that the evaluator cannot observe: `T` keeps the
tokens, the index and the current token, commutes with `advance`, with the calc-mode
echo and with the two other ways the evaluator prints or stores, and keeps the result
of every variable lookup (when `U` holds: of every lookup that finds a binding). -/
structure Parser.Commutes (U : Prop) (T : Parser → Parser) : Prop where
  tokens : ∀ p, (T p).tokens = p.tokens
  idx : ∀ p, (T p).idx = p.idx
  currTok : ∀ p, (T p).currTok = p.currTok
  advance : ∀ p, (T p).advance = T p.advance
  echo : ∀ p v, (if (T p).calcMode then { T p with out := (T p).out ++ [OutLine.result v] } else T p)
    = T (if p.calcMode then { p with out := p.out ++ [OutLine.result v] } else p)
  println : ∀ p v, ({ T p with out := (T p).out ++ [OutLine.println v] } : Parser)
    = T { p with out := p.out ++ [OutLine.println v] }
  store : ∀ p n v, ({ T p with vars := (T p).vars.set n v, out := if (T p).debug then (T p).out ++ [OutLine.assigned n v] else (T p).out } : Parser)
    = T { p with vars := p.vars.set n v, out := if p.debug then p.out ++ [OutLine.assigned n v] else p.out }
  lookup : ∀ p name, (U ∧ p.vars name = none) ∨ (T p).vars name = p.vars name

/-- The lexer result with its end state replaced by `T` of it. -/
def LexRes.map (T : Lexer → Lexer) : LexRes → LexRes
  | LexRes.ok l => LexRes.ok (T l)
  | LexRes.panic e l => LexRes.panic e (T l)
  | LexRes.outOfFuel => LexRes.outOfFuel

/-- A change of the lexer state that the tokenizer cannot observe: `T` keeps the text
and the current character and commutes with `advance`, with the emission of a token
and with the token dump at the end of `tokenize`. -/
structure Lexer.Commutes (T : Lexer → Lexer) : Prop where
  src : ∀ l, (T l).src = l.src
  currChar : ∀ l, (T l).currChar = l.currChar
  advance : ∀ l, (T l).advance = T l.advance
  push : ∀ l tok, (T l).push tok = T (l.push tok)
  dump : ∀ l, (if (T l).debug then { T l with out := (T l).out ++ [OutLine.lexerTokens (T l).tokens] } else T l)
    = T (if l.debug then { l with out := l.out ++ [OutLine.lexerTokens l.tokens] } else l)

/-- The lines that remain when the calc-mode echo lines are dropped unless
`keepEcho`, and the trace lines unless `keepTrace`. -/
def OutLine.audible (keepEcho keepTrace : Bool) : OutLine → Bool
  | OutLine.println _ => true
  | OutLine.result _ => keepEcho
  | _ => keepTrace

/-- The parser state with calc mode switched off unless `keepEcho`, tracing switched
off unless `keepTrace`, and only the audible lines kept of what it has printed. -/
def Parser.mute (keepEcho keepTrace : Bool) (p : Parser) : Parser :=
  { p with calcMode := keepEcho && p.calcMode, debug := keepTrace && p.debug, out := p.out.filter (OutLine.audible keepEcho keepTrace) }

/-- The lexer state with tracing switched off unless `keepTrace` and only the audible
lines kept. -/
def Lexer.mute (keepEcho keepTrace : Bool) (l : Lexer) : Lexer :=
  { l with debug := keepTrace && l.debug, out := l.out.filter (OutLine.audible keepEcho keepTrace) }

/-- The outcome of a line with only the audible lines kept. -/
def Outcome.mute (keepEcho keepTrace : Bool) : Outcome → Outcome
  | Outcome.done vars out => Outcome.done vars (out.filter (OutLine.audible keepEcho keepTrace))
  | Outcome.panicked e vars out => Outcome.panicked e vars (out.filter (OutLine.audible keepEcho keepTrace))
  | Outcome.outOfFuel => Outcome.outOfFuel

/-- The bindings of `env`, and under them those of `base`. -/
def Env.overlay (env base : Env) : Env :=
  fun k => match env k with
    | some v => some v
    | none => base k

/-- The parser state with the bindings of `base` put under its environment. -/
def Parser.overlay (base : Env) (p : Parser) : Parser :=
  { p with vars := p.vars.overlay base }

/-- The lines entered in a session, each with the calc and debug flags in force when
it was entered, evaluated in order against one environment (the `default` case of
`run`, once per line); a panic ends the process. -/
def runEntries : List (List Char × Bool × Bool) → Env → Outcome
  | [], vars => Outcome.done vars []
  | (text, calcMode, debug) :: rest, vars =>
    match runLine text calcMode debug vars with
    | Outcome.done vars1 out1 =>
      match runEntries rest vars1 with
      | Outcome.done vars2 out2 => Outcome.done vars2 (out1 ++ out2)
      | Outcome.panicked e vars2 out2 => Outcome.panicked e vars2 (out1 ++ out2)
      | Outcome.outOfFuel => Outcome.outOfFuel
    | r => r

/-- The loop `for _, cmd := range commands` of the `run` command: every stored line
again, in order, under the current flags and against the live environment. -/
def runLines (commands : List (List Char)) (calcMode debug : Bool) (vars : Env) : Outcome :=
  runEntries (commands.map fun cmd => (cmd, calcMode, debug)) vars

/-- The body of the loop `for l.currChar != 0` of `tokenize`: one iteration. -/
def Lexer.tokenizeStep (l : Lexer) : LexRes :=
  match tokenMap l.currChar with
  | some tokenType => LexRes.ok (l.push ⟨tokenType, Value.rune l.currChar⟩).advance
  | none =>
    if l.currChar = Char.ofNat 34 then l.parseString
    else if l.currChar = ' ' then LexRes.ok l.advance
    else if digits.contains l.currChar = true then l.parseNum
    else if letters.contains l.currChar = true then l.parseVar
    else LexRes.panic (Panic.UnexpectedCharacter l.currChar) l

/-- An iteration that started in state `l` ended within its budget; if it did not
panic, it reads the same text, its position has moved forward by at least one and it
has emitted at most one token. -/
def LexRes.Progress (r : LexRes) (l : Lexer) : Prop :=
  match r with
  | LexRes.ok l1 => l1.WF ∧ l1.src = l.src ∧ l.pos + 1 ≤ l1.pos ∧
      l1.tokens.length ≤ l.tokens.length + 1
  | LexRes.panic _ _ => True
  | LexRes.outOfFuel => False

/-! ## The tokenizer on a line given lexeme by lexeme -/

variable {dbg : Bool}

theorem Lexer.advance_sees {l : Lexer} {pre rest : List Char} {c : Char} {toks : List Token}
    (h : l.Sees dbg pre (c :: rest) toks) : l.advance.Sees dbg (pre ++ [c]) rest toks := by
  obtain ⟨hsrc, hpos, _, htok, hdbg, hout, htr⟩ := h
  refine ⟨by simp [Lexer.advance, hsrc], by simp [Lexer.advance, hpos], ?_,
    by simp [Lexer.advance, htok], by simp [Lexer.advance, hdbg], ?_, ?_⟩
  · cases rest with
    | nil => simp [Lexer.advance, hsrc, hpos]
    | cons r rs =>
      have h1 : ((pre.length : Int) + 1).toNat = pre.length + 1 := by omega
      have h2 : (pre.length : Int) + 1 < ((pre.length + (rs.length + 1 + 1) : Nat) : Int) := by omega
      simp [Lexer.advance, hsrc, hpos, h1, List.getD_eq_getElem?_getD, List.getElem?_append_right]
      rw [List.getElem_append_right (by omega)]
      simp
  · intro hd
    have hd2 : l.debug = false := by rw [hdbg, hd]
    simp [Lexer.advance, hd2, hout hd]
  · intro x hx
    simp only [Lexer.advance] at hx
    split at hx
    · rcases List.mem_append.1 hx with h | h
      · exact htr x h
      · simp at h
        subst h
        rfl
    · exact htr x hx

theorem Lexer.push_sees {l : Lexer} {pre rest : List Char} {toks : List Token} (tok : Token)
    (h : l.Sees dbg pre rest toks) : (l.push tok).Sees dbg pre rest (toks ++ [tok]) := by
  obtain ⟨hsrc, hpos, hc, htok, hdbg, hout, htr⟩ := h
  exact ⟨hsrc, hpos, hc, by simp [Lexer.push, htok], hdbg, hout, htr⟩

theorem Lexer.parseNumLoop_eq_scanLoop (fuel : Nat) (l : Lexer) (acc : List Char) :
    Lexer.parseNumLoop fuel l acc =
      Lexer.scanLoop (fun c => decide (c ≠ NUL ∧ digits.contains c = true)) fuel l acc := by
  induction fuel generalizing l acc with
  | zero => rfl
  | succ n ih => simp only [Lexer.parseNumLoop, Lexer.scanLoop, ih, decide_eq_true_eq]

theorem Lexer.parseStringLoop_eq_scanLoop (fuel : Nat) (l : Lexer) (acc : List Char) :
    Lexer.parseStringLoop fuel l acc =
      Lexer.scanLoop (fun c => decide (c ≠ NUL ∧ c ≠ Char.ofNat 34)) fuel l acc := by
  induction fuel generalizing l acc with
  | zero => rfl
  | succ n ih => simp only [Lexer.parseStringLoop, Lexer.scanLoop, ih, decide_eq_true_eq]

theorem Lexer.parseVarLoop_eq_scanLoop (fuel : Nat) (l : Lexer) (acc : List Char) :
    Lexer.parseVarLoop fuel l acc =
      Lexer.scanLoop (fun c => decide (c ≠ NUL ∧ (letters ++ digits).contains c = true)) fuel l acc := by
  induction fuel generalizing l acc with
  | zero => rfl
  | succ n ih => simp only [Lexer.parseVarLoop, Lexer.scanLoop, ih, decide_eq_true_eq]

theorem Lexer.scanLoop_sees (P : Char → Bool) (run rest : List Char) :
    ∀ (pre : List Char) (l : Lexer) (acc : List Char) (fuel : Nat) (toks : List Token),
      l.Sees dbg pre (run ++ rest) toks → (∀ c ∈ run, P c = true) → P (rest.headD NUL) = false →
      run.length < fuel →
      ∃ l1, Lexer.scanLoop P fuel l acc = some (l1, acc ++ run) ∧ l1.Sees dbg (pre ++ run) rest toks := by
  induction run with
  | nil =>
    intro pre l acc fuel toks hs _ hstop hf
    obtain ⟨n, rfl⟩ : ∃ n, fuel = n + 1 := ⟨fuel - 1, by omega⟩
    have hc : l.currChar = rest.headD NUL := by simpa using hs.2.2.1
    refine ⟨l, ?_, by simpa using hs⟩
    simp only [Lexer.scanLoop, hc, hstop]
    simp
  | cons c run ih =>
    intro pre l acc fuel toks hs hall hstop hf
    obtain ⟨n, rfl⟩ : ∃ n, fuel = n + 1 := ⟨fuel - 1, by simp at hf; omega⟩
    have hc : l.currChar = c := by simpa using hs.2.2.1
    have hPc : P c = true := hall c (by simp)
    have hs1 : l.advance.Sees dbg (pre ++ [c]) (run ++ rest) toks := Lexer.advance_sees (by simpa using hs)
    obtain ⟨l1, h1, h2⟩ := ih (pre ++ [c]) l.advance (acc ++ [c]) n toks hs1
      (fun d hd => hall d (by simp [hd])) hstop (by simp at hf; omega)
    refine ⟨l1, ?_, by simpa using h2⟩
    simp only [Lexer.scanLoop, hc, hPc, h1]
    simp

/-! ### Facts about the character classes -/

theorem mem_of_contains {c : Char} {l : List Char} (h : l.contains c = true) : c ∈ l := by
  simpa using h

theorem digits_facts : ∀ c ∈ digits,
    c ≠ NUL ∧ tokenMap c = none ∧ c ≠ Char.ofNat 34 ∧ c ≠ ' ' := by decide

theorem letters_facts : ∀ c ∈ letters,
    c ≠ NUL ∧ tokenMap c = none ∧ c ≠ Char.ofNat 34 ∧ c ≠ ' ' ∧ digits.contains c = false := by
  decide

theorem tokenMap_ne_NUL {c : Char} {ty : TokType} (h : tokenMap c = some ty) : c ≠ NUL := by
  intro hc
  subst hc
  have h0 : tokenMap NUL = none := by decide
  rw [h0] at h
  cases h

/-! ### The three literal scanners and the loop of `tokenize` -/

theorem Lexer.parseNum_sees {l : Lexer} {pre ds rest : List Char} {toks : List Token}
    (hs : l.Sees dbg pre (ds ++ rest) toks) (hds : ∀ c ∈ ds, digits.contains c = true)
    (hstop : digits.contains (rest.headD NUL) = false) :
    ∃ l1, l.parseNum = LexRes.ok l1 ∧
      l1.Sees dbg (pre ++ ds) rest (toks ++ [⟨TokType.NUMBER, Value.int (Atoi ds)⟩]) := by
  have hlen : ds.length < l.src.length + 1 := by
    rw [hs.1]; simp; omega
  obtain ⟨l1, h1, h2⟩ := Lexer.scanLoop_sees
    (fun c => decide (c ≠ NUL ∧ digits.contains c = true)) ds rest pre l [] _ toks hs
    (fun c hc => by
      have hd := hds c hc
      have hne := (digits_facts c (mem_of_contains hd)).1
      exact decide_eq_true ⟨hne, hd⟩)
    (decide_eq_false (by rintro ⟨_, h⟩; rw [hstop] at h; cases h)) hlen
  refine ⟨l1.push ⟨TokType.NUMBER, Value.int (Atoi ds)⟩, ?_, Lexer.push_sees _ h2⟩
  simp only [Lexer.parseNum, Lexer.parseNumLoop_eq_scanLoop, h1, List.nil_append]

theorem Lexer.parseVar_sees {l : Lexer} {pre w rest : List Char} {toks : List Token}
    (hs : l.Sees dbg pre (w ++ rest) toks) (hw : ∀ c ∈ w, (letters ++ digits).contains c = true)
    (hstop : (letters ++ digits).contains (rest.headD NUL) = false) :
    ∃ l1, l.parseVar = LexRes.ok l1 ∧ l1.Sees dbg (pre ++ w) rest (toks ++ [wordToken w]) := by
  have hlen : w.length < l.src.length + 1 := by
    rw [hs.1]; simp; omega
  obtain ⟨l1, h1, h2⟩ := Lexer.scanLoop_sees
    (fun c => decide (c ≠ NUL ∧ (letters ++ digits).contains c = true)) w rest pre l [] _ toks hs
    (fun c hc => by
      have hd := hw c hc
      have hne : c ≠ NUL := by
        have hm : c ∈ letters ++ digits := mem_of_contains hd
        rcases List.mem_append.1 hm with h | h
        · exact (letters_facts c h).1
        · exact (digits_facts c h).1
      exact decide_eq_true ⟨hne, hd⟩)
    (decide_eq_false (by rintro ⟨_, h⟩; rw [hstop] at h; cases h)) hlen
  refine ⟨l1.push (wordToken w), ?_, Lexer.push_sees _ h2⟩
  simp only [Lexer.parseVar, Lexer.parseVarLoop_eq_scanLoop, h1, List.nil_append, wordToken]
  split <;> rfl

theorem Lexer.parseString_sees {l : Lexer} {pre s rest : List Char} {toks : List Token}
    (hs : l.Sees dbg pre (Char.ofNat 34 :: (s ++ Char.ofNat 34 :: rest)) toks)
    (hstr : ∀ c ∈ s, c ≠ NUL ∧ c ≠ Char.ofNat 34) :
    ∃ l1, l.parseString = LexRes.ok l1 ∧
      l1.Sees dbg (pre ++ Char.ofNat 34 :: (s ++ [Char.ofNat 34])) rest
        (toks ++ [⟨TokType.STRING, Value.str s⟩]) := by
  have hs0 := Lexer.advance_sees hs
  have hlen : s.length < l.advance.src.length + 1 := by
    rw [hs0.1]; simp; omega
  obtain ⟨l1, h1, h2⟩ := Lexer.scanLoop_sees
    (fun c => decide (c ≠ NUL ∧ c ≠ Char.ofNat 34)) s (Char.ofNat 34 :: rest) _ l.advance [] _ toks
    hs0 (fun c hc => by simpa using hstr c hc) (by simp) hlen
  have hq : l1.currChar = Char.ofNat 34 := by simpa using h2.2.2.1
  have h3 := Lexer.push_sees ⟨TokType.STRING, Value.str s⟩ (Lexer.advance_sees h2)
  refine ⟨l1.advance.push ⟨TokType.STRING, Value.str s⟩, ?_, by simpa using h3⟩
  have hsrc : l.advance.src = l.src := rfl
  simp only [Lexer.parseString, Lexer.parseStringLoop_eq_scanLoop, hsrc] at h1 ⊢
  rw [h1]
  simp [hq]

theorem Lexer.tokenizeLoop_step (x : Lexeme) {l : Lexer} {pre rest : List Char} {toks : List Token}
    (hs : l.Sees dbg pre (x.text ++ rest) toks) (hv : x.Valid (rest.headD NUL)) :
    ∃ l1, (∀ fuel, Lexer.tokenizeLoop (fuel + 1) l = Lexer.tokenizeLoop fuel l1) ∧
      l1.Sees dbg (pre ++ x.text) rest (toks ++ x.tokens) := by
  cases x with
  | op c ty =>
    have hc : l.currChar = c := by simpa [Lexeme.text] using hs.2.2.1
    have hm : tokenMap c = some ty := hv
    have hne : c ≠ NUL := tokenMap_ne_NUL hm
    refine ⟨(l.push ⟨ty, Value.rune c⟩).advance, ?_, ?_⟩
    · intro fuel
      simp only [Lexer.tokenizeLoop, hc, hm, ne_eq, hne, not_false_eq_true, if_true]
    · exact Lexer.advance_sees (Lexer.push_sees _ (by simpa [Lexeme.text] using hs))
  | space =>
    have hc : l.currChar = ' ' := by simpa [Lexeme.text] using hs.2.2.1
    have hne : (' ' : Char) ≠ NUL := by decide
    have hm : tokenMap ' ' = none := by decide
    have hq : (' ' : Char) ≠ Char.ofNat 34 := by decide
    refine ⟨l.advance, ?_, ?_⟩
    · intro fuel
      simp only [Lexer.tokenizeLoop, hc, hm, ne_eq, hne, hq, not_false_eq_true, if_true, if_false]
    · simpa [Lexeme.text, Lexeme.tokens] using
        (Lexer.advance_sees (by simpa [Lexeme.text] using hs) : l.advance.Sees dbg (pre ++ [' ']) rest toks)
  | num ds =>
    obtain ⟨hne0, hds, hstop⟩ := hv
    obtain ⟨d, ds1, rfl⟩ := List.exists_cons_of_ne_nil hne0
    have hc : l.currChar = d := by simpa [Lexeme.text] using hs.2.2.1
    have hd : digits.contains d = true := hds d (by simp)
    obtain ⟨hne, hm, hq, hsp⟩ := digits_facts d (mem_of_contains hd)
    obtain ⟨l1, h1, h2⟩ := Lexer.parseNum_sees (by simpa [Lexeme.text] using hs) hds hstop
    refine ⟨l1, ?_, by simpa [Lexeme.text, Lexeme.tokens] using h2⟩
    intro fuel
    simp only [Lexer.tokenizeLoop, hc, hm, ne_eq, hne, hq, hsp, hd, h1, not_false_eq_true, if_true,
      if_false]
  | word w =>
    obtain ⟨hhead, hw, hstop⟩ := hv
    cases w with
    | nil =>
      exfalso
      revert hhead
      decide
    | cons d w1 =>
      have hc : l.currChar = d := by simpa [Lexeme.text] using hs.2.2.1
      have hd : letters.contains d = true := by simpa using hhead
      obtain ⟨hne, hm, hq, hsp, hdig⟩ := letters_facts d (mem_of_contains hd)
      obtain ⟨l1, h1, h2⟩ := Lexer.parseVar_sees (by simpa [Lexeme.text] using hs) hw hstop
      refine ⟨l1, ?_, by simpa [Lexeme.text, Lexeme.tokens] using h2⟩
      intro fuel
      simp only [Lexer.tokenizeLoop, hc, hm, ne_eq, hne, hq, hsp, hd, hdig, h1, not_false_eq_true,
        if_true, if_false]
      simp
  | strLit s =>
    have hc : l.currChar = Char.ofNat 34 := by simpa [Lexeme.text] using hs.2.2.1
    have hne : Char.ofNat 34 ≠ NUL := by decide
    have hm : tokenMap (Char.ofNat 34) = none := by decide
    obtain ⟨l1, h1, h2⟩ := Lexer.parseString_sees (by simpa [Lexeme.text] using hs) hv
    refine ⟨l1, ?_, by simpa [Lexeme.text, Lexeme.tokens] using h2⟩
    intro fuel
    simp only [Lexer.tokenizeLoop, hc, hm, ne_eq, hne, h1, not_false_eq_true, if_true]

theorem Lexer.tokenizeLoop_lexemes (xs : List Lexeme) :
    ∀ (pre : List Char) (l : Lexer) (toks : List Token) (fuel : Nat),
      l.Sees dbg pre (lexText xs) toks → LexValid xs → xs.length < fuel →
      ∃ l1, Lexer.tokenizeLoop fuel l = LexRes.ok l1 ∧
        l1.Sees dbg (pre ++ lexText xs) [] (toks ++ lexTokens xs) := by
  induction xs with
  | nil =>
    intro pre l toks fuel hs _ hf
    obtain ⟨n, rfl⟩ : ∃ n, fuel = n + 1 := ⟨fuel - 1, by omega⟩
    have hc : l.currChar = NUL := by simpa [lexText] using hs.2.2.1
    refine ⟨l, ?_, by simpa [lexText, lexTokens] using hs⟩
    simp only [Lexer.tokenizeLoop, hc, ne_eq, not_true_eq_false, if_false]
  | cons x xs ih =>
    intro pre l toks fuel hs hv hf
    obtain ⟨n, rfl⟩ : ∃ n, fuel = n + 1 := ⟨fuel - 1, by simp at hf; omega⟩
    obtain ⟨l1, h1, h2⟩ := Lexer.tokenizeLoop_step x (by simpa [lexText] using hs) hv.1
    obtain ⟨l2, h3, h4⟩ := ih (pre ++ x.text) l1 (toks ++ x.tokens) n h2 hv.2
      (by simp at hf; omega)
    exact ⟨l2, by rw [h1, h3], by simpa [lexText, lexTokens] using h4⟩

theorem lexText_length (xs : List Lexeme) (hv : LexValid xs) :
    xs.length ≤ (lexText xs).length := by
  induction xs with
  | nil => simp
  | cons x xs ih =>
    have h1 : 1 ≤ x.text.length := by
      cases x with
      | op c ty => simp [Lexeme.text]
      | space => simp [Lexeme.text]
      | num ds =>
        obtain ⟨d, ds1, rfl⟩ := List.exists_cons_of_ne_nil hv.1.1
        simp [Lexeme.text]
      | word w =>
        cases w with
        | nil =>
          exfalso
          have := hv.1.1
          revert this
          decide
        | cons d w1 => simp [Lexeme.text]
      | strLit s => simp [Lexeme.text]
    have h2 := ih hv.2
    simp only [lexText, List.length_append, List.length_cons]
    omega

/-- A line made of valid lexemes is tokenized into the tokens of its lexemes, and
the lexer prints nothing unless tracing is on. -/
theorem NewLexer_lexemes (xs : List Lexeme) (hv : LexValid xs) (debug : Bool) :
    ∃ l1, NewLexer (lexText xs) debug = LexRes.ok l1 ∧ l1.tokens = lexTokens xs ∧
      (debug = false → l1.out = []) ∧ ∀ x ∈ l1.out, x.isTrace = true := by
  let l0 : Lexer :=
    { src := lexText xs, tokens := [], pos := -1, currChar := NUL, debug := debug, out := [] }
  have hs0 : l0.advance.Sees debug [] (lexText xs) [] := by
    refine ⟨rfl, by simp [Lexer.advance, l0], ?_, rfl, rfl, ?_, ?_⟩
    · cases h : lexText xs with
      | nil => simp [Lexer.advance, l0, h]
      | cons c cs => simp [Lexer.advance, l0, h]
    · intro hd
      have hd2 : debug = false := hd
      simp [Lexer.advance, l0, hd2]
    · intro x hx
      simp only [Lexer.advance, l0] at hx
      split at hx
      · simp at hx
        subst hx
        rfl
      · simp at hx
  have hsrc : l0.advance.src = lexText xs := rfl
  obtain ⟨l1, h1, h2⟩ := Lexer.tokenizeLoop_lexemes xs [] l0.advance [] (l0.advance.src.length + 1)
    hs0 hv (by rw [hsrc]; have := lexText_length xs hv; omega)
  refine ⟨if l1.debug then { l1 with out := l1.out ++ [OutLine.lexerTokens l1.tokens] } else l1,
    ?_, ?_, ?_, ?_⟩
  · show l0.advance.tokenize = _
    simp only [Lexer.tokenize, h1]
  · have := h2.2.2.2.1
    split <;> simpa using this
  · intro hd
    have hd1 : l1.debug = false := by rw [h2.2.2.2.2.1, hd]
    simp only [hd1, Bool.false_eq_true, if_false]
    exact h2.2.2.2.2.2.1 hd
  · intro x hx
    split at hx
    · rcases List.mem_append.1 hx with h | h
      · exact h2.2.2.2.2.2.2 x h
      · simp at h
        subst h
        rfl
    · exact h2.2.2.2.2.2.2 x hx

theorem runLine_lexemes (xs : List Lexeme) (hv : LexValid xs) (calcMode debug : Bool) (vars : Env) :
    ∃ out0, (debug = false → out0 = []) ∧ (∀ x ∈ out0, x.isTrace = true) ∧
      runLine (lexText xs) calcMode debug vars =
        Outcome.ofParse out0 (NewParser (lexTokens xs) calcMode debug vars) := by
  obtain ⟨l1, h1, h2, h3, h4⟩ := NewLexer_lexemes xs hv debug
  refine ⟨l1.out, h3, h4, ?_⟩
  simp only [runLine, h1, h2]
  cases NewParser (lexTokens xs) calcMode debug vars <;> rfl

theorem runLine_quiet (xs : List Lexeme) (hv : LexValid xs) (calcMode : Bool) (vars : Env) :
    runLine (lexText xs) calcMode false vars =
      Outcome.ofParse [] (NewParser (lexTokens xs) calcMode false vars) := by
  obtain ⟨out0, h0, -, h⟩ := runLine_lexemes xs hv calcMode false vars
  rw [h, h0 rfl]

/-! ### Arithmetic of 64-bit integers -/

theorem wrap64_eq {z : Int} (h : InInt64 z) : wrap64 z = z := by
  obtain ⟨h1, h2⟩ := h
  unfold wrap64
  omega

theorem Atoi_eq {ds : List Char} (h : IsNumeral ds) (hfit : InInt64 (decimalValue ds)) :
    Atoi ds = (decimalValue ds : Int) := by
  obtain ⟨h1, h2⟩ := h
  have hall : ds.all (fun c => digits.contains c) = true := List.all_eq_true.2 h2
  have hle : ¬ ((decimalValue ds : Int) > maxInt64) := by
    have := hfit.2
    unfold maxInt64
    omega
  simp only [Atoi, h1, hall, false_or, not_true_eq_false, if_false, hle]

/-! ## The budgets suffice -/

theorem Parser.advance_wf {p : Parser} (h : p.WF) :
    p.advance.WF ∧ p.advance.tokens = p.tokens ∧ p.advance.idx = p.idx + 1 := by
  refine ⟨⟨?_, rfl⟩, rfl, rfl⟩
  have := h.1
  show 0 ≤ p.idx + 1
  omega

theorem Parser.lt_of_type_ne {p : Parser} (h : p.WF) (ht : p.currTok.type ≠ TokType.empty) :
    p.idx < (p.tokens.length : Int) := by
  by_contra hcon
  have h2 := h.2
  rw [if_neg hcon] at h2
  rw [h2] at ht
  exact ht rfl

theorem Res.good_bind {α β : Type} {r : Res α} {f : α → Parser → Res β} {p : Parser} {j k : Int}
    (h : r.Good p j)
    (hf : ∀ a q, q.WF → q.tokens = p.tokens → p.idx + j ≤ q.idx → (f a q).Good p k) :
    (r.bind f).Good p k := by
  cases r with
  | ok a q => exact hf a q h.1 h.2.1 h.2.2
  | panic e q => exact ⟨h.1, h.2⟩
  | outOfFuel => exact h

theorem Res.good_rebase {α : Type} {r : Res α} {p q : Parser} {j m k : Int}
    (h : r.Good q m) (ht : q.tokens = p.tokens) (hi : p.idx + j ≤ q.idx) (hj : 0 ≤ j)
    (hk : k ≤ j + m) : r.Good p k := by
  cases r with
  | ok a s => exact ⟨h.1, h.2.1.trans ht, by have := h.2.2; omega⟩
  | panic e s => exact ⟨h.1.trans ht, by have := h.2; omega⟩
  | outOfFuel => exact h

theorem assertInt_good {v : Value} {q p : Parser} {f : Int → Res Value} {k : Int}
    (ht : q.tokens = p.tokens) (hi : p.idx ≤ q.idx) (hf : ∀ a, (f a).Good p k) :
    (assertInt v q f).Good p k := by
  cases v <;> first | exact hf _ | exact ⟨ht, hi⟩

theorem assertBool_good {v : Value} {q p : Parser} {f : Bool → Res Value} {k : Int}
    (ht : q.tokens = p.tokens) (hi : p.idx ≤ q.idx) (hf : ∀ a, (f a).Good p k) :
    (assertBool v q f).Good p k := by
  cases v <;> first | exact hf _ | exact ⟨ht, hi⟩

theorem Parser.rem_le {p q : Parser} (ht : q.tokens = p.tokens) (hi : p.idx ≤ q.idx) :
    q.rem ≤ p.rem := by
  unfold Parser.rem
  rw [ht]
  omega

theorem Parser.rem_lt {p q : Parser} (h : p.WF) (hne : p.currTok.type ≠ TokType.empty)
    (ht : q.tokens = p.tokens) (hi : p.idx + 1 ≤ q.idx) : q.rem + 1 ≤ p.rem := by
  have hlt := Parser.lt_of_type_ne h hne
  unfold Parser.rem
  rw [ht]
  omega

theorem Parser.factor_good_step (n : Nat)
    (ihF : ∀ p : Parser, p.WF → 3 * p.rem + 1 ≤ n → (Parser.factor n p).Good p 1)
    (ihE : ∀ p : Parser, p.WF → 3 * p.rem + 3 ≤ n → (Parser.expr n p).Good p 1)
    (p : Parser) (hp : p.WF) (hn : 3 * p.rem + 1 ≤ n + 1) :
    (Parser.factor (n + 1) p).Good p 1 := by
  obtain ⟨hw1, ht1, hi1⟩ := Parser.advance_wf hp
  rw [Parser.factor]
  split
  · exact ⟨hw1, ht1, by omega⟩
  · exact ⟨hw1, ht1, by omega⟩
  · exact ⟨hw1, ht1, by omega⟩
  · split
    · split
      · exact ⟨hw1, ht1, by omega⟩
      · exact ⟨rfl, by omega⟩
    · exact ⟨rfl, by omega⟩
  · rename_i hty
    have hne : p.currTok.type ≠ TokType.empty := by rw [hty]; decide
    have hrem := Parser.rem_lt hp hne ht1 (by omega)
    have h1 := Res.good_rebase (ihF p.advance hw1 (by omega)) ht1 (j := 1) (k := 1) (by omega)
      (by omega) (by omega)
    refine Res.good_bind h1 ?_
    intro a q hq htq hiq
    exact assertBool_good htq (by omega) (fun b => ⟨hq, htq, hiq⟩)
  · rename_i hty
    have hne : p.currTok.type ≠ TokType.empty := by rw [hty]; decide
    have hrem := Parser.rem_lt hp hne ht1 (by omega)
    have h1 := Res.good_rebase (ihE p.advance hw1 (by omega)) ht1 (j := 1) (k := 1) (by omega)
      (by omega) (by omega)
    refine Res.good_bind h1 ?_
    intro a q hq htq hiq
    obtain ⟨hw2, ht2, hi2⟩ := Parser.advance_wf hq
    split
    · exact ⟨hw2, ht2.trans htq, by omega⟩
    · exact ⟨htq, by omega⟩
  · exact ⟨rfl, by omega⟩

theorem Parser.termLoop_good_step (n : Nat)
    (ihF : ∀ p : Parser, p.WF → 3 * p.rem + 1 ≤ n → (Parser.factor n p).Good p 1)
    (ihTL : ∀ (v : Value) (p : Parser), p.WF → 3 * p.rem + 1 ≤ n →
      (Parser.termLoop n v p).Good p 0)
    (v : Value) (p : Parser) (hp : p.WF) (hn : 3 * p.rem + 1 ≤ n + 1) :
    (Parser.termLoop (n + 1) v p).Good p 0 := by
  obtain ⟨hw1, ht1, hi1⟩ := Parser.advance_wf hp
  rw [Parser.termLoop]
  split
  · rename_i hty
    have hne : p.currTok.type ≠ TokType.empty := by rw [hty]; decide
    have hrem := Parser.rem_lt hp hne ht1 (by omega)
    refine assertInt_good ht1 (by omega) (fun a => ?_)
    have h1 := Res.good_rebase (ihF p.advance hw1 (by omega)) ht1 (j := 1) (k := 1) (by omega)
      (by omega) (by omega)
    refine Res.good_bind h1 ?_
    intro r q hq htq hiq
    refine assertInt_good htq (by omega) (fun b => ?_)
    have hrq := Parser.rem_lt hp hne htq hiq
    exact Res.good_rebase (ihTL _ q hq (by omega)) htq (j := 1) (k := 0) hiq (by omega) (by omega)
  · rename_i hty
    have hne : p.currTok.type ≠ TokType.empty := by rw [hty]; decide
    have hrem := Parser.rem_lt hp hne ht1 (by omega)
    refine assertInt_good ht1 (by omega) (fun a => ?_)
    have h1 := Res.good_rebase (ihF p.advance hw1 (by omega)) ht1 (j := 1) (k := 1) (by omega)
      (by omega) (by omega)
    refine Res.good_bind h1 ?_
    intro r q hq htq hiq
    refine assertInt_good htq (by omega) (fun b => ?_)
    have hrq := Parser.rem_lt hp hne htq hiq
    split
    · exact ⟨htq, by omega⟩
    · exact Res.good_rebase (ihTL _ q hq (by omega)) htq (j := 1) (k := 0) hiq (by omega)
        (by omega)
  · exact ⟨hp, rfl, by omega⟩

theorem Parser.term_good_step (n : Nat)
    (ihF : ∀ p : Parser, p.WF → 3 * p.rem + 1 ≤ n → (Parser.factor n p).Good p 1)
    (ihTL : ∀ (v : Value) (p : Parser), p.WF → 3 * p.rem + 1 ≤ n →
      (Parser.termLoop n v p).Good p 0)
    (p : Parser) (hp : p.WF) (hn : 3 * p.rem + 2 ≤ n + 1) :
    (Parser.term (n + 1) p).Good p 1 := by
  rw [Parser.term]
  refine Res.good_bind (ihF p hp (by omega)) ?_
  intro r q hq htq hiq
  have hrq := Parser.rem_le htq (show p.idx ≤ q.idx by omega)
  exact Res.good_rebase (ihTL r q hq (by omega)) htq (j := 1) (k := 1) hiq (by omega) (by omega)

theorem Parser.exprLoop_good_step (n : Nat)
    (ihT : ∀ p : Parser, p.WF → 3 * p.rem + 2 ≤ n → (Parser.term n p).Good p 1)
    (ihEL : ∀ (v : Value) (p : Parser), p.WF → 3 * p.rem + 1 ≤ n →
      (Parser.exprLoop n v p).Good p 0)
    (v : Value) (p : Parser) (hp : p.WF) (hn : 3 * p.rem + 1 ≤ n + 1) :
    (Parser.exprLoop (n + 1) v p).Good p 0 := by
  obtain ⟨hw1, ht1, hi1⟩ := Parser.advance_wf hp
  rw [Parser.exprLoop]
  split
  · rename_i hty
    have hne : p.currTok.type ≠ TokType.empty := by rw [hty]; decide
    have hrem := Parser.rem_lt hp hne ht1 (by omega)
    refine assertInt_good ht1 (by omega) (fun a => ?_)
    have h1 := Res.good_rebase (ihT p.advance hw1 (by omega)) ht1 (j := 1) (k := 1) (by omega)
      (by omega) (by omega)
    refine Res.good_bind h1 ?_
    intro r q hq htq hiq
    refine assertInt_good htq (by omega) (fun b => ?_)
    have hrq := Parser.rem_lt hp hne htq hiq
    exact Res.good_rebase (ihEL _ q hq (by omega)) htq (j := 1) (k := 0) hiq (by omega) (by omega)
  · rename_i hty
    have hne : p.currTok.type ≠ TokType.empty := by rw [hty]; decide
    have hrem := Parser.rem_lt hp hne ht1 (by omega)
    refine assertInt_good ht1 (by omega) (fun a => ?_)
    have h1 := Res.good_rebase (ihT p.advance hw1 (by omega)) ht1 (j := 1) (k := 1) (by omega)
      (by omega) (by omega)
    refine Res.good_bind h1 ?_
    intro r q hq htq hiq
    refine assertInt_good htq (by omega) (fun b => ?_)
    have hrq := Parser.rem_lt hp hne htq hiq
    exact Res.good_rebase (ihEL _ q hq (by omega)) htq (j := 1) (k := 0) hiq (by omega) (by omega)
  · rename_i hty
    have hne : p.currTok.type ≠ TokType.empty := by rw [hty]; decide
    have hrem := Parser.rem_lt hp hne ht1 (by omega)
    refine assertBool_good ht1 (by omega) (fun a => ?_)
    split
    · have h1 := Res.good_rebase (ihT p.advance hw1 (by omega)) ht1 (j := 1) (k := 1) (by omega)
        (by omega) (by omega)
      refine Res.good_bind h1 ?_
      intro r q hq htq hiq
      refine assertBool_good htq (by omega) (fun b => ?_)
      have hrq := Parser.rem_lt hp hne htq hiq
      exact Res.good_rebase (ihEL _ q hq (by omega)) htq (j := 1) (k := 0) hiq (by omega)
        (by omega)
    · exact Res.good_rebase (ihEL _ p.advance hw1 (by omega)) ht1 (j := 1) (k := 0) (by omega)
        (by omega) (by omega)
  · rename_i hty
    have hne : p.currTok.type ≠ TokType.empty := by rw [hty]; decide
    have hrem := Parser.rem_lt hp hne ht1 (by omega)
    refine assertBool_good ht1 (by omega) (fun a => ?_)
    split
    · exact Res.good_rebase (ihEL _ p.advance hw1 (by omega)) ht1 (j := 1) (k := 0) (by omega)
        (by omega) (by omega)
    · have h1 := Res.good_rebase (ihT p.advance hw1 (by omega)) ht1 (j := 1) (k := 1) (by omega)
        (by omega) (by omega)
      refine Res.good_bind h1 ?_
      intro r q hq htq hiq
      refine assertBool_good htq (by omega) (fun b => ?_)
      have hrq := Parser.rem_lt hp hne htq hiq
      exact Res.good_rebase (ihEL _ q hq (by omega)) htq (j := 1) (k := 0) hiq (by omega)
        (by omega)
  · exact ⟨hp, rfl, by omega⟩

theorem Parser.expr_good_step (n : Nat)
    (ihT : ∀ p : Parser, p.WF → 3 * p.rem + 2 ≤ n → (Parser.term n p).Good p 1)
    (ihEL : ∀ (v : Value) (p : Parser), p.WF → 3 * p.rem + 1 ≤ n →
      (Parser.exprLoop n v p).Good p 0)
    (p : Parser) (hp : p.WF) (hn : 3 * p.rem + 3 ≤ n + 1) :
    (Parser.expr (n + 1) p).Good p 1 := by
  rw [Parser.expr]
  refine Res.good_bind (ihT p hp (by omega)) ?_
  intro r q hq htq hiq
  have hrq := Parser.rem_le htq (show p.idx ≤ q.idx by omega)
  have h1 := Res.good_rebase (ihEL r q hq (by omega)) htq (j := 1) (k := 1) hiq (by omega)
    (by omega)
  refine Res.good_bind h1 ?_
  intro r2 q2 hq2 htq2 hiq2
  split
  · exact ⟨hq2, htq2, hiq2⟩
  · exact ⟨hq2, htq2, hiq2⟩

/-- With a budget of three units per remaining token (plus one, two or three), the
methods `factor`, `term` and `expr` and the loops of `term` and `expr` end within
the budget; on success the index has moved forward, on a panic it has not moved
backward, and the cached current token stays the token at the index. -/
theorem Parser.good_all (n : Nat) :
    (∀ p : Parser, p.WF → 3 * p.rem + 1 ≤ n → (Parser.factor n p).Good p 1) ∧
    (∀ (v : Value) (p : Parser), p.WF → 3 * p.rem + 1 ≤ n → (Parser.termLoop n v p).Good p 0) ∧
    (∀ p : Parser, p.WF → 3 * p.rem + 2 ≤ n → (Parser.term n p).Good p 1) ∧
    (∀ (v : Value) (p : Parser), p.WF → 3 * p.rem + 1 ≤ n → (Parser.exprLoop n v p).Good p 0) ∧
    (∀ p : Parser, p.WF → 3 * p.rem + 3 ≤ n → (Parser.expr n p).Good p 1) := by
  induction n with
  | zero =>
    refine ⟨?_, ?_, ?_, ?_, ?_⟩ <;> intros <;> omega
  | succ n ih =>
    obtain ⟨ihF, ihTL, ihT, ihEL, ihE⟩ := ih
    exact ⟨Parser.factor_good_step n ihF ihE, Parser.termLoop_good_step n ihF ihTL,
      Parser.term_good_step n ihF ihTL, Parser.exprLoop_good_step n ihT ihEL,
      Parser.expr_good_step n ihT ihEL⟩

theorem Parser.expr_good (p : Parser) (hp : p.WF) : (Parser.expr p.exprFuel p).Good p 1 := by
  refine (Parser.good_all p.exprFuel).2.2.2.2 p hp ?_
  have h0 := hp.1
  unfold Parser.exprFuel Parser.rem
  omega

theorem Parser.assign_good (p : Parser) (hp : p.WF) : p.assign.Good p 1 := by
  rw [Parser.assign]
  split
  · obtain ⟨hw1, ht1, hi1⟩ := Parser.advance_wf hp
    obtain ⟨hw2, ht2, hi2⟩ := Parser.advance_wf hw1
    have hf : p.exprFuel = p.advance.advance.exprFuel := rfl
    rw [hf]
    have h1 := Res.good_rebase (Parser.expr_good _ hw2) (ht2.trans ht1) (j := 2) (k := 1)
      (by omega) (by omega) (by omega)
    refine Res.good_bind h1 ?_
    intro r q hq htq hiq
    exact ⟨hq, htq, hiq⟩
  · exact ⟨rfl, by omega⟩

theorem Parser.print_good (p : Parser) (hp : p.WF) : p.print.Good p 1 := by
  rw [Parser.print]
  refine Res.good_bind (Parser.expr_good p hp) ?_
  intro r q hq htq hiq
  exact ⟨hq, htq, hiq⟩

/-- The statement loop ends within a budget of one unit per remaining token plus one;
on normal completion the current token is the empty one. -/
theorem Parser.parseLoop_good (n : Nat) :
    ∀ p : Parser, p.WF → p.rem + 1 ≤ n →
      (Parser.parseLoop n p).Good p 0 ∧
      ∀ u q, Parser.parseLoop n p = Res.ok u q → q.currTok.type = TokType.empty := by
  induction n with
  | zero => intro p _ h; omega
  | succ n ih =>
    intro p hp hn
    rw [Parser.parseLoop]
    split
    · rename_i hne
      have hstmt : ∀ r : Res Unit, r.Good p 1 →
          (r.bind fun _ p1 => Parser.parseLoop n p1).Good p 0 ∧
          ∀ u q, (r.bind fun _ p1 => Parser.parseLoop n p1) = Res.ok u q →
            q.currTok.type = TokType.empty := by
        intro r hr
        cases r with
        | ok a q =>
          have hrq := Parser.rem_lt hp hne hr.2.1 hr.2.2
          obtain ⟨g1, g2⟩ := ih q hr.1 (by omega)
          exact ⟨Res.good_rebase g1 hr.2.1 (j := 1) (k := 0) hr.2.2 (by omega) (by omega), g2⟩
        | panic e q =>
          refine ⟨⟨hr.1, hr.2⟩, ?_⟩
          intro u q2 h
          cases h
        | outOfFuel => exact hr.elim
      apply hstmt
      split
      · split
        · exact Parser.assign_good p hp
        · split
          · obtain ⟨hw1, ht1, hi1⟩ := Parser.advance_wf hp
            exact Res.good_rebase (Parser.print_good _ hw1) ht1 (j := 1) (k := 1) (by omega)
              (by omega) (by omega)
          · refine Res.good_bind (Parser.expr_good p hp) ?_
            intro r q hq htq hiq
            exact ⟨hq, htq, hiq⟩
      · refine Res.good_bind (Parser.expr_good p hp) ?_
        intro r q hq htq hiq
        exact ⟨hq, htq, hiq⟩
    · rename_i hemp
      refine ⟨⟨hp, rfl, by omega⟩, ?_⟩
      intro u q h
      cases h
      simpa using hemp

/-- Budget sufficiency of the evaluator: `NewParser` never runs out of budget, for
any token sequence, flags and environment. -/
theorem NewParser_ne_outOfFuel (tokens : List Token) (calcMode debug : Bool) (vars : Env) :
    NewParser tokens calcMode debug vars ≠ Res.outOfFuel := by
  intro h
  have key : ∀ p : Parser, p.idx = -1 → p.advance.parse ≠ Res.outOfFuel := by
    intro p hidx hcon
    have hwf : p.advance.WF := ⟨by show (0 : Int) ≤ p.idx + 1; omega, rfl⟩
    have hrem : p.advance.rem + 1 ≤ p.advance.tokens.length + 1 := by
      show ((p.tokens.length : Int) - (p.idx + 1)).toNat + 1 ≤ p.tokens.length + 1
      omega
    have hg := (Parser.parseLoop_good _ _ hwf hrem).1
    rw [Parser.parse] at hcon
    rw [hcon] at hg
    exact hg
  exact key _ rfl h

theorem Lexer.advance_keeps_wf {l : Lexer} (h : l.WF) :
    l.advance.WF ∧ l.advance.src = l.src ∧ l.advance.pos = l.pos + 1 := by
  refine ⟨⟨?_, rfl⟩, rfl, rfl⟩
  have := h.1
  show 0 ≤ l.pos + 1
  omega

theorem Lexer.push_wf {l : Lexer} (tok : Token) (h : l.WF) :
    (l.push tok).WF ∧ (l.push tok).src = l.src ∧ (l.push tok).pos = l.pos :=
  ⟨h, rfl, rfl⟩

theorem Lexer.lt_of_ne_NUL {l : Lexer} (h : l.WF) (hc : l.currChar ≠ NUL) :
    l.pos < (l.src.length : Int) := by
  by_contra hcon
  have h2 := h.2
  rw [if_neg hcon] at h2
  exact hc h2

theorem Lexer.scanLoop_total (P : Char → Bool) (hP : P NUL = false) (fuel : Nat) :
    ∀ (l : Lexer) (acc : List Char), l.WF → l.rem + 1 ≤ fuel →
      ∃ l1 acc1, Lexer.scanLoop P fuel l acc = some (l1, acc1) ∧ l1.WF ∧ l1.src = l.src ∧
        l1.tokens = l.tokens ∧ l.pos ≤ l1.pos ∧ (P l.currChar = true → l.pos + 1 ≤ l1.pos) := by
  induction fuel with
  | zero => intro l acc _ h; omega
  | succ n ih =>
    intro l acc hl hn
    rw [Lexer.scanLoop]
    split
    · rename_i hc
      have hne : l.currChar ≠ NUL := by
        intro h0
        rw [h0, hP] at hc
        cases hc
      have hlt := Lexer.lt_of_ne_NUL hl hne
      obtain ⟨hw1, hs1, hp1⟩ := Lexer.advance_keeps_wf hl
      have hrem : l.advance.rem + 1 ≤ n := by
        unfold Lexer.rem at hn ⊢
        rw [hs1, hp1]
        omega
      obtain ⟨l1, acc1, e, hw, hs, htk, hpos, -⟩ := ih l.advance (acc ++ [l.currChar]) hw1 hrem
      exact ⟨l1, acc1, e, hw, hs.trans hs1, htk, by omega, fun _ => by omega⟩
    · rename_i hc
      exact ⟨l, acc, rfl, hl, rfl, rfl, by omega, fun h => absurd h hc⟩

theorem Lexer.rem_le_length {l : Lexer} (h : l.WF) : l.rem + 1 ≤ l.src.length + 1 := by
  have := h.1
  unfold Lexer.rem
  omega

theorem Lexer.parseNum_good {l : Lexer} (h : l.WF) (hd : digits.contains l.currChar = true) :
    l.parseNum.Good l 1 := by
  have hne : l.currChar ≠ NUL := (digits_facts _ (mem_of_contains hd)).1
  obtain ⟨l1, acc1, e, hw, hs, -, -, hpos⟩ := Lexer.scanLoop_total
    (fun c => decide (c ≠ NUL ∧ digits.contains c = true)) (by simp) (l.src.length + 1) l []
    h (Lexer.rem_le_length h)
  simp only [Lexer.parseNum, Lexer.parseNumLoop_eq_scanLoop, e]
  exact ⟨hw, hs, hpos (decide_eq_true ⟨hne, hd⟩)⟩

theorem Lexer.parseVar_good {l : Lexer} (h : l.WF) (hd : letters.contains l.currChar = true) :
    l.parseVar.Good l 1 := by
  have hne : l.currChar ≠ NUL := (letters_facts _ (mem_of_contains hd)).1
  have hin : (letters ++ digits).contains l.currChar = true := by
    have := mem_of_contains hd
    simp [this]
  obtain ⟨l1, acc1, e, hw, hs, -, -, hpos⟩ := Lexer.scanLoop_total
    (fun c => decide (c ≠ NUL ∧ (letters ++ digits).contains c = true)) (by simp)
    (l.src.length + 1) l [] h (Lexer.rem_le_length h)
  simp only [Lexer.parseVar, Lexer.parseVarLoop_eq_scanLoop, e]
  have hp := hpos (decide_eq_true ⟨hne, hin⟩)
  split
  · exact ⟨hw, hs, hp⟩
  · exact ⟨hw, hs, hp⟩

theorem Lexer.parseString_good {l : Lexer} (h : l.WF) : l.parseString.Good l 1 := by
  obtain ⟨hw1, hs1, hp1⟩ := Lexer.advance_keeps_wf h
  obtain ⟨l1, acc1, e, hw, hs, -, hpos, -⟩ := Lexer.scanLoop_total
    (fun c => decide (c ≠ NUL ∧ c ≠ Char.ofNat 34)) (by simp) (l.advance.src.length + 1)
    l.advance [] hw1 (Lexer.rem_le_length hw1)
  have hsrc : l.advance.src = l.src := rfl
  simp only [Lexer.parseString, Lexer.parseStringLoop_eq_scanLoop]
  rw [hsrc] at e
  rw [e]
  obtain ⟨hw2, hs2, hp2⟩ := Lexer.advance_keeps_wf hw
  simp only
  split
  · exact ⟨hw2, (hs2.trans hs).trans hs1, by show l.pos + 1 ≤ l1.advance.pos; omega⟩
  · trivial

/-- The loop of `tokenize` ends within a budget of one unit per remaining character
plus one. -/
theorem Lexer.tokenizeLoop_good (fuel : Nat) :
    ∀ l : Lexer, l.WF → l.rem + 1 ≤ fuel → (Lexer.tokenizeLoop fuel l).Good l 0 := by
  induction fuel with
  | zero => intro l _ h; omega
  | succ n ih =>
    intro l hl hn
    rw [Lexer.tokenizeLoop]
    split
    · rename_i hne
      have hlt := Lexer.lt_of_ne_NUL hl hne
      have h0 := hl.1
      have step : ∀ r : LexRes, r.Good l 1 →
          (match r with
            | LexRes.ok l1 => Lexer.tokenizeLoop n l1
            | r => r).Good l 0 := by
        intro r hr
        cases r with
        | ok l1 =>
          obtain ⟨hw, hs, hp⟩ := hr
          have hrem : l1.rem + 1 ≤ n := by
            unfold Lexer.rem at hn ⊢
            rw [hs]
            omega
          have hg := ih l1 hw hrem
          revert hg
          show (Lexer.tokenizeLoop n l1).Good l1 0 → (Lexer.tokenizeLoop n l1).Good l 0
          cases Lexer.tokenizeLoop n l1 with
          | ok l2 => exact fun hg => ⟨hg.1, hg.2.1.trans hs, by have := hg.2.2; omega⟩
          | panic e l2 => exact fun _ => trivial
          | outOfFuel => exact fun hg => hg
        | panic e l1 => trivial
        | outOfFuel => exact hr
      have adv : ∀ l0 : Lexer, l0.WF → l0.src = l.src → l0.pos = l.pos →
          (Lexer.tokenizeLoop n l0.advance).Good l 0 := by
        intro l0 hw0 hs0 hp0
        obtain ⟨hw1, hs1, hp1⟩ := Lexer.advance_keeps_wf hw0
        exact step (LexRes.ok l0.advance) ⟨hw1, hs1.trans hs0, by omega⟩
      split
      · exact adv _ (Lexer.push_wf _ hl).1 rfl rfl
      · split
        · exact step _ (Lexer.parseString_good hl)
        · split
          · exact adv l hl rfl rfl
          · split
            · rename_i hd
              exact step _ (Lexer.parseNum_good hl hd)
            · split
              · rename_i hd
                exact step _ (Lexer.parseVar_good hl hd)
              · trivial
    · exact ⟨hl, rfl, by omega⟩

/-- Budget sufficiency of the tokenizer: `NewLexer` never runs out of budget. -/
theorem NewLexer_ne_outOfFuel (text : List Char) (debug : Bool) :
    NewLexer text debug ≠ LexRes.outOfFuel := by
  have key : ∀ l : Lexer, l.pos = -1 → l.advance.tokenize ≠ LexRes.outOfFuel := by
    intro l hpos hcon
    have hwf : l.advance.WF := ⟨by show (0 : Int) ≤ l.pos + 1; omega, rfl⟩
    have hg := Lexer.tokenizeLoop_good _ _ hwf (Lexer.rem_le_length hwf)
    rw [Lexer.tokenize] at hcon
    cases h : Lexer.tokenizeLoop (l.advance.src.length + 1) l.advance with
    | ok l2 =>
      rw [h] at hcon
      cases hcon
    | panic e l2 =>
      rw [h] at hcon
      cases hcon
    | outOfFuel =>
      rw [h] at hg
      exact hg
  exact key _ rfl

/-- Budget sufficiency of a line: the outcome of `runLine` is a normal end or a Go
panic, never an exhausted budget. -/
theorem runLine_ne_outOfFuel (text : List Char) (calcMode debug : Bool) (vars : Env) :
    (∃ env out, runLine text calcMode debug vars = Outcome.done env out) ∨
    (∃ e env out, runLine text calcMode debug vars = Outcome.panicked e env out) := by
  have h1 := NewLexer_ne_outOfFuel text debug
  cases hl : NewLexer text debug with
  | ok lexer =>
    have h2 := NewParser_ne_outOfFuel lexer.tokens calcMode debug vars
    cases hp : NewParser lexer.tokens calcMode debug vars with
    | ok u p => exact Or.inl ⟨p.vars, lexer.out ++ p.out, by simp only [runLine, hl, hp]⟩
    | panic e p => exact Or.inr ⟨e, p.vars, lexer.out ++ p.out, by simp only [runLine, hl, hp]⟩
    | outOfFuel => exact absurd hp h2
  | panic e lexer => exact Or.inr ⟨e, vars, lexer.out, by simp only [runLine, hl]⟩
  | outOfFuel => exact absurd hl h1

/-! ## Precedence and parentheses (C1, C2) -/

theorem xWord : wordToken ['x'] = ⟨TokType.IDENTIFIER, Value.str ['x']⟩ := by decide

theorem parse_add_mul (a b c : Int) (calcMode debug : Bool) (vars : Env) :
    ∃ p, NewParser [⟨TokType.IDENTIFIER, Value.str ['x']⟩, ⟨TokType.EQUALS, Value.rune '='⟩,
        ⟨TokType.NUMBER, Value.int a⟩, ⟨TokType.PLUS, Value.rune '+'⟩,
        ⟨TokType.NUMBER, Value.int b⟩, ⟨TokType.MULTIPLY, Value.rune '*'⟩,
        ⟨TokType.NUMBER, Value.int c⟩] calcMode debug vars = Res.ok () p ∧
      p.vars = vars.set ['x'] (Value.int (wrap64 (a + wrap64 (b * c)))) := by
  cases calcMode <;> cases debug <;> exact ⟨_, rfl, rfl⟩

/-- Claim C1 (operator precedence). For unsigned decimal literals `a`, `b`, `c` whose
values, the product `b * c` and the sum `a + b * c` fit in a 64-bit signed integer, for
every environment and both mode flags, the line `x = a + b * c` ends normally and
binds `x` to `a + (b * c)`. -/
theorem precedence_mul_over_add (da db dc : List Char) (calcMode debug : Bool) (vars : Env)
    (ha : IsNumeral da) (hb : IsNumeral db) (hc : IsNumeral dc)
    (hfa : InInt64 (decimalValue da)) (hfb : InInt64 (decimalValue db))
    (hfc : InInt64 (decimalValue dc))
    (hbc : InInt64 ((decimalValue db : Int) * decimalValue dc))
    (habc : InInt64 ((decimalValue da : Int) + decimalValue db * decimalValue dc)) :
    (runLine ("x = ".toList ++ da ++ " + ".toList ++ db ++ " * ".toList ++ dc)
        calcMode debug vars).isDone = true ∧
    (runLine ("x = ".toList ++ da ++ " + ".toList ++ db ++ " * ".toList ++ dc)
        calcMode debug vars).lookup "x".toList
      = some (Value.int ((decimalValue da : Int) + decimalValue db * decimalValue dc)) := by
  have hv : LexValid [Lexeme.word ['x'], Lexeme.space, Lexeme.op '=' TokType.EQUALS, Lexeme.space,
      Lexeme.num da, Lexeme.space, Lexeme.op '+' TokType.PLUS, Lexeme.space,
      Lexeme.num db, Lexeme.space, Lexeme.op '*' TokType.MULTIPLY, Lexeme.space,
      Lexeme.num dc] := by
    exact ⟨(by decide : (Lexeme.word ['x']).Valid ' '), trivial,
      (by decide : tokenMap '=' = some TokType.EQUALS), trivial,
      ⟨ha.1, ha.2, (by decide : digits.contains ' ' = false)⟩, trivial,
      (by decide : tokenMap '+' = some TokType.PLUS), trivial,
      ⟨hb.1, hb.2, (by decide : digits.contains ' ' = false)⟩, trivial,
      (by decide : tokenMap '*' = some TokType.MULTIPLY), trivial,
      ⟨hc.1, hc.2, (by decide : digits.contains NUL = false)⟩, trivial⟩
  obtain ⟨out0, -, -, h⟩ := runLine_lexemes _ hv calcMode debug vars
  obtain ⟨p, hp, hvars⟩ := parse_add_mul (Atoi da) (Atoi db) (Atoi dc) calcMode debug vars
  have hline : ("x = ".toList ++ da ++ " + ".toList ++ db ++ " * ".toList ++ dc) =
      lexText [Lexeme.word ['x'], Lexeme.space, Lexeme.op '=' TokType.EQUALS, Lexeme.space,
      Lexeme.num da, Lexeme.space, Lexeme.op '+' TokType.PLUS, Lexeme.space,
      Lexeme.num db, Lexeme.space, Lexeme.op '*' TokType.MULTIPLY, Lexeme.space,
      Lexeme.num dc] := by
    simp [lexText, Lexeme.text]
  rw [hline, h]
  simp only [lexTokens, Lexeme.tokens, xWord, List.cons_append, List.nil_append, List.append_nil, hp,
    Outcome.ofParse, Outcome.isDone, Outcome.lookup, Outcome.vars?, hvars]
  rw [Atoi_eq ha hfa, Atoi_eq hb hfb, Atoi_eq hc hfc, wrap64_eq hbc, wrap64_eq habc]
  simp [Env.set]

theorem precedence_mul_over_add_witness :
    (runLine "x = 2 + 3 * 4".toList false false Env.empty).isDone = true ∧
    (runLine "x = 2 + 3 * 4".toList false false Env.empty).lookup "x".toList
      = some (Value.int 14) :=
  precedence_mul_over_add ['2'] ['3'] ['4'] false false Env.empty (by decide) (by decide)
    (by decide) (by decide) (by decide) (by decide) (by decide) (by decide)

theorem parse_paren_add_mul (a b c : Int) (calcMode debug : Bool) (vars : Env) :
    ∃ p, NewParser [⟨TokType.IDENTIFIER, Value.str ['x']⟩, ⟨TokType.EQUALS, Value.rune '='⟩,
        ⟨TokType.LPAREN, Value.rune '('⟩,
        ⟨TokType.NUMBER, Value.int a⟩, ⟨TokType.PLUS, Value.rune '+'⟩,
        ⟨TokType.NUMBER, Value.int b⟩, ⟨TokType.RPAREN, Value.rune ')'⟩,
        ⟨TokType.MULTIPLY, Value.rune '*'⟩,
        ⟨TokType.NUMBER, Value.int c⟩] calcMode debug vars = Res.ok () p ∧
      p.vars = vars.set ['x'] (Value.int (wrap64 (wrap64 (a + b) * c))) := by
  cases calcMode <;> cases debug <;> exact ⟨_, rfl, rfl⟩

/-- Claim C2 (parenthesization). For unsigned decimal literals `a`, `b`, `c` whose
values, the sum `a + b` and the product `(a + b) * c` fit in a 64-bit signed integer,
for every environment and both mode flags, the line `x = (a + b) * c` ends normally
and binds `x` to `(a + b) * c`. -/
theorem parenthesized_sum_times (da db dc : List Char) (calcMode debug : Bool) (vars : Env)
    (ha : IsNumeral da) (hb : IsNumeral db) (hc : IsNumeral dc)
    (hfa : InInt64 (decimalValue da)) (hfb : InInt64 (decimalValue db))
    (hfc : InInt64 (decimalValue dc))
    (hab : InInt64 ((decimalValue da : Int) + decimalValue db))
    (habc : InInt64 (((decimalValue da : Int) + decimalValue db) * decimalValue dc)) :
    (runLine ("x = (".toList ++ da ++ " + ".toList ++ db ++ ") * ".toList ++ dc)
        calcMode debug vars).isDone = true ∧
    (runLine ("x = (".toList ++ da ++ " + ".toList ++ db ++ ") * ".toList ++ dc)
        calcMode debug vars).lookup "x".toList
      = some (Value.int (((decimalValue da : Int) + decimalValue db) * decimalValue dc)) := by
  have hv : LexValid [Lexeme.word ['x'], Lexeme.space, Lexeme.op '=' TokType.EQUALS, Lexeme.space,
      Lexeme.op '(' TokType.LPAREN,
      Lexeme.num da, Lexeme.space, Lexeme.op '+' TokType.PLUS, Lexeme.space,
      Lexeme.num db, Lexeme.op ')' TokType.RPAREN, Lexeme.space,
      Lexeme.op '*' TokType.MULTIPLY, Lexeme.space, Lexeme.num dc] :=
    ⟨(by decide : (Lexeme.word ['x']).Valid ' '), trivial,
      (by decide : tokenMap '=' = some TokType.EQUALS), trivial,
      (by decide : tokenMap '(' = some TokType.LPAREN),
      ⟨ha.1, ha.2, (by decide : digits.contains ' ' = false)⟩, trivial,
      (by decide : tokenMap '+' = some TokType.PLUS), trivial,
      ⟨hb.1, hb.2, (by decide : digits.contains ')' = false)⟩,
      (by decide : tokenMap ')' = some TokType.RPAREN), trivial,
      (by decide : tokenMap '*' = some TokType.MULTIPLY), trivial,
      ⟨hc.1, hc.2, (by decide : digits.contains NUL = false)⟩, trivial⟩
  obtain ⟨out0, -, -, h⟩ := runLine_lexemes _ hv calcMode debug vars
  obtain ⟨p, hp, hvars⟩ := parse_paren_add_mul (Atoi da) (Atoi db) (Atoi dc) calcMode debug vars
  have hline : ("x = (".toList ++ da ++ " + ".toList ++ db ++ ") * ".toList ++ dc) =
      lexText [Lexeme.word ['x'], Lexeme.space, Lexeme.op '=' TokType.EQUALS, Lexeme.space,
      Lexeme.op '(' TokType.LPAREN,
      Lexeme.num da, Lexeme.space, Lexeme.op '+' TokType.PLUS, Lexeme.space,
      Lexeme.num db, Lexeme.op ')' TokType.RPAREN, Lexeme.space,
      Lexeme.op '*' TokType.MULTIPLY, Lexeme.space, Lexeme.num dc] := by
    simp [lexText, Lexeme.text]
  rw [hline, h]
  simp only [lexTokens, Lexeme.tokens, xWord, List.cons_append, List.nil_append, List.append_nil, hp,
    Outcome.ofParse, Outcome.isDone, Outcome.lookup, Outcome.vars?, hvars]
  rw [Atoi_eq ha hfa, Atoi_eq hb hfb, Atoi_eq hc hfc, wrap64_eq hab, wrap64_eq habc]
  simp [Env.set]

theorem parenthesized_sum_times_witness :
    (runLine "x = (2 + 3) * 4".toList false false Env.empty).isDone = true ∧
    (runLine "x = (2 + 3) * 4".toList false false Env.empty).lookup "x".toList
      = some (Value.int 20) :=
  parenthesized_sum_times ['2'] ['3'] ['4'] false false Env.empty (by decide) (by decide)
    (by decide) (by decide) (by decide) (by decide) (by decide) (by decide)

/-! ## Division (C3, C4) -/

theorem parse_div (a b : Int) (hb : b ≠ 0) (calcMode debug : Bool) (vars : Env) :
    ∃ p, NewParser [⟨TokType.IDENTIFIER, Value.str ['x']⟩, ⟨TokType.EQUALS, Value.rune '='⟩,
        ⟨TokType.NUMBER, Value.int a⟩, ⟨TokType.DIVIDE, Value.rune '/'⟩,
        ⟨TokType.NUMBER, Value.int b⟩] calcMode debug vars = Res.ok () p ∧
      p.vars = vars.set ['x'] (Value.int (wrap64 (Int.tdiv a b))) := by
  cases calcMode <;> cases debug <;>
    simp [NewParser, Parser.parse, Parser.parseLoop, Parser.advance, Parser.assign, Parser.exprFuel,
      Parser.expr, Parser.exprLoop, Parser.term, Parser.termLoop, Parser.factor, Res.bind,
      assertInt, Token.zero, hb]

theorem parse_div_zero (a : Int) (calcMode debug : Bool) (vars : Env) :
    ∃ p, NewParser [⟨TokType.IDENTIFIER, Value.str ['x']⟩, ⟨TokType.EQUALS, Value.rune '='⟩,
        ⟨TokType.NUMBER, Value.int a⟩, ⟨TokType.DIVIDE, Value.rune '/'⟩,
        ⟨TokType.NUMBER, Value.int 0⟩] calcMode debug vars = Res.panic Panic.DivisionByZero p ∧
      p.vars = vars := by
  cases calcMode <;> cases debug <;> exact ⟨_, rfl, rfl⟩

theorem tdiv_nonpos_of_nonpos {a b : Int} (ha : a ≤ 0) (hb : 0 < b) : Int.tdiv a b ≤ 0 := by
  have h := Int.tdiv_nonneg (Int.neg_nonneg_of_nonpos ha) (Int.le_of_lt hb)
  rw [Int.neg_tdiv] at h
  omega

theorem InInt64_tdiv {a b : Int} (ha : InInt64 a) (hb : 0 < b) : InInt64 (Int.tdiv a b) := by
  obtain ⟨ha1, ha2⟩ := ha
  have h1 : (Int.tdiv a b).natAbs ≤ a.natAbs := by
    rw [Int.natAbs_tdiv]
    exact Nat.div_le_self _ _
  rcases Int.le_total 0 a with h | h
  · have h2 := Int.tdiv_nonneg h (Int.le_of_lt hb)
    constructor <;> omega
  · have h2 := tdiv_nonpos_of_nonpos h hb
    constructor <;> omega

/-- Claim C3, amended (division of unsigned literals). For unsigned decimal literals
`a` and `b` with values in the 64-bit range, every environment and both mode flags:
when `b` is not zero the line `x = a / b` ends normally and looking up `x` yields the
quotient of `a` by `b` truncated toward zero; when `b` is zero the line aborts with
`DivisionByZero`. -/
theorem division_of_unsigned_literals (da db : List Char) (calcMode debug : Bool) (vars : Env)
    (ha : IsNumeral da) (hb : IsNumeral db)
    (hfa : InInt64 (decimalValue da)) (hfb : InInt64 (decimalValue db)) :
    (decimalValue db ≠ 0 →
      (runLine ("x = ".toList ++ da ++ " / ".toList ++ db) calcMode debug vars).isDone = true ∧
      (runLine ("x = ".toList ++ da ++ " / ".toList ++ db) calcMode debug vars).lookup "x".toList
        = some (Value.int (Int.tdiv (decimalValue da) (decimalValue db)))) ∧
    (decimalValue db = 0 →
      (runLine ("x = ".toList ++ da ++ " / ".toList ++ db) calcMode debug vars).panic?
        = some Panic.DivisionByZero) := by
  have hv : LexValid [Lexeme.word ['x'], Lexeme.space, Lexeme.op '=' TokType.EQUALS, Lexeme.space,
      Lexeme.num da, Lexeme.space, Lexeme.op '/' TokType.DIVIDE, Lexeme.space, Lexeme.num db] :=
    ⟨(by decide : (Lexeme.word ['x']).Valid ' '), trivial,
      (by decide : tokenMap '=' = some TokType.EQUALS), trivial,
      ⟨ha.1, ha.2, (by decide : digits.contains ' ' = false)⟩, trivial,
      (by decide : tokenMap '/' = some TokType.DIVIDE), trivial,
      ⟨hb.1, hb.2, (by decide : digits.contains NUL = false)⟩, trivial⟩
  obtain ⟨out0, -, -, h⟩ := runLine_lexemes _ hv calcMode debug vars
  have hline : ("x = ".toList ++ da ++ " / ".toList ++ db) =
      lexText [Lexeme.word ['x'], Lexeme.space, Lexeme.op '=' TokType.EQUALS, Lexeme.space,
      Lexeme.num da, Lexeme.space, Lexeme.op '/' TokType.DIVIDE, Lexeme.space, Lexeme.num db] := by
    simp [lexText, Lexeme.text]
  rw [hline, h]
  simp only [lexTokens, Lexeme.tokens, xWord, List.cons_append, List.nil_append, List.append_nil]
  rw [Atoi_eq ha hfa, Atoi_eq hb hfb]
  constructor
  · intro hnz
    have hnz1 : (decimalValue db : Int) ≠ 0 := by exact_mod_cast hnz
    have hnz2 : (0 : Int) < decimalValue db := by omega
    obtain ⟨p, hp, hvars⟩ := parse_div (decimalValue da) (decimalValue db) hnz1 calcMode debug vars
    simp only [hp, Outcome.ofParse, Outcome.isDone, Outcome.lookup, Outcome.vars?, hvars]
    rw [wrap64_eq (InInt64_tdiv hfa hnz2)]
    simp [Env.set]
  · intro hz
    obtain ⟨p, hp, -⟩ := parse_div_zero (decimalValue da) calcMode debug vars
    simp only [hz, Nat.cast_zero, hp, Outcome.ofParse, Outcome.panic?]

theorem division_of_unsigned_literals_witness :
    (runLine "x = 7 / 2".toList false false Env.empty).lookup "x".toList = some (Value.int 3) ∧
    (runLine "x = 7 / 0".toList false false Env.empty).panic? = some Panic.DivisionByZero :=
  ⟨((division_of_unsigned_literals ['7'] ['2'] false false Env.empty (by decide) (by decide)
      (by decide) (by decide)).1 (by decide)).2,
   (division_of_unsigned_literals ['7'] ['0'] false false Env.empty (by decide) (by decide)
      (by decide) (by decide)).2 (by decide)⟩

/-- Claim C3, counterexample. A decimal integer with a minus sign is not a literal
of the language: the lines `x = -7 / 2` and `x = 7 / -2` abort with an unexpected
`MINUS` token in `factor`, and `x` is not bound to the truncated quotient `-3`. -/
theorem division_negative_literal_rejected :
    (runLine "x = -7 / 2".toList false false Env.empty).panic?
        = some (Panic.UnexpectedToken ⟨TokType.MINUS, Value.rune '-'⟩) ∧
    (runLine "x = -7 / 2".toList false false Env.empty).lookup "x".toList
        ≠ some (Value.int (Int.tdiv (-7) 2)) ∧
    (runLine "x = 7 / -2".toList false false Env.empty).panic?
        = some (Panic.UnexpectedToken ⟨TokType.MINUS, Value.rune '-'⟩) := by
  have e1 : "x = -7 / 2".toList = lexText [Lexeme.word "x".toList, Lexeme.space,
      Lexeme.op '=' TokType.EQUALS, Lexeme.space, Lexeme.op '-' TokType.MINUS,
      Lexeme.num "7".toList, Lexeme.space, Lexeme.op '/' TokType.DIVIDE, Lexeme.space,
      Lexeme.num "2".toList] := by decide
  have e2 : "x = 7 / -2".toList = lexText [Lexeme.word "x".toList, Lexeme.space,
      Lexeme.op '=' TokType.EQUALS, Lexeme.space, Lexeme.num "7".toList, Lexeme.space,
      Lexeme.op '/' TokType.DIVIDE, Lexeme.space, Lexeme.op '-' TokType.MINUS,
      Lexeme.num "2".toList] := by decide
  rw [e1, e2, runLine_quiet _ (by decide), runLine_quiet _ (by decide)]
  decide

theorem parse_paren_sub_div (a b c : Int) (hc : c ≠ 0) (calcMode debug : Bool) (vars : Env) :
    ∃ p, NewParser [⟨TokType.IDENTIFIER, Value.str ['x']⟩, ⟨TokType.EQUALS, Value.rune '='⟩,
        ⟨TokType.LPAREN, Value.rune '('⟩,
        ⟨TokType.NUMBER, Value.int a⟩, ⟨TokType.MINUS, Value.rune '-'⟩,
        ⟨TokType.NUMBER, Value.int b⟩, ⟨TokType.RPAREN, Value.rune ')'⟩,
        ⟨TokType.DIVIDE, Value.rune '/'⟩,
        ⟨TokType.NUMBER, Value.int c⟩] calcMode debug vars = Res.ok () p ∧
      p.vars = vars.set ['x'] (Value.int (wrap64 (Int.tdiv (wrap64 (a - b)) c))) := by
  cases calcMode <;> cases debug <;>
    simp [NewParser, Parser.parse, Parser.parseLoop, Parser.advance, Parser.assign, Parser.exprFuel,
      Parser.expr, Parser.exprLoop, Parser.term, Parser.termLoop, Parser.factor, Res.bind,
      assertInt, Token.zero, hc]

/-- Claim C4 (truncation toward zero with a negative dividend). For unsigned decimal
literals `a`, `b`, `c` in the 64-bit range with `c` positive, every environment and
both mode flags, the line `x = (a - b) / c` ends normally and binds `x` to the
quotient `q` of `a - b` by `c` rounded toward zero: `|q| = |a - b| / c` (floor), `q` is
not negative when `a - b` is not negative and not positive when `a - b` is not
positive. -/
theorem division_truncates_toward_zero (da db dc : List Char) (calcMode debug : Bool) (vars : Env)
    (ha : IsNumeral da) (hb : IsNumeral db) (hc : IsNumeral dc)
    (hfa : InInt64 (decimalValue da)) (hfb : InInt64 (decimalValue db))
    (hfc : InInt64 (decimalValue dc)) (hpos : 0 < decimalValue dc) :
    (runLine ("x = (".toList ++ da ++ " - ".toList ++ db ++ ") / ".toList ++ dc)
        calcMode debug vars).isDone = true ∧
    (runLine ("x = (".toList ++ da ++ " - ".toList ++ db ++ ") / ".toList ++ dc)
        calcMode debug vars).lookup "x".toList
      = some (Value.int (Int.tdiv ((decimalValue da : Int) - decimalValue db) (decimalValue dc))) ∧
    (Int.tdiv ((decimalValue da : Int) - decimalValue db) (decimalValue dc)).natAbs
      = ((decimalValue da : Int) - decimalValue db).natAbs / decimalValue dc ∧
    ((0 : Int) ≤ (decimalValue da : Int) - decimalValue db →
      0 ≤ Int.tdiv ((decimalValue da : Int) - decimalValue db) (decimalValue dc)) ∧
    ((decimalValue da : Int) - decimalValue db ≤ 0 →
      Int.tdiv ((decimalValue da : Int) - decimalValue db) (decimalValue dc) ≤ 0) := by
  have hv : LexValid [Lexeme.word ['x'], Lexeme.space, Lexeme.op '=' TokType.EQUALS, Lexeme.space,
      Lexeme.op '(' TokType.LPAREN,
      Lexeme.num da, Lexeme.space, Lexeme.op '-' TokType.MINUS, Lexeme.space,
      Lexeme.num db, Lexeme.op ')' TokType.RPAREN, Lexeme.space,
      Lexeme.op '/' TokType.DIVIDE, Lexeme.space, Lexeme.num dc] :=
    ⟨(by decide : (Lexeme.word ['x']).Valid ' '), trivial,
      (by decide : tokenMap '=' = some TokType.EQUALS), trivial,
      (by decide : tokenMap '(' = some TokType.LPAREN),
      ⟨ha.1, ha.2, (by decide : digits.contains ' ' = false)⟩, trivial,
      (by decide : tokenMap '-' = some TokType.MINUS), trivial,
      ⟨hb.1, hb.2, (by decide : digits.contains ')' = false)⟩,
      (by decide : tokenMap ')' = some TokType.RPAREN), trivial,
      (by decide : tokenMap '/' = some TokType.DIVIDE), trivial,
      ⟨hc.1, hc.2, (by decide : digits.contains NUL = false)⟩, trivial⟩
  obtain ⟨out0, -, -, h⟩ := runLine_lexemes _ hv calcMode debug vars
  have hline : ("x = (".toList ++ da ++ " - ".toList ++ db ++ ") / ".toList ++ dc) =
      lexText [Lexeme.word ['x'], Lexeme.space, Lexeme.op '=' TokType.EQUALS, Lexeme.space,
      Lexeme.op '(' TokType.LPAREN,
      Lexeme.num da, Lexeme.space, Lexeme.op '-' TokType.MINUS, Lexeme.space,
      Lexeme.num db, Lexeme.op ')' TokType.RPAREN, Lexeme.space,
      Lexeme.op '/' TokType.DIVIDE, Lexeme.space, Lexeme.num dc] := by
    simp [lexText, Lexeme.text]
  have hcpos : (0 : Int) < decimalValue dc := by exact_mod_cast hpos
  have hcne : (decimalValue dc : Int) ≠ 0 := by omega
  have hsub : InInt64 ((decimalValue da : Int) - decimalValue db) := by
    have h1 := hfa.2
    have h2 := hfb.2
    constructor <;> omega
  obtain ⟨p, hp, hvars⟩ :=
    parse_paren_sub_div (decimalValue da) (decimalValue db) (decimalValue dc) hcne calcMode debug vars
  refine ⟨?_, ?_, ?_, fun h0 => Int.tdiv_nonneg h0 (Int.le_of_lt hcpos),
    fun h0 => tdiv_nonpos_of_nonpos h0 hcpos⟩
  · rw [hline, h]
    simp only [lexTokens, Lexeme.tokens, xWord, List.cons_append, List.nil_append, List.append_nil]
    rw [Atoi_eq ha hfa, Atoi_eq hb hfb, Atoi_eq hc hfc]
    simp only [hp, Outcome.ofParse, Outcome.isDone]
  · rw [hline, h]
    simp only [lexTokens, Lexeme.tokens, xWord, List.cons_append, List.nil_append, List.append_nil]
    rw [Atoi_eq ha hfa, Atoi_eq hb hfb, Atoi_eq hc hfc]
    simp only [hp, Outcome.ofParse, Outcome.lookup, Outcome.vars?, hvars]
    rw [wrap64_eq hsub, wrap64_eq (InInt64_tdiv hsub hcpos)]
    simp [Env.set]
  · rw [Int.natAbs_tdiv]
    rfl

theorem division_truncates_toward_zero_witness :
    (runLine "x = (0 - 7) / 2".toList false false Env.empty).lookup "x".toList
      = some (Value.int (-3)) :=
  (division_truncates_toward_zero ['0'] ['7'] ['2'] false false Env.empty (by decide) (by decide)
    (by decide) (by decide) (by decide) (by decide) (by decide)).2.1

/-! ## Boolean operators (C5 to C8) -/

theorem boolLit_token (b : Bool) : wordToken (boolLit b) = ⟨TokType.BOOLEAN, Value.bool b⟩ := by
  cases b <;> decide

theorem boolLit_valid (b : Bool) (next : Char) (h : (letters ++ digits).contains next = false) :
    (Lexeme.word (boolLit b)).Valid next := by
  cases b
  · exact ⟨by decide, by decide, h⟩
  · exact ⟨by decide, by decide, h⟩

theorem parse_bool_binary (op : Token) (p q : Bool) (calcMode debug : Bool) (vars : Env) :
    (op = ⟨TokType.AND, Value.rune '&'⟩ →
      ∃ s, NewParser [⟨TokType.IDENTIFIER, Value.str ['x']⟩, ⟨TokType.EQUALS, Value.rune '='⟩,
        ⟨TokType.BOOLEAN, Value.bool p⟩, op, ⟨TokType.BOOLEAN, Value.bool q⟩]
        calcMode debug vars = Res.ok () s ∧ s.vars = vars.set ['x'] (Value.bool (p && q))) ∧
    (op = ⟨TokType.OR, Value.rune '|'⟩ →
      ∃ s, NewParser [⟨TokType.IDENTIFIER, Value.str ['x']⟩, ⟨TokType.EQUALS, Value.rune '='⟩,
        ⟨TokType.BOOLEAN, Value.bool p⟩, op, ⟨TokType.BOOLEAN, Value.bool q⟩]
        calcMode debug vars = Res.ok () s ∧ s.vars = vars.set ['x'] (Value.bool (p || q))) := by
  constructor <;> rintro rfl <;> cases p <;> cases q <;> cases calcMode <;> cases debug <;>
    exact ⟨_, rfl, rfl⟩

theorem parse_bool_not (p : Bool) (calcMode debug : Bool) (vars : Env) :
    ∃ s, NewParser [⟨TokType.IDENTIFIER, Value.str ['x']⟩, ⟨TokType.EQUALS, Value.rune '='⟩,
        ⟨TokType.NOT, Value.rune '!'⟩, ⟨TokType.BOOLEAN, Value.bool p⟩]
        calcMode debug vars = Res.ok () s ∧ s.vars = vars.set ['x'] (Value.bool (!p)) := by
  cases p <;> cases calcMode <;> cases debug <;> exact ⟨_, rfl, rfl⟩

theorem runLine_bool_binary (c : Char) (ty : TokType) (hm : tokenMap c = some ty) (p q : Bool)
    (calcMode debug : Bool) (vars : Env) :
    ∃ out0, runLine ("x = ".toList ++ boolLit p ++ [' ', c, ' '] ++ boolLit q) calcMode debug vars =
      Outcome.ofParse out0 (NewParser [⟨TokType.IDENTIFIER, Value.str ['x']⟩,
        ⟨TokType.EQUALS, Value.rune '='⟩, ⟨TokType.BOOLEAN, Value.bool p⟩, ⟨ty, Value.rune c⟩,
        ⟨TokType.BOOLEAN, Value.bool q⟩] calcMode debug vars) := by
  have hv : LexValid [Lexeme.word ['x'], Lexeme.space, Lexeme.op '=' TokType.EQUALS, Lexeme.space,
      Lexeme.word (boolLit p), Lexeme.space, Lexeme.op c ty, Lexeme.space,
      Lexeme.word (boolLit q)] :=
    ⟨(by decide : (Lexeme.word ['x']).Valid ' '), trivial,
      (by decide : tokenMap '=' = some TokType.EQUALS), trivial,
      boolLit_valid p ' ' (by decide), trivial, hm, trivial, boolLit_valid q NUL (by decide), trivial⟩
  obtain ⟨out0, -, -, h⟩ := runLine_lexemes _ hv calcMode debug vars
  have hline : ("x = ".toList ++ boolLit p ++ [' ', c, ' '] ++ boolLit q) =
      lexText [Lexeme.word ['x'], Lexeme.space, Lexeme.op '=' TokType.EQUALS, Lexeme.space,
      Lexeme.word (boolLit p), Lexeme.space, Lexeme.op c ty, Lexeme.space,
      Lexeme.word (boolLit q)] := by
    simp [lexText, Lexeme.text]
  refine ⟨out0, ?_⟩
  rw [hline, h]
  simp only [lexTokens, Lexeme.tokens, xWord, boolLit_token, List.cons_append, List.nil_append,
    List.append_nil]

theorem runLine_bool_not (p : Bool) (calcMode debug : Bool) (vars : Env) :
    ∃ out0, runLine ("x = !".toList ++ boolLit p) calcMode debug vars =
      Outcome.ofParse out0 (NewParser [⟨TokType.IDENTIFIER, Value.str ['x']⟩,
        ⟨TokType.EQUALS, Value.rune '='⟩, ⟨TokType.NOT, Value.rune '!'⟩,
        ⟨TokType.BOOLEAN, Value.bool p⟩] calcMode debug vars) := by
  have hv : LexValid [Lexeme.word ['x'], Lexeme.space, Lexeme.op '=' TokType.EQUALS, Lexeme.space,
      Lexeme.op '!' TokType.NOT, Lexeme.word (boolLit p)] :=
    ⟨(by decide : (Lexeme.word ['x']).Valid ' '), trivial,
      (by decide : tokenMap '=' = some TokType.EQUALS), trivial,
      (by decide : tokenMap '!' = some TokType.NOT), boolLit_valid p NUL (by decide), trivial⟩
  obtain ⟨out0, -, -, h⟩ := runLine_lexemes _ hv calcMode debug vars
  have hline : ("x = !".toList ++ boolLit p) =
      lexText [Lexeme.word ['x'], Lexeme.space, Lexeme.op '=' TokType.EQUALS, Lexeme.space,
      Lexeme.op '!' TokType.NOT, Lexeme.word (boolLit p)] := by
    simp [lexText, Lexeme.text]
  refine ⟨out0, ?_⟩
  rw [hline, h]
  simp only [lexTokens, Lexeme.tokens, xWord, boolLit_token, List.cons_append, List.nil_append,
    List.append_nil]

/-- Claim C5 (boolean operators). For boolean literals `p`, `q`, every environment and
both mode flags, the line `x = p & q` ends normally and binds `x` to `p AND q`, the
line `x = p | q` binds `x` to `p OR q`, and the line `x = !p` binds `x` to `NOT p`. -/
theorem boolean_operators (p q : Bool) (calcMode debug : Bool) (vars : Env) :
    ((runLine ("x = ".toList ++ boolLit p ++ " & ".toList ++ boolLit q) calcMode debug vars).isDone
        = true ∧
      (runLine ("x = ".toList ++ boolLit p ++ " & ".toList ++ boolLit q) calcMode debug vars).lookup
        "x".toList = some (Value.bool (p && q))) ∧
    ((runLine ("x = ".toList ++ boolLit p ++ " | ".toList ++ boolLit q) calcMode debug vars).isDone
        = true ∧
      (runLine ("x = ".toList ++ boolLit p ++ " | ".toList ++ boolLit q) calcMode debug vars).lookup
        "x".toList = some (Value.bool (p || q))) ∧
    ((runLine ("x = !".toList ++ boolLit p) calcMode debug vars).isDone = true ∧
      (runLine ("x = !".toList ++ boolLit p) calcMode debug vars).lookup "x".toList
        = some (Value.bool (!p))) := by
  obtain ⟨o1, h1⟩ := runLine_bool_binary '&' TokType.AND (by decide) p q calcMode debug vars
  obtain ⟨o2, h2⟩ := runLine_bool_binary '|' TokType.OR (by decide) p q calcMode debug vars
  obtain ⟨o3, h3⟩ := runLine_bool_not p calcMode debug vars
  obtain ⟨s1, e1, v1⟩ := (parse_bool_binary _ p q calcMode debug vars).1 rfl
  obtain ⟨s2, e2, v2⟩ := (parse_bool_binary _ p q calcMode debug vars).2 rfl
  obtain ⟨s3, e3, v3⟩ := parse_bool_not p calcMode debug vars
  have t1 : " & ".toList = [' ', '&', ' '] := rfl
  have t2 : " | ".toList = [' ', '|', ' '] := rfl
  rw [t1, t2, h1, h2, h3, e1, e2, e3]
  simp [Outcome.ofParse, Outcome.isDone, Outcome.lookup, Outcome.vars?, v1, v2, v3, Env.set]

/-- Claim C6, the code at the failing input. The line `x = false & true | true` ends
normally with `x` bound to `false`, not to `(false AND true) OR true = true`: after a
`false` left operand `&&` does not call `p.term()`, so the assignment stops before
`true | true`, which is then run as further statements (in calc mode the line echoes
three results). Likewise `x = true | false & false` binds `x` to `true`, not to
`(true OR false) AND false = false`. -/
theorem and_or_chain_stops_after_false :
    (runLine "x = false & true | true".toList false false Env.empty).isDone = true ∧
    (runLine "x = false & true | true".toList false false Env.empty).lookup "x".toList
      = some (Value.bool false) ∧
    (runLine "x = false & true | true".toList true false Env.empty).out
      = [OutLine.result (Value.bool false), OutLine.result (Value.bool true),
          OutLine.result (Value.bool true)] ∧
    (runLine "x = true | false & false".toList false false Env.empty).lookup "x".toList
      = some (Value.bool true) := by
  have e1 : "x = false & true | true".toList = lexText [Lexeme.word "x".toList, Lexeme.space,
      Lexeme.op '=' TokType.EQUALS, Lexeme.space, Lexeme.word "false".toList, Lexeme.space,
      Lexeme.op '&' TokType.AND, Lexeme.space, Lexeme.word "true".toList, Lexeme.space,
      Lexeme.op '|' TokType.OR, Lexeme.space, Lexeme.word "true".toList] := by decide
  have e2 : "x = true | false & false".toList = lexText [Lexeme.word "x".toList, Lexeme.space,
      Lexeme.op '=' TokType.EQUALS, Lexeme.space, Lexeme.word "true".toList, Lexeme.space,
      Lexeme.op '|' TokType.OR, Lexeme.space, Lexeme.word "false".toList, Lexeme.space,
      Lexeme.op '&' TokType.AND, Lexeme.space, Lexeme.word "false".toList] := by decide
  rw [e1, e2, runLine_quiet _ (by decide), runLine_quiet _ (by decide), runLine_quiet _ (by decide)]
  decide

/-- Claim C7, the code at the failing input. The lines `x = (false & true)` and
`x = (true | false)` abort with the panic `Expected ')'` and leave `x` unbound: the
right operand is not consumed, so `factor` finds a `BOOLEAN` token where it expects
`RPAREN`. -/
theorem parenthesized_boolean_panics :
    (runLine "x = (false & true)".toList false false Env.empty).panic?
      = some Panic.ExpectedRParen ∧
    (runLine "x = (false & true)".toList false false Env.empty).lookup "x".toList = none ∧
    (runLine "x = (true | false)".toList false false Env.empty).panic?
      = some Panic.ExpectedRParen ∧
    (runLine "x = (true | false)".toList false false Env.empty).lookup "x".toList = none := by
  have e1 : "x = (false & true)".toList = lexText [Lexeme.word "x".toList, Lexeme.space,
      Lexeme.op '=' TokType.EQUALS, Lexeme.space, Lexeme.op '(' TokType.LPAREN,
      Lexeme.word "false".toList, Lexeme.space, Lexeme.op '&' TokType.AND, Lexeme.space,
      Lexeme.word "true".toList, Lexeme.op ')' TokType.RPAREN] := by decide
  have e2 : "x = (true | false)".toList = lexText [Lexeme.word "x".toList, Lexeme.space,
      Lexeme.op '=' TokType.EQUALS, Lexeme.space, Lexeme.op '(' TokType.LPAREN,
      Lexeme.word "true".toList, Lexeme.space, Lexeme.op '|' TokType.OR, Lexeme.space,
      Lexeme.word "false".toList, Lexeme.op ')' TokType.RPAREN] := by decide
  rw [e1, e2, runLine_quiet _ (by decide), runLine_quiet _ (by decide)]
  decide

/-- Claim C8, the code at the failing input. The lines `x = false & 5` and
`x = true | "a"` end normally (the first binds `x` to `false`) although the right
operand is not a boolean; the type mismatch is raised only when the right operand is
evaluated, as in `x = true & 5` and `x = 1 + true`. -/
theorem mismatched_right_operand_accepted :
    (runLine "x = false & 5".toList false false Env.empty).isDone = true ∧
    (runLine "x = false & 5".toList false false Env.empty).lookup "x".toList
      = some (Value.bool false) ∧
    (runLine ("x = true | ".toList ++ [Char.ofNat 34, 'a', Char.ofNat 34]) false false
      Env.empty).isDone = true ∧
    (runLine "x = true & 5".toList false false Env.empty).panic? = some Panic.TypeMismatch ∧
    (runLine "x = 1 + true".toList false false Env.empty).panic? = some Panic.TypeMismatch := by
  have e1 : "x = false & 5".toList = lexText [Lexeme.word "x".toList, Lexeme.space,
      Lexeme.op '=' TokType.EQUALS, Lexeme.space, Lexeme.word "false".toList, Lexeme.space,
      Lexeme.op '&' TokType.AND, Lexeme.space, Lexeme.num "5".toList] := by decide
  have e2 : "x = true | ".toList ++ [Char.ofNat 34, 'a', Char.ofNat 34] =
      lexText [Lexeme.word "x".toList, Lexeme.space,
      Lexeme.op '=' TokType.EQUALS, Lexeme.space, Lexeme.word "true".toList, Lexeme.space,
      Lexeme.op '|' TokType.OR, Lexeme.space, Lexeme.strLit "a".toList] := by decide
  have e3 : "x = true & 5".toList = lexText [Lexeme.word "x".toList, Lexeme.space,
      Lexeme.op '=' TokType.EQUALS, Lexeme.space, Lexeme.word "true".toList, Lexeme.space,
      Lexeme.op '&' TokType.AND, Lexeme.space, Lexeme.num "5".toList] := by decide
  have e4 : "x = 1 + true".toList = lexText [Lexeme.word "x".toList, Lexeme.space,
      Lexeme.op '=' TokType.EQUALS, Lexeme.space, Lexeme.num "1".toList, Lexeme.space,
      Lexeme.op '+' TokType.PLUS, Lexeme.space, Lexeme.word "true".toList] := by decide
  rw [e1, e2, e3, e4, runLine_quiet _ (by decide), runLine_quiet _ (by decide),
    runLine_quiet _ (by decide), runLine_quiet _ (by decide)]
  decide

/-! ## Assignment, `log` and undefined variables (C9, C10) -/

theorem identifier_token {n : List Char} (hn : IsIdentifier n) :
    wordToken n = ⟨TokType.IDENTIFIER, Value.str n⟩ := by
  obtain ⟨-, -, h1, h2⟩ := hn
  simp only [wordToken, h1, h2, or_self, if_false]

theorem identifier_valid {n : List Char} (hn : IsIdentifier n) (next : Char)
    (h : (letters ++ digits).contains next = false) : (Lexeme.word n).Valid next :=
  ⟨hn.1, hn.2.1, h⟩

theorem Literal.lexeme_valid {v : Literal} (hv : v.Valid) : v.lexeme.Valid NUL := by
  cases v with
  | num ds => exact ⟨hv.1.1, hv.1.2, by decide⟩
  | bool b => exact boolLit_valid b NUL (by decide)
  | str s => exact hv

theorem Literal.lexeme_text (v : Literal) : v.lexeme.text = v.text := by
  cases v <;> rfl

theorem Literal.lexeme_tokens {v : Literal} (hv : v.Valid) : v.lexeme.tokens = [v.token] := by
  cases v with
  | num ds =>
    simp only [Literal.lexeme, Lexeme.tokens, Literal.token, Atoi_eq hv.1 hv.2]
  | bool b => simp only [Literal.lexeme, Lexeme.tokens, Literal.token, boolLit_token]
  | str s => rfl

theorem parse_assign_literal (n : List Char) (v : Literal) (calcMode debug : Bool) (vars : Env) :
    ∃ s, NewParser [⟨TokType.IDENTIFIER, Value.str n⟩, ⟨TokType.EQUALS, Value.rune '='⟩, v.token]
        calcMode debug vars = Res.ok () s ∧ s.vars = vars.set n v.value ∧
      s.out.all (fun x => !x.isLog) = true := by
  cases v <;> cases calcMode <;> cases debug <;> exact ⟨_, rfl, rfl, rfl⟩

theorem parse_log (n : List Char) (v : Value) (calcMode debug : Bool) (vars : Env)
    (h : vars n = some v) :
    ∃ s, NewParser [⟨TokType.IDENTIFIER, Value.str "log".toList⟩, ⟨TokType.IDENTIFIER, Value.str n⟩]
        calcMode debug vars = Res.ok () s ∧ s.vars = vars ∧
      s.out.filter OutLine.isLog = [OutLine.println v] ∧
      (calcMode = false → debug = false → s.out = [OutLine.println v]) := by
  cases calcMode <;> cases debug <;>
    simp [NewParser, Parser.parse, Parser.parseLoop, Parser.advance, Parser.print, Parser.exprFuel,
      Parser.expr, Parser.exprLoop, Parser.term, Parser.termLoop, Parser.factor, Res.bind,
      Token.zero, h, OutLine.isLog]

theorem parse_log_undefined (n : List Char) (calcMode debug : Bool) (vars : Env)
    (h : vars n = none) :
    ∃ s, NewParser [⟨TokType.IDENTIFIER, Value.str "log".toList⟩, ⟨TokType.IDENTIFIER, Value.str n⟩]
        calcMode debug vars = Res.panic (Panic.UndefinedVariable n) s ∧ s.vars = vars ∧
      s.out.all OutLine.isTrace = true ∧ (debug = false → s.out = []) := by
  cases calcMode <;> cases debug <;>
    simp [NewParser, Parser.parse, Parser.parseLoop, Parser.advance, Parser.print, Parser.exprFuel,
      Parser.expr, Parser.exprLoop, Parser.term, Parser.termLoop, Parser.factor, Res.bind,
      Token.zero, h, OutLine.isTrace]

theorem filter_isLog_of_trace {out : List OutLine} (h : ∀ x ∈ out, x.isTrace = true) :
    out.filter OutLine.isLog = [] := by
  rw [List.filter_eq_nil_iff]
  intro x hx
  have := h x hx
  cases x <;> simp_all [OutLine.isTrace, OutLine.isLog]

theorem logWord : wordToken "log".toList = ⟨TokType.IDENTIFIER, Value.str "log".toList⟩ := by
  decide

theorem runLine_assign_literal (n : List Char) (v : Literal) (calcMode debug : Bool) (vars : Env)
    (hn : IsIdentifier n) (hv : v.Valid) :
    ∃ out0, (debug = false → out0 = []) ∧ (∀ x ∈ out0, x.isTrace = true) ∧
      runLine (n ++ " = ".toList ++ v.text) calcMode debug vars =
        Outcome.ofParse out0 (NewParser [⟨TokType.IDENTIFIER, Value.str n⟩,
          ⟨TokType.EQUALS, Value.rune '='⟩, v.token] calcMode debug vars) := by
  have hval : LexValid [Lexeme.word n, Lexeme.space, Lexeme.op '=' TokType.EQUALS, Lexeme.space,
      v.lexeme] :=
    ⟨identifier_valid hn ' ' (by decide), trivial,
      (by decide : tokenMap '=' = some TokType.EQUALS), trivial, Literal.lexeme_valid hv, trivial⟩
  obtain ⟨out0, h0, h1, h⟩ := runLine_lexemes _ hval calcMode debug vars
  have hline : (n ++ " = ".toList ++ v.text) =
      lexText [Lexeme.word n, Lexeme.space, Lexeme.op '=' TokType.EQUALS, Lexeme.space,
        v.lexeme] := by
    simp only [lexText, Literal.lexeme_text]
    simp [Lexeme.text]
  refine ⟨out0, h0, h1, ?_⟩
  rw [hline, h]
  simp only [lexTokens, Literal.lexeme_tokens hv]
  simp only [Lexeme.tokens, identifier_token hn, List.cons_append, List.nil_append,
    List.append_nil]

theorem runLine_log (n : List Char) (calcMode debug : Bool) (vars : Env) (hn : IsIdentifier n) :
    ∃ out0, (debug = false → out0 = []) ∧ (∀ x ∈ out0, x.isTrace = true) ∧
      runLine ("log ".toList ++ n) calcMode debug vars =
        Outcome.ofParse out0 (NewParser [⟨TokType.IDENTIFIER, Value.str "log".toList⟩,
          ⟨TokType.IDENTIFIER, Value.str n⟩] calcMode debug vars) := by
  have hval : LexValid [Lexeme.word "log".toList, Lexeme.space, Lexeme.word n] :=
    ⟨(by decide : (Lexeme.word "log".toList).Valid ' '), trivial,
      identifier_valid hn NUL (by decide), trivial⟩
  obtain ⟨out0, h0, h1, h⟩ := runLine_lexemes _ hval calcMode debug vars
  have hline : ("log ".toList ++ n) =
      lexText [Lexeme.word "log".toList, Lexeme.space, Lexeme.word n] := by
    simp [lexText, Lexeme.text]
  refine ⟨out0, h0, h1, ?_⟩
  rw [hline, h]
  simp only [lexTokens, Lexeme.tokens, identifier_token hn, logWord,
    List.cons_append, List.nil_append, List.append_nil]

/-- Assignment then lookup for literals without NUL: what the code meets of claim
C9, away from its failing input. For every identifier name `n`, every literal `v`
that is an in-range unsigned integer, a boolean, or a string without quote and
without NUL, every environment and both mode flags: the line `n = v` ends
normally with `n` bound to the value of `v` and every other name unchanged, and
prints no `log` line; the line `log n` evaluated against that environment ends
normally, leaves the environment as it is, and its only `log` line is the value of
`v` (with calc mode and tracing off this is all it prints). -/
theorem assign_then_log_roundtrip (n : List Char) (v : Literal) (calcMode debug : Bool)
    (vars : Env) (hn : IsIdentifier n) (hv : v.Valid) :
    ∃ out1 out2,
      runLine (n ++ " = ".toList ++ v.text) calcMode debug vars
        = Outcome.done (vars.set n v.value) out1 ∧
      out1.filter OutLine.isLog = [] ∧
      runLine ("log ".toList ++ n) calcMode debug (vars.set n v.value)
        = Outcome.done (vars.set n v.value) out2 ∧
      out2.filter OutLine.isLog = [OutLine.println v.value] ∧
      (calcMode = false → debug = false → out2 = [OutLine.println v.value]) ∧
      (vars.set n v.value) n = some v.value := by
  have hbound : (vars.set n v.value) n = some v.value := by simp [Env.set]
  obtain ⟨o1, -, ht1, h1⟩ := runLine_assign_literal n v calcMode debug vars hn hv
  obtain ⟨s1, e1, v1, l1⟩ := parse_assign_literal n v calcMode debug vars
  obtain ⟨o2, hq2, ht2, h2⟩ := runLine_log n calcMode debug (vars.set n v.value) hn
  obtain ⟨s2, e2, v2, l2, q2⟩ := parse_log n v.value calcMode debug (vars.set n v.value) hbound
  refine ⟨o1 ++ s1.out, o2 ++ s2.out, ?_, ?_, ?_, ?_, ?_, hbound⟩
  · rw [h1, e1, Outcome.ofParse, v1]
  · rw [List.filter_append, filter_isLog_of_trace ht1, List.nil_append, List.filter_eq_nil_iff]
    intro x hx
    have := List.all_eq_true.1 l1 x hx
    simpa using this
  · rw [h2, e2, Outcome.ofParse, v2]
  · rw [List.filter_append, filter_isLog_of_trace ht2, List.nil_append, l2]
  · intro hc hd
    rw [hq2 hd, q2 hc hd, List.nil_append]

theorem assign_then_log_roundtrip_witness :
    ∃ out1 out2,
      runLine "x = 5".toList false false Env.empty
        = Outcome.done (Env.empty.set "x".toList (Value.int 5)) out1 ∧
      out1.filter OutLine.isLog = [] ∧
      runLine "log x".toList false false (Env.empty.set "x".toList (Value.int 5))
        = Outcome.done (Env.empty.set "x".toList (Value.int 5)) out2 ∧
      out2.filter OutLine.isLog = [OutLine.println (Value.int 5)] ∧
      (false = false → false = false → out2 = [OutLine.println (Value.int 5)]) ∧
      (Env.empty.set "x".toList (Value.int 5)) "x".toList = some (Value.int 5) :=
  assign_then_log_roundtrip "x".toList (Literal.num "5".toList) false false Env.empty
    (by decide) (by decide)

/-- Claim C9, the code at the failing input. The string literal made of the single
character NUL is free of quotes, yet the line `x = "<NUL>"` aborts in the lexer with
`Unterminated string literal` and binds nothing: `parseString` takes NUL for the end
of the input. -/
theorem assign_string_with_nul_fails :
    (runLine ("x = ".toList ++ [Char.ofNat 34, Char.ofNat 0, Char.ofNat 34]) false false
      Env.empty).panic? = some Panic.UnterminatedString ∧
    (runLine ("x = ".toList ++ [Char.ofNat 34, Char.ofNat 0, Char.ofNat 34]) false false
      Env.empty).lookup "x".toList = none := by
  decide

/-- Claim C10 (undefined variable). For every identifier name `n` with no binding in
the environment and both mode flags, the line `log n` aborts with
`UndefinedVariable(n)`, leaves the environment unchanged, and prints no `log` or
`Result:` line: nothing at all with tracing off, trace lines only with tracing on. -/
theorem log_undefined_variable (n : List Char) (calcMode debug : Bool) (vars : Env)
    (hn : IsIdentifier n) (hfree : vars n = none) :
    ∃ out, runLine ("log ".toList ++ n) calcMode debug vars
        = Outcome.panicked (Panic.UndefinedVariable n) vars out ∧
      out.all OutLine.isTrace = true ∧ (debug = false → out = []) := by
  obtain ⟨o, hq, ht, h⟩ := runLine_log n calcMode debug vars hn
  obtain ⟨s, e, v, l, q⟩ := parse_log_undefined n calcMode debug vars hfree
  refine ⟨o ++ s.out, ?_, ?_, ?_⟩
  · rw [h, e, Outcome.ofParse, v]
  · rw [List.all_append, l, Bool.and_true]
    exact List.all_eq_true.2 ht
  · intro hd
    rw [hq hd, q hd, List.nil_append]

theorem log_undefined_variable_witness :
    ∃ out, runLine "log y".toList false false Env.empty
        = Outcome.panicked (Panic.UndefinedVariable "y".toList) Env.empty out ∧
      out.all OutLine.isTrace = true ∧ (false = false → out = []) :=
  log_undefined_variable "y".toList false false Env.empty (by decide) rfl

/-! ## The environment changes only by assignment; the evaluator terminates (C11, C20) -/

theorem Res.ends_bind {α β : Type} {r : Res α} {g : α → Parser → Res β} {I : Parser → Prop}
    (h : r.Ends I) (hg : ∀ a q, I q → (g a q).Ends I) : (r.bind g).Ends I := by
  cases r with
  | ok a q => exact hg a q h
  | panic e q => exact h
  | outOfFuel => trivial

theorem Res.ends_bind_of {α β : Type} {r : Res α} {g : α → Parser → Res β}
    {I J : Parser → Prop} (h : r.Ends I) (hij : ∀ q, I q → J q)
    (hg : ∀ a q, I q → (g a q).Ends J) : (r.bind g).Ends J := by
  cases r with
  | ok a q => exact hg a q h
  | panic e q => exact hij q h
  | outOfFuel => trivial

theorem Res.ends_mono {α : Type} {r : Res α} {I J : Parser → Prop}
    (h : r.Ends I) (hij : ∀ q, I q → J q) : r.Ends J := by
  cases r with
  | ok a q => exact hij q h
  | panic e q => exact hij q h
  | outOfFuel => trivial

theorem assertInt_ends {v : Value} {q : Parser} {f : Int → Res Value} {I : Parser → Prop}
    (hq : I q) (hf : ∀ a, (f a).Ends I) : (assertInt v q f).Ends I := by
  cases v <;> first | exact hf _ | exact hq

theorem assertBool_ends {v : Value} {q : Parser} {f : Bool → Res Value} {I : Parser → Prop}
    (hq : I q) (hf : ∀ a, (f a).Ends I) : (assertBool v q f).Ends I := by
  cases v <;> first | exact hf _ | exact hq

/-- Induction principle for what `factor`, `term`, `expr` and their loops do to the
parser state: a relation between the state at the call and the state at the end that
is reflexive, transitive, holds across `advance` and across the calc-mode echo holds
across every one of these methods, whether they return or panic. -/
theorem Parser.ends_all (I : Parser → Parser → Prop) (hrefl : ∀ p, I p p)
    (htrans : ∀ p q r, I p q → I q r → I p r) (hadv : ∀ p, I p p.advance)
    (hecho : ∀ p v, p.calcMode = true → I p { p with out := p.out ++ [OutLine.result v] })
    (n : Nat) :
    (∀ p : Parser, (Parser.factor n p).Ends (I p)) ∧
    (∀ (v : Value) (p : Parser), (Parser.termLoop n v p).Ends (I p)) ∧
    (∀ p : Parser, (Parser.term n p).Ends (I p)) ∧
    (∀ (v : Value) (p : Parser), (Parser.exprLoop n v p).Ends (I p)) ∧
    (∀ p : Parser, (Parser.expr n p).Ends (I p)) := by
  have rebase : ∀ {α : Type} (r : Res α) (p q : Parser), I p q → r.Ends (I q) → r.Ends (I p) :=
    fun r p q hpq h => Res.ends_mono h (fun s hs => htrans p q s hpq hs)
  induction n with
  | zero => exact ⟨fun _ => trivial, fun _ _ => trivial, fun _ => trivial, fun _ _ => trivial,
      fun _ => trivial⟩
  | succ n ih =>
    obtain ⟨ihF, ihTL, ihT, ihEL, ihE⟩ := ih
    refine ⟨?_, ?_, ?_, ?_, ?_⟩
    · intro p
      rw [Parser.factor]
      split
      · exact hadv p
      · exact hadv p
      · exact hadv p
      · split
        · split
          · exact hadv p
          · exact hrefl p
        · exact hrefl p
      · refine Res.ends_bind (rebase _ p _ (hadv p) (ihF _)) ?_
        intro a q hq
        exact assertBool_ends hq (fun b => hq)
      · refine Res.ends_bind (rebase _ p _ (hadv p) (ihE _)) ?_
        intro a q hq
        split
        · exact htrans _ _ _ hq (hadv q)
        · exact hq
      · exact hrefl p
    · intro v p
      rw [Parser.termLoop]
      split
      · refine assertInt_ends (hadv p) (fun a => ?_)
        refine Res.ends_bind (rebase _ p _ (hadv p) (ihF _)) ?_
        intro r q hq
        exact assertInt_ends hq (fun b => rebase _ p q hq (ihTL _ q))
      · refine assertInt_ends (hadv p) (fun a => ?_)
        refine Res.ends_bind (rebase _ p _ (hadv p) (ihF _)) ?_
        intro r q hq
        refine assertInt_ends hq (fun b => ?_)
        split
        · exact hq
        · exact rebase _ p q hq (ihTL _ q)
      · exact hrefl p
    · intro p
      rw [Parser.term]
      refine Res.ends_bind (ihF p) ?_
      intro r q hq
      exact rebase _ p q hq (ihTL r q)
    · intro v p
      rw [Parser.exprLoop]
      split
      · refine assertInt_ends (hadv p) (fun a => ?_)
        refine Res.ends_bind (rebase _ p _ (hadv p) (ihT _)) ?_
        intro r q hq
        exact assertInt_ends hq (fun b => rebase _ p q hq (ihEL _ q))
      · refine assertInt_ends (hadv p) (fun a => ?_)
        refine Res.ends_bind (rebase _ p _ (hadv p) (ihT _)) ?_
        intro r q hq
        exact assertInt_ends hq (fun b => rebase _ p q hq (ihEL _ q))
      · refine assertBool_ends (hadv p) (fun a => ?_)
        split
        · refine Res.ends_bind (rebase _ p _ (hadv p) (ihT _)) ?_
          intro r q hq
          exact assertBool_ends hq (fun b => rebase _ p q hq (ihEL _ q))
        · exact rebase _ p _ (hadv p) (ihEL _ _)
      · refine assertBool_ends (hadv p) (fun a => ?_)
        split
        · exact rebase _ p _ (hadv p) (ihEL _ _)
        · refine Res.ends_bind (rebase _ p _ (hadv p) (ihT _)) ?_
          intro r q hq
          exact assertBool_ends hq (fun b => rebase _ p q hq (ihEL _ q))
      · exact hrefl p
    · intro p
      rw [Parser.expr]
      refine Res.ends_bind (ihT p) ?_
      intro r q hq
      refine Res.ends_bind (rebase _ p q hq (ihEL r q)) ?_
      intro r2 q2 hq2
      split
      · rename_i hc
        exact htrans _ _ _ hq2 (hecho q2 r2 hc)
      · exact hq2

theorem Parser.frame_all (n : Nat) :
    (∀ p : Parser, (Parser.factor n p).Ends (Parser.Frame p)) ∧
    (∀ (v : Value) (p : Parser), (Parser.termLoop n v p).Ends (Parser.Frame p)) ∧
    (∀ p : Parser, (Parser.term n p).Ends (Parser.Frame p)) ∧
    (∀ (v : Value) (p : Parser), (Parser.exprLoop n v p).Ends (Parser.Frame p)) ∧
    (∀ p : Parser, (Parser.expr n p).Ends (Parser.Frame p)) :=
  Parser.ends_all Parser.Frame (fun _ => ⟨rfl, rfl, rfl, rfl⟩)
    (fun _ _ _ h1 h2 => ⟨h2.1.trans h1.1, h2.2.1.trans h1.2.1, h2.2.2.1.trans h1.2.2.1,
      h2.2.2.2.trans h1.2.2.2⟩)
    (fun _ => ⟨rfl, rfl, rfl, rfl⟩) (fun _ _ _ => ⟨rfl, rfl, rfl, rfl⟩) n

theorem Parser.frame_onlyAssigned {p q : Parser} (h : Parser.Frame p q) :
    Parser.OnlyAssigned p q :=
  ⟨h.1, fun k hk => by rw [h.2.2.2]; exact hk, fun k _ => by rw [h.2.2.2]⟩

theorem Parser.onlyAssigned_trans {p q r : Parser} (h1 : Parser.OnlyAssigned p q)
    (h2 : Parser.OnlyAssigned q r) : Parser.OnlyAssigned p r := by
  refine ⟨h2.1.trans h1.1, fun k hk => h2.2.1 k (h1.2.1 k hk), fun k hk => ?_⟩
  rw [h2.2.2 k (by rw [h1.1]; exact hk), h1.2.2 k hk]

theorem Parser.currTok_get {p : Parser} (hp : p.WF) (hne : p.currTok.type ≠ TokType.empty) :
    p.tokens.get? p.idx.toNat = some p.currTok := by
  have hlt := Parser.lt_of_type_ne hp hne
  have h0 := hp.1
  have h2 := hp.2
  rw [if_pos hlt] at h2
  have hlt2 : p.idx.toNat < p.tokens.length := by omega
  rw [h2, List.getD_eq_getElem?_getD, List.get?_eq_getElem?, List.getElem?_eq_getElem hlt2]
  rfl

theorem Parser.assign_onlyAssigned (p : Parser) (hp : p.WF)
    (hty : p.currTok.type = TokType.IDENTIFIER)
    (hnext : p.idx + 1 < (p.tokens.length : Int) ∧
      (p.tokens.getD (p.idx + 1).toNat Token.zero).type = TokType.EQUALS) :
    p.assign.Ends (Parser.OnlyAssigned p) := by
  rw [Parser.assign]
  split
  · rename_i varName hval
    have hne : p.currTok.type ≠ TokType.empty := by rw [hty]; decide
    have hget := Parser.currTok_get hp hne
    have h0 := hp.1
    have htarget : AssignTarget p.tokens varName := by
      refine ⟨p.idx.toNat, p.tokens.getD (p.idx + 1).toNat Token.zero, ?_, ?_, hnext.2⟩
      · rw [hget]
        congr 1
        cases hc : p.currTok with
        | mk ty val =>
          rw [hc] at hty hval
          simp only at hty hval
          rw [hty, hval]
      · have e1 : (p.idx + 1).toNat = p.idx.toNat + 1 := by omega
        have hlt2 : p.idx.toNat + 1 < p.tokens.length := by omega
        rw [e1, List.getD_eq_getElem?_getD, List.get?_eq_getElem?, List.getElem?_eq_getElem hlt2]
        rfl
    have hfr := (Parser.frame_all p.exprFuel).2.2.2.2 p.advance.advance
    have hfr2 : (Parser.expr p.exprFuel p.advance.advance).Ends (Parser.Frame p) :=
      Res.ends_mono hfr (fun q hq => ⟨hq.1, hq.2.1, hq.2.2.1, hq.2.2.2⟩)
    refine Res.ends_bind_of hfr2 (fun q hq => Parser.frame_onlyAssigned hq) ?_
    intro value q hq
    refine ⟨hq.1, ?_, ?_⟩
    · intro k hk
      show (q.vars.set varName value) k ≠ none
      unfold Env.set
      split
      · simp
      · rw [hq.2.2.2]; exact hk
    · intro k hk
      show (q.vars.set varName value) k = p.vars k
      unfold Env.set
      split
      · rename_i hkn
        rw [hkn] at hk
        exact absurd htarget hk
      · rw [hq.2.2.2]
  · exact Parser.frame_onlyAssigned ⟨rfl, rfl, rfl, rfl⟩

theorem Parser.expr_frame (p : Parser) : (Parser.expr p.exprFuel p).Ends (Parser.Frame p) :=
  (Parser.frame_all p.exprFuel).2.2.2.2 p

theorem Parser.print_frame (p : Parser) : p.print.Ends (Parser.Frame p) := by
  rw [Parser.print]
  refine Res.ends_bind (Parser.expr_frame p) ?_
  intro v q hq
  exact ⟨hq.1, hq.2.1, hq.2.2.1, hq.2.2.2⟩

theorem Parser.parseLoop_onlyAssigned (n : Nat) :
    ∀ p : Parser, p.WF → (Parser.parseLoop n p).Ends (Parser.OnlyAssigned p) := by
  induction n with
  | zero => intro p _; trivial
  | succ n ih =>
    intro p hp
    rw [Parser.parseLoop]
    split
    · have hstmt : ∀ r : Res Unit, r.Good p 1 → r.Ends (Parser.OnlyAssigned p) →
          (r.bind fun _ p1 => Parser.parseLoop n p1).Ends (Parser.OnlyAssigned p) := by
        intro r hg he
        cases r with
        | ok a q =>
          exact Res.ends_mono (ih q hg.1) (fun s hs => Parser.onlyAssigned_trans he hs)
        | panic e q => exact he
        | outOfFuel => trivial
      split
      · rename_i hty
        split
        · rename_i hnext
          exact hstmt _ (Parser.assign_good p hp) (Parser.assign_onlyAssigned p hp hty hnext)
        · split
          · obtain ⟨hw1, ht1, hi1⟩ := Parser.advance_wf hp
            refine hstmt _ (Res.good_rebase (Parser.print_good _ hw1) ht1 (j := 1) (k := 1)
              (by omega) (by omega) (by omega)) ?_
            exact Res.ends_mono (Parser.print_frame p.advance)
              (fun q hq => Parser.frame_onlyAssigned ⟨hq.1, hq.2.1, hq.2.2.1, hq.2.2.2⟩)
          · refine hstmt _ ?_ ?_
            · refine Res.good_bind (Parser.expr_good p hp) ?_
              intro r q hq htq hiq
              exact ⟨hq, htq, hiq⟩
            · refine Res.ends_bind_of (Parser.expr_frame p)
                (fun q hq => Parser.frame_onlyAssigned hq) ?_
              intro r q hq
              exact Parser.frame_onlyAssigned hq
      · refine hstmt _ ?_ ?_
        · refine Res.good_bind (Parser.expr_good p hp) ?_
          intro r q hq htq hiq
          exact ⟨hq, htq, hiq⟩
        · refine Res.ends_bind (Res.ends_mono (Parser.expr_frame p)
            (fun q hq => Parser.frame_onlyAssigned hq)) ?_
          intro r q hq
          exact hq
    · exact Parser.frame_onlyAssigned ⟨rfl, rfl, rfl, rfl⟩

theorem Parser.parseLoop_succ (n : Nat) (p : Parser) :
    Parser.parseLoop (n + 1) p =
      if p.currTok.type ≠ TokType.empty then p.statement.bind fun _ p1 => Parser.parseLoop n p1
      else Res.ok () p := rfl

theorem Parser.statement_good (p : Parser) (hp : p.WF) : p.statement.Good p 1 := by
  unfold Parser.statement
  split
  · split
    · exact Parser.assign_good p hp
    · split
      · obtain ⟨hw1, ht1, hi1⟩ := Parser.advance_wf hp
        exact Res.good_rebase (Parser.print_good _ hw1) ht1 (j := 1) (k := 1) (by omega)
          (by omega) (by omega)
      · refine Res.good_bind (Parser.expr_good p hp) ?_
        intro r q hq htq hiq
        exact ⟨hq, htq, hiq⟩
  · refine Res.good_bind (Parser.expr_good p hp) ?_
    intro r q hq htq hiq
    exact ⟨hq, htq, hiq⟩

theorem Parser.newParser_start (ts : List Token) (calcMode debug : Bool) (vars : Env) :
    ∃ p : Parser, p.WF ∧ p.tokens = ts ∧ p.idx = 0 ∧ p.vars = vars ∧ p.calcMode = calcMode ∧
      p.debug = debug ∧ p.rem + 1 ≤ ts.length + 1 ∧
      NewParser ts calcMode debug vars = Parser.parseLoop (ts.length + 1) p := by
  refine ⟨Parser.advance ⟨ts, -1, Token.zero, calcMode, debug, vars, []⟩, ⟨?_, rfl⟩, rfl, ?_,
    rfl, rfl, rfl, ?_, rfl⟩
  · show (0 : Int) ≤ -1 + 1
    omega
  · show (-1 : Int) + 1 = 0
    omega
  · show ((ts.length : Int) - (-1 + 1)).toNat + 1 ≤ ts.length + 1
    omega

/-- Claim C11 (the environment is changed only by assignment). For every token
sequence `ts`, flags and environment, the evaluation ends (normally or with a panic)
in a state in which no key of the environment has been removed and every name that is
not the value of an `IDENTIFIER` token immediately followed by an `EQUALS` token of
`ts` has the binding, or the absence of binding, it had before; when `ts` holds no
`EQUALS` token the environment is unchanged. -/
theorem environment_changed_only_by_assignment (ts : List Token) (calcMode debug : Bool)
    (vars : Env) :
    NewParser ts calcMode debug vars ≠ Res.outOfFuel ∧
    (NewParser ts calcMode debug vars).Ends (fun q =>
      (∀ k, vars k ≠ none → q.vars k ≠ none) ∧
      (∀ k, ¬ AssignTarget ts k → q.vars k = vars k) ∧
      ((∀ t ∈ ts, t.type ≠ TokType.EQUALS) → q.vars = vars)) := by
  refine ⟨NewParser_ne_outOfFuel ts calcMode debug vars, ?_⟩
  obtain ⟨p, hp, hts, -, hvars, -, -, -, hrun⟩ := Parser.newParser_start ts calcMode debug vars
  rw [hrun]
  refine Res.ends_mono (Parser.parseLoop_onlyAssigned _ p hp) ?_
  intro q hq
  obtain ⟨-, hkeep, hsame⟩ := hq
  rw [hvars] at hkeep
  rw [hts, hvars] at hsame
  refine ⟨hkeep, hsame, ?_⟩
  intro hno
  funext k
  apply hsame
  rintro ⟨i, t, -, hget, hty⟩
  exact hno t (List.get?_mem hget) hty

theorem environment_changed_only_by_assignment_witness :
    (NewParser [⟨TokType.IDENTIFIER, Value.str ['y']⟩, ⟨TokType.EQUALS, Value.rune '='⟩,
        ⟨TokType.NUMBER, Value.int 1⟩] false false (Env.empty.set ['x'] (Value.int 5))).Ends
      (fun q =>
        (∀ k, (Env.empty.set ['x'] (Value.int 5)) k ≠ none → q.vars k ≠ none) ∧
        (∀ k, ¬ AssignTarget [⟨TokType.IDENTIFIER, Value.str ['y']⟩,
            ⟨TokType.EQUALS, Value.rune '='⟩, ⟨TokType.NUMBER, Value.int 1⟩] k →
          q.vars k = (Env.empty.set ['x'] (Value.int 5)) k) ∧
        ((∀ t ∈ [(⟨TokType.IDENTIFIER, Value.str ['y']⟩ : Token),
            ⟨TokType.EQUALS, Value.rune '='⟩, ⟨TokType.NUMBER, Value.int 1⟩],
            t.type ≠ TokType.EQUALS) → q.vars = Env.empty.set ['x'] (Value.int 5))) :=
  (environment_changed_only_by_assignment _ false false _).2

/-- Claim C20 (the evaluator terminates and never backtracks). For every token
sequence whose tokens have one of the fourteen token kinds, every environment and
both flags: the evaluation ends, normally or with a panic, within its budget; the
token index at the end is not below the index at the start, and on normal completion
it has passed the last token. From every state whose cached current token is the
token at the index, `factor`, `term`, `expr`, their loops, `assign`, `print`, one
statement and the statement loop end with an index that is not smaller than at the
call, and a statement that does not fail has increased it by at least one. -/
theorem evaluator_terminates_without_backtracking (ts : List Token) (calcMode debug : Bool)
    (vars : Env) (hkinds : ∀ t ∈ ts, t.type ≠ TokType.empty) :
    NewParser ts calcMode debug vars ≠ Res.outOfFuel ∧
    (∀ u q, NewParser ts calcMode debug vars = Res.ok u q → (ts.length : Int) ≤ q.idx) ∧
    (∀ e q, NewParser ts calcMode debug vars = Res.panic e q → 0 ≤ q.idx) ∧
    (∀ p : Parser, p.WF → p.statement.Good p 1 ∧ p.assign.Good p 1 ∧ p.print.Good p 1 ∧
      (Parser.expr p.exprFuel p).Good p 1 ∧
      ∀ n, p.rem + 1 ≤ n → (Parser.parseLoop n p).Good p 0) ∧
    (∀ (n : Nat) (p : Parser), p.WF →
      (3 * p.rem + 1 ≤ n → (Parser.factor n p).Good p 1) ∧
      (∀ v, 3 * p.rem + 1 ≤ n → (Parser.termLoop n v p).Good p 0) ∧
      (3 * p.rem + 2 ≤ n → (Parser.term n p).Good p 1) ∧
      (∀ v, 3 * p.rem + 1 ≤ n → (Parser.exprLoop n v p).Good p 0) ∧
      (3 * p.rem + 3 ≤ n → (Parser.expr n p).Good p 1)) := by
  obtain ⟨p, hp, hts, hidx, -, -, -, hrem, hrun⟩ := Parser.newParser_start ts calcMode debug vars
  obtain ⟨hgood, hend⟩ := Parser.parseLoop_good (ts.length + 1) p hp hrem
  refine ⟨NewParser_ne_outOfFuel ts calcMode debug vars, ?_, ?_, ?_, ?_⟩
  · intro u q h
    rw [hrun] at h
    have hty := hend u q h
    rw [h] at hgood
    obtain ⟨hq, htq, -⟩ := hgood
    by_contra hlt
    have hlt2 : q.idx < (q.tokens.length : Int) := by rw [htq, hts]; omega
    have h0 := hq.1
    have hcur := hq.2
    rw [if_pos hlt2] at hcur
    have hlt3 : q.idx.toNat < q.tokens.length := by omega
    have hmem : q.currTok ∈ ts := by
      rw [hcur, List.getD_eq_getElem?_getD, List.getElem?_eq_getElem hlt3, ← hts, ← htq]
      exact List.getElem_mem _
    exact hkinds _ hmem hty
  · intro e q h
    rw [hrun] at h
    rw [h] at hgood
    have := hgood.2
    omega
  · intro s hs
    exact ⟨Parser.statement_good s hs, Parser.assign_good s hs, Parser.print_good s hs,
      Parser.expr_good s hs, fun n hn => (Parser.parseLoop_good n s hs hn).1⟩
  · intro n s hs
    obtain ⟨h1, h2, h3, h4, h5⟩ := Parser.good_all n
    exact ⟨h1 s hs, fun v => h2 v s hs, h3 s hs, fun v => h4 v s hs, h5 s hs⟩

theorem evaluator_terminates_without_backtracking_witness :
    NewParser [⟨TokType.IDENTIFIER, Value.str ['x']⟩, ⟨TokType.EQUALS, Value.rune '='⟩,
        ⟨TokType.NUMBER, Value.int 1⟩] false false Env.empty ≠ Res.outOfFuel ∧
    (∀ u q, NewParser [⟨TokType.IDENTIFIER, Value.str ['x']⟩, ⟨TokType.EQUALS, Value.rune '='⟩,
        ⟨TokType.NUMBER, Value.int 1⟩] false false Env.empty = Res.ok u q → (3 : Int) ≤ q.idx) :=
  ⟨(evaluator_terminates_without_backtracking _ false false Env.empty (by decide)).1,
   (evaluator_terminates_without_backtracking _ false false Env.empty (by decide)).2.1⟩

/-! ## The tokenizer on strings, unknown characters, numbers and words; left association (C15 to C19) -/

theorem NewLexer_single (x : Lexeme) (hv : x.Valid NUL) (debug : Bool) :
    (NewLexer x.text debug).tokens? = some x.tokens ∧ (NewLexer x.text debug).panic? = none := by
  obtain ⟨l, h1, h2, -⟩ := NewLexer_lexemes [x] ⟨hv, trivial⟩ debug
  have e1 : lexText [x] = x.text := by simp [lexText]
  have e2 : lexTokens [x] = x.tokens := by simp [lexTokens]
  rw [e1] at h1
  rw [e2] at h2
  rw [h1]
  exact ⟨by rw [LexRes.tokens?, h2], rfl⟩

/-- Claim C15, the code at the failing input. The line made of a quote, the character
NUL and a quote is a terminated string literal without an inner quote, yet the
tokenizer panics with `Unterminated string literal` instead of returning one `STRING`
token: `parseString` stops at NUL as at the end of the input. -/
theorem string_with_nul_is_unterminated :
    (NewLexer [Char.ofNat 34, Char.ofNat 0, Char.ofNat 34] false).panic?
      = some Panic.UnterminatedString ∧
    (NewLexer [Char.ofNat 34, Char.ofNat 0, Char.ofNat 34] false).tokens? = none := by
  decide

/-- Claim C16, the code at the failing input. On the line `1`, NUL, `2` the tokenizer
does not fail with `UnexpectedCharacter`: its loop `for l.currChar != 0` takes the
NUL for the end of the input and returns the single token `NUMBER 1`, dropping the
rest of the line. Another unrecognized character, such as `#`, is rejected. -/
theorem nul_ends_tokenizing_silently :
    (NewLexer ['1', Char.ofNat 0, '2'] false).tokens?
      = some [⟨TokType.NUMBER, Value.int 1⟩] ∧
    (NewLexer ['1', Char.ofNat 0, '2'] false).panic? = none ∧
    (NewLexer ['1', '#', '2'] false).panic? = some (Panic.UnexpectedCharacter '#') := by
  decide

/-- Claim C17, amended (numeric literals saturate). For every non-empty run `d` of
decimal digits and both values of the trace flag, the tokenizer returns exactly one
token, of kind `NUMBER`, whose value is the decimal value of `d` when that value is at
most 9223372036854775807 and 9223372036854775807 otherwise. -/
theorem number_literal_saturates (ds : List Char) (debug : Bool) (hd : IsNumeral ds) :
    (NewLexer ds debug).tokens? = some [⟨TokType.NUMBER,
      Value.int (if decimalValue ds ≤ 9223372036854775807 then (decimalValue ds : Int)
        else 9223372036854775807)⟩] := by
  have h := (NewLexer_single (Lexeme.num ds) ⟨hd.1, hd.2, by decide⟩ debug).1
  have hall : ds.all (fun c => digits.contains c) = true := List.all_eq_true.2 hd.2
  have hA : Atoi ds = (if decimalValue ds ≤ 9223372036854775807 then (decimalValue ds : Int)
      else 9223372036854775807) := by
    simp only [Atoi, hd.1, hall, false_or, not_true_eq_false, if_false, maxInt64]
    split
    · rename_i hgt
      rw [if_neg (by omega)]
    · rename_i hgt
      rw [if_pos (by omega)]
  simpa only [Lexeme.text, Lexeme.tokens, hA] using h

theorem number_literal_saturates_witness :
    (NewLexer "42".toList false).tokens? = some [⟨TokType.NUMBER, Value.int 42⟩] ∧
    (NewLexer "99999999999999999999".toList false).tokens?
      = some [⟨TokType.NUMBER, Value.int 9223372036854775807⟩] :=
  ⟨number_literal_saturates "42".toList false (by decide),
   number_literal_saturates "99999999999999999999".toList false (by decide)⟩

/-- Claim C17, counterexample. The literal `9223372036854775808` is tokenized to the
number 9223372036854775807, not to the wrapped value -9223372036854775808. -/
theorem number_literal_does_not_wrap :
    (NewLexer "9223372036854775808".toList false).tokens?
      = some [⟨TokType.NUMBER, Value.int 9223372036854775807⟩] ∧
    (NewLexer "9223372036854775808".toList false).tokens?
      ≠ some [⟨TokType.NUMBER, Value.int (-9223372036854775808)⟩] := by
  have h := (NewLexer_single (Lexeme.num "9223372036854775808".toList) (by decide) false).1
  have hA : Atoi "9223372036854775808".toList = 9223372036854775807 := by decide
  have h2 : (NewLexer "9223372036854775808".toList false).tokens?
      = some [⟨TokType.NUMBER, Value.int 9223372036854775807⟩] := by
    simpa only [Lexeme.text, Lexeme.tokens, hA] using h
  rw [h2]
  exact ⟨rfl, by decide⟩

/-- Claim C18 (boolean literal disambiguation). For every word `w` (a letter or
underscore followed by letters, digits and underscores) and both values of the trace
flag, the tokenizer returns exactly one token: `BOOLEAN true` when `w` is `true`,
`BOOLEAN false` when `w` is `false`, and `IDENTIFIER` with value `w` otherwise. -/
theorem word_is_boolean_or_identifier (w : List Char) (debug : Bool) (hw : IsWord w) :
    (NewLexer w debug).tokens? = some [
      if w = "true".toList then ⟨TokType.BOOLEAN, Value.bool true⟩
      else if w = "false".toList then ⟨TokType.BOOLEAN, Value.bool false⟩
      else ⟨TokType.IDENTIFIER, Value.str w⟩] := by
  have h := (NewLexer_single (Lexeme.word w) ⟨hw.1, hw.2, by decide⟩ debug).1
  have hT : wordToken w = (if w = "true".toList then ⟨TokType.BOOLEAN, Value.bool true⟩
      else if w = "false".toList then ⟨TokType.BOOLEAN, Value.bool false⟩
      else ⟨TokType.IDENTIFIER, Value.str w⟩) := by
    unfold wordToken
    by_cases h1 : w = "true".toList
    · rw [if_pos (Or.inl h1), if_pos h1, decide_eq_true h1]
    · by_cases h2 : w = "false".toList
      · rw [if_pos (Or.inr h2), if_neg h1, if_pos h2, decide_eq_false h1]
      · rw [if_neg (fun h => h.elim h1 h2), if_neg h1, if_neg h2]
  simpa only [Lexeme.text, Lexeme.tokens, hT] using h

theorem word_is_boolean_or_identifier_witness :
    (NewLexer "true".toList false).tokens? = some [⟨TokType.BOOLEAN, Value.bool true⟩] ∧
    (NewLexer "false".toList false).tokens? = some [⟨TokType.BOOLEAN, Value.bool false⟩] ∧
    (NewLexer "True".toList false).tokens?
      = some [⟨TokType.IDENTIFIER, Value.str "True".toList⟩] ∧
    (NewLexer "truex".toList false).tokens?
      = some [⟨TokType.IDENTIFIER, Value.str "truex".toList⟩] ∧
    (NewLexer "true1".toList false).tokens?
      = some [⟨TokType.IDENTIFIER, Value.str "true1".toList⟩] ∧
    (NewLexer "_true".toList false).tokens?
      = some [⟨TokType.IDENTIFIER, Value.str "_true".toList⟩] :=
  ⟨word_is_boolean_or_identifier "true".toList false (by decide),
   word_is_boolean_or_identifier "false".toList false (by decide),
   word_is_boolean_or_identifier "True".toList false (by decide),
   word_is_boolean_or_identifier "truex".toList false (by decide),
   word_is_boolean_or_identifier "true1".toList false (by decide),
   word_is_boolean_or_identifier "_true".toList false (by decide)⟩

theorem NewLexer_start (text : List Char) (debug : Bool) :
    ∃ l0 : Lexer, l0.Sees debug [] text [] ∧ NewLexer text debug = l0.tokenize := by
  refine ⟨Lexer.advance ⟨text, [], -1, NUL, debug, []⟩, ⟨rfl, by simp [Lexer.advance], ?_, rfl,
    rfl, ?_, ?_⟩, rfl⟩
  · cases text with
    | nil => simp [Lexer.advance]
    | cons c cs => simp [Lexer.advance]
  · intro hd
    have hd2 : debug = false := hd
    simp [Lexer.advance, hd2]
  · intro x hx
    simp only [Lexer.advance] at hx
    split at hx
    · simp at hx
      subst hx
      rfl
    · simp at hx

/-- The two halves of the string rule that hold: a quoted text without quote and
without NUL is one `STRING` token holding the text, and an opening quote followed by
any text without quote is rejected as unterminated. -/
theorem string_literal_rule (s : List Char) (debug : Bool)
    (hq : ∀ c ∈ s, c ≠ Char.ofNat 34) :
    ((∀ c ∈ s, c ≠ NUL) →
      (NewLexer (Char.ofNat 34 :: (s ++ [Char.ofNat 34])) debug).tokens?
        = some [⟨TokType.STRING, Value.str s⟩]) ∧
    (NewLexer (Char.ofNat 34 :: s) debug).panic? = some Panic.UnterminatedString := by
  constructor
  · intro hn
    exact (NewLexer_single (Lexeme.strLit s) (fun c hc => ⟨hn c hc, hq c hc⟩) debug).1
  · obtain ⟨l0, hs0, hrun⟩ := NewLexer_start (Char.ofNat 34 :: s) debug
    have hsplit : s = s.takeWhile (fun c => decide (c ≠ NUL)) ++
        s.dropWhile (fun c => decide (c ≠ NUL)) := (List.takeWhile_append_dropWhile _ s).symm
    have hstop : (s.dropWhile (fun c => decide (c ≠ NUL))).headD NUL = NUL := by
      cases hd : s.dropWhile (fun c => decide (c ≠ NUL)) with
      | nil => rfl
      | cons c cs =>
        have := List.head_dropWhile_not (fun c => decide (c ≠ NUL)) s (by rw [hd]; simp)
        simp only [hd, List.head_cons] at this
        simpa using this
    have hs1 : l0.advance.Sees debug [Char.ofNat 34]
        (s.takeWhile (fun c => decide (c ≠ NUL)) ++ s.dropWhile (fun c => decide (c ≠ NUL))) [] := by
      rw [← hsplit]
      exact Lexer.advance_sees hs0
    have hlen : (s.takeWhile (fun c => decide (c ≠ NUL))).length < l0.src.length + 1 := by
      rw [hs0.1]
      have := (List.takeWhile_sublist (l := s) (fun c => decide (c ≠ NUL))).length_le
      simp only [List.nil_append, List.length_cons]
      omega
    obtain ⟨l1, h1, h2⟩ := Lexer.scanLoop_sees
      (fun c => decide (c ≠ NUL ∧ c ≠ Char.ofNat 34)) _ _ _ l0.advance [] _ [] hs1
      (fun c hc => by
        have h1 := List.mem_takeWhile_imp hc
        have h2 := hq c (List.takeWhile_subset _ hc)
        simp only [decide_eq_true_eq] at h1
        exact decide_eq_true ⟨h1, h2⟩)
      (by rw [hstop]; simp) hlen
    have hc1 : l1.currChar = NUL := by rw [h2.2.2.1, hstop]
    have hc0 : l0.currChar = Char.ofNat 34 := by simpa using hs0.2.2.1
    have hne : Char.ofNat 34 ≠ NUL := by decide
    have hm : tokenMap (Char.ofNat 34) = none := by decide
    have hps : l0.parseString = LexRes.panic Panic.UnterminatedString l1 := by
      have hsrc : l0.advance.src = l0.src := rfl
      simp only [Lexer.parseString, Lexer.parseStringLoop_eq_scanLoop]
      rw [h1]
      simp only [hc1]
      rw [if_neg (by decide)]
    have hloop : ∀ n, Lexer.tokenizeLoop (n + 1) l0 = LexRes.panic Panic.UnterminatedString l1 := by
      intro n
      simp only [Lexer.tokenizeLoop, hc0, hm, ne_eq, hne, not_false_eq_true, if_true, hps]
    rw [hrun, Lexer.tokenize, hloop]
    rfl

/-- The last branch of the loop of `tokenize`: a character other than NUL that is no
operator, quote, space, digit, letter or underscore is rejected. -/
theorem Lexer.tokenizeLoop_unexpected (l : Lexer) (n : Nat) (hne : l.currChar ≠ NUL)
    (hm : tokenMap l.currChar = none) (hq : l.currChar ≠ Char.ofNat 34) (hs : l.currChar ≠ ' ')
    (hd : digits.contains l.currChar = false) (hl : letters.contains l.currChar = false) :
    Lexer.tokenizeLoop (n + 1) l = LexRes.panic (Panic.UnexpectedCharacter l.currChar) l := by
  rw [Lexer.tokenizeLoop, if_pos hne, hm]
  simp only [hq, hs, hd, hl, if_false, Bool.false_eq_true]

theorem parse_sub_sub (a b c : Int) (calcMode debug : Bool) (vars : Env) :
    ∃ p, NewParser [⟨TokType.IDENTIFIER, Value.str ['x']⟩, ⟨TokType.EQUALS, Value.rune '='⟩,
        ⟨TokType.NUMBER, Value.int a⟩, ⟨TokType.MINUS, Value.rune '-'⟩,
        ⟨TokType.NUMBER, Value.int b⟩, ⟨TokType.MINUS, Value.rune '-'⟩,
        ⟨TokType.NUMBER, Value.int c⟩] calcMode debug vars = Res.ok () p ∧
      p.vars = vars.set ['x'] (Value.int (wrap64 (wrap64 (a - b) - c))) := by
  cases calcMode <;> cases debug <;> exact ⟨_, rfl, rfl⟩

theorem parse_div_div_pos (a : Int) (k m : Nat) (calcMode debug : Bool) (vars : Env) :
    ∃ p, NewParser [⟨TokType.IDENTIFIER, Value.str ['x']⟩, ⟨TokType.EQUALS, Value.rune '='⟩,
        ⟨TokType.NUMBER, Value.int a⟩, ⟨TokType.DIVIDE, Value.rune '/'⟩,
        ⟨TokType.NUMBER, Value.int (Int.ofNat (k + 1))⟩, ⟨TokType.DIVIDE, Value.rune '/'⟩,
        ⟨TokType.NUMBER, Value.int (Int.ofNat (m + 1))⟩] calcMode debug vars = Res.ok () p ∧
      p.vars = vars.set ['x']
        (Value.int (wrap64 (Int.tdiv (wrap64 (Int.tdiv a (Int.ofNat (k + 1)))) (Int.ofNat (m + 1))))) := by
  cases calcMode <;> cases debug <;> exact ⟨_, rfl, rfl⟩

theorem parse_div_div (a b c : Int) (hb : 0 < b) (hc : 0 < c) (calcMode debug : Bool)
    (vars : Env) :
    ∃ p, NewParser [⟨TokType.IDENTIFIER, Value.str ['x']⟩, ⟨TokType.EQUALS, Value.rune '='⟩,
        ⟨TokType.NUMBER, Value.int a⟩, ⟨TokType.DIVIDE, Value.rune '/'⟩,
        ⟨TokType.NUMBER, Value.int b⟩, ⟨TokType.DIVIDE, Value.rune '/'⟩,
        ⟨TokType.NUMBER, Value.int c⟩] calcMode debug vars = Res.ok () p ∧
      p.vars = vars.set ['x'] (Value.int (wrap64 (Int.tdiv (wrap64 (Int.tdiv a b)) c))) := by
  obtain ⟨k, rfl⟩ : ∃ k : Nat, b = Int.ofNat (k + 1) := ⟨(b - 1).toNat, by
    show b = (((b - 1).toNat + 1 : Nat) : Int)
    omega⟩
  obtain ⟨m, rfl⟩ : ∃ m : Nat, c = Int.ofNat (m + 1) := ⟨(c - 1).toNat, by
    show c = (((c - 1).toNat + 1 : Nat) : Int)
    omega⟩
  exact parse_div_div_pos a k m calcMode debug vars

theorem runLine_three_numbers (c : Char) (ty : TokType) (hm : tokenMap c = some ty)
    (da db dc : List Char) (calcMode debug : Bool) (vars : Env)
    (ha : IsNumeral da) (hb : IsNumeral db) (hc : IsNumeral dc)
    (hfa : InInt64 (decimalValue da)) (hfb : InInt64 (decimalValue db))
    (hfc : InInt64 (decimalValue dc)) :
    ∃ out0, runLine ("x = ".toList ++ da ++ [' ', c, ' '] ++ db ++ [' ', c, ' '] ++ dc)
        calcMode debug vars =
      Outcome.ofParse out0 (NewParser [⟨TokType.IDENTIFIER, Value.str ['x']⟩,
        ⟨TokType.EQUALS, Value.rune '='⟩, ⟨TokType.NUMBER, Value.int (decimalValue da)⟩,
        ⟨ty, Value.rune c⟩, ⟨TokType.NUMBER, Value.int (decimalValue db)⟩, ⟨ty, Value.rune c⟩,
        ⟨TokType.NUMBER, Value.int (decimalValue dc)⟩] calcMode debug vars) := by
  have hv : LexValid [Lexeme.word ['x'], Lexeme.space, Lexeme.op '=' TokType.EQUALS, Lexeme.space,
      Lexeme.num da, Lexeme.space, Lexeme.op c ty, Lexeme.space,
      Lexeme.num db, Lexeme.space, Lexeme.op c ty, Lexeme.space, Lexeme.num dc] :=
    ⟨(by decide : (Lexeme.word ['x']).Valid ' '), trivial,
      (by decide : tokenMap '=' = some TokType.EQUALS), trivial,
      ⟨ha.1, ha.2, (by decide : digits.contains ' ' = false)⟩, trivial, hm, trivial,
      ⟨hb.1, hb.2, (by decide : digits.contains ' ' = false)⟩, trivial, hm, trivial,
      ⟨hc.1, hc.2, (by decide : digits.contains NUL = false)⟩, trivial⟩
  obtain ⟨out0, -, -, h⟩ := runLine_lexemes _ hv calcMode debug vars
  have hline : ("x = ".toList ++ da ++ [' ', c, ' '] ++ db ++ [' ', c, ' '] ++ dc) =
      lexText [Lexeme.word ['x'], Lexeme.space, Lexeme.op '=' TokType.EQUALS, Lexeme.space,
      Lexeme.num da, Lexeme.space, Lexeme.op c ty, Lexeme.space,
      Lexeme.num db, Lexeme.space, Lexeme.op c ty, Lexeme.space, Lexeme.num dc] := by
    simp [lexText, Lexeme.text]
  refine ⟨out0, ?_⟩
  rw [hline, h]
  simp only [lexTokens, Lexeme.tokens, xWord, List.cons_append, List.nil_append, List.append_nil,
    Atoi_eq ha hfa, Atoi_eq hb hfb, Atoi_eq hc hfc]

/-! ## State changes that the tokenizer and the evaluator cannot observe -/

theorem Res.sim_ok {α : Type} {U : Prop} {T : Parser → Parser} (a : α) (q : Parser) :
    Res.Sim U T (Res.ok a (T q)) (Res.ok a q) := Or.inr rfl

theorem Res.sim_panic {α : Type} {U : Prop} {T : Parser → Parser} (e : Panic) (q : Parser) :
    Res.Sim U T (Res.panic e (T q) : Res α) (Res.panic e q) := Or.inr rfl

theorem Res.sim_bind {α β : Type} {U : Prop} {T : Parser → Parser} {r2 r1 : Res α}
    {g2 g1 : α → Parser → Res β} (h : Res.Sim U T r2 r1)
    (hg : ∀ a q, Res.Sim U T (g2 a (T q)) (g1 a q)) : Res.Sim U T (r2.bind g2) (r1.bind g1) := by
  rcases h with ⟨hu, hundef⟩ | rfl
  · left
    refine ⟨hu, ?_⟩
    cases r1 with
    | ok a q => exact hundef.elim
    | panic e q => exact (show (Res.panic e q : Res β).isUndefined from by cases e <;> first | exact hundef.elim | trivial)
    | outOfFuel => exact hundef.elim
  · cases r1 with
    | ok a q => exact hg a q
    | panic e q => exact Or.inr rfl
    | outOfFuel => exact Or.inr rfl

theorem assertInt_sim {U : Prop} {T : Parser → Parser} {v : Value} {q : Parser}
    {f2 f1 : Int → Res Value} (h : ∀ a, Res.Sim U T (f2 a) (f1 a)) :
    Res.Sim U T (assertInt v (T q) f2) (assertInt v q f1) := by
  cases v <;> first | exact h _ | exact Or.inr rfl

theorem assertBool_sim {U : Prop} {T : Parser → Parser} {v : Value} {q : Parser}
    {f2 f1 : Bool → Res Value} (h : ∀ a, Res.Sim U T (f2 a) (f1 a)) :
    Res.Sim U T (assertBool v (T q) f2) (assertBool v q f1) := by
  cases v <;> first | exact h _ | exact Or.inr rfl

theorem Parser.factor_sim_step {U : Prop} {T : Parser → Parser} (hT : Parser.Commutes U T)
    (n : Nat)
    (ihF : ∀ p : Parser, Res.Sim U T (Parser.factor n (T p)) (Parser.factor n p))
    (ihE : ∀ p : Parser, Res.Sim U T (Parser.expr n (T p)) (Parser.expr n p))
    (p : Parser) : Res.Sim U T (Parser.factor (n + 1) (T p)) (Parser.factor (n + 1) p) := by
  cases hty : p.currTok.type <;> simp only [Parser.factor, hT.currTok, hT.advance, hty]
  case NUMBER => exact Or.inr rfl
  case STRING => exact Or.inr rfl
  case BOOLEAN => exact Or.inr rfl
  case IDENTIFIER =>
    cases hv : p.currTok.value <;> simp only [] <;> try exact Or.inr rfl
    rename_i name
    rcases hT.lookup p name with ⟨hu, hnone⟩ | heq
    · left
      refine ⟨hu, ?_⟩
      rw [hnone]
      trivial
    · rw [heq]
      cases p.vars name <;> exact Or.inr rfl
  case NOT =>
    refine Res.sim_bind (ihF _) ?_
    intro a q
    exact assertBool_sim (fun b => Or.inr rfl)
  case LPAREN =>
    refine Res.sim_bind (ihE _) ?_
    intro a q
    rw [hT.currTok, hT.advance]
    split <;> exact Or.inr rfl
  all_goals exact Or.inr rfl

theorem Parser.termLoop_sim_step {U : Prop} {T : Parser → Parser} (hT : Parser.Commutes U T)
    (n : Nat)
    (ihF : ∀ p : Parser, Res.Sim U T (Parser.factor n (T p)) (Parser.factor n p))
    (ihTL : ∀ v (p : Parser), Res.Sim U T (Parser.termLoop n v (T p)) (Parser.termLoop n v p))
    (v : Value) (p : Parser) :
    Res.Sim U T (Parser.termLoop (n + 1) v (T p)) (Parser.termLoop (n + 1) v p) := by
  cases hty : p.currTok.type <;> simp only [Parser.termLoop, hT.currTok, hT.advance, hty]
  case MULTIPLY =>
    refine assertInt_sim fun a => Res.sim_bind (ihF _) fun r q => assertInt_sim fun b => ?_
    exact ihTL _ q
  case DIVIDE =>
    refine assertInt_sim fun a => Res.sim_bind (ihF _) fun r q => assertInt_sim fun b => ?_
    split
    · exact Or.inr rfl
    · exact ihTL _ q
  all_goals exact Or.inr rfl

theorem Parser.exprLoop_sim_step {U : Prop} {T : Parser → Parser} (hT : Parser.Commutes U T)
    (n : Nat)
    (ihT : ∀ p : Parser, Res.Sim U T (Parser.term n (T p)) (Parser.term n p))
    (ihEL : ∀ v (p : Parser), Res.Sim U T (Parser.exprLoop n v (T p)) (Parser.exprLoop n v p))
    (v : Value) (p : Parser) :
    Res.Sim U T (Parser.exprLoop (n + 1) v (T p)) (Parser.exprLoop (n + 1) v p) := by
  cases hty : p.currTok.type <;> simp only [Parser.exprLoop, hT.currTok, hT.advance, hty]
  case PLUS =>
    refine assertInt_sim fun a => Res.sim_bind (ihT _) fun r q => assertInt_sim fun b => ?_
    exact ihEL _ q
  case MINUS =>
    refine assertInt_sim fun a => Res.sim_bind (ihT _) fun r q => assertInt_sim fun b => ?_
    exact ihEL _ q
  case AND =>
    refine assertBool_sim fun a => ?_
    cases a
    · exact ihEL _ _
    · exact Res.sim_bind (ihT _) fun r q => assertBool_sim fun b => ihEL _ q
  case OR =>
    refine assertBool_sim fun a => ?_
    cases a
    · exact Res.sim_bind (ihT _) fun r q => assertBool_sim fun b => ihEL _ q
    · exact ihEL _ _
  all_goals exact Or.inr rfl

theorem Parser.echo_sim {U : Prop} {T : Parser → Parser} (hT : Parser.Commutes U T)
    (v : Value) (q : Parser) :
    Res.Sim U T
      (Res.ok v (if (T q).calcMode then { T q with out := (T q).out ++ [OutLine.result v] } else T q))
      (Res.ok v (if q.calcMode then { q with out := q.out ++ [OutLine.result v] } else q)) := by
  right
  rw [hT.echo]
  rfl

/-- A change of state that commutes with the steps of the evaluator is carried through
every evaluation: the run from the changed state ends as the run from the original
state does, in the changed end state. -/
theorem Parser.sim_all {U : Prop} {T : Parser → Parser} (hT : Parser.Commutes U T) (n : Nat) :
    (∀ p : Parser, Res.Sim U T (Parser.factor n (T p)) (Parser.factor n p)) ∧
    (∀ v (p : Parser), Res.Sim U T (Parser.termLoop n v (T p)) (Parser.termLoop n v p)) ∧
    (∀ p : Parser, Res.Sim U T (Parser.term n (T p)) (Parser.term n p)) ∧
    (∀ v (p : Parser), Res.Sim U T (Parser.exprLoop n v (T p)) (Parser.exprLoop n v p)) ∧
    (∀ p : Parser, Res.Sim U T (Parser.expr n (T p)) (Parser.expr n p)) := by
  induction n with
  | zero =>
    refine ⟨fun p => ?_, fun v p => ?_, fun p => ?_, fun v p => ?_, fun p => ?_⟩ <;>
      exact Or.inr (by simp only [Parser.factor, Parser.termLoop, Parser.term, Parser.exprLoop, Parser.expr, Res.map])
  | succ n ih =>
    obtain ⟨ihF, ihTL, ihT, ihEL, ihE⟩ := ih
    refine ⟨Parser.factor_sim_step hT n ihF ihE, Parser.termLoop_sim_step hT n ihF ihTL, ?_,
      Parser.exprLoop_sim_step hT n ihT ihEL, ?_⟩
    · intro p
      rw [Parser.term, Parser.term]
      exact Res.sim_bind (ihF p) fun r q => ihTL r q
    · intro p
      rw [Parser.expr, Parser.expr]
      exact Res.sim_bind (ihT p) fun r q => Res.sim_bind (ihEL r q) fun v q2 => Parser.echo_sim hT v q2

theorem Parser.expr_sim {U : Prop} {T : Parser → Parser} (hT : Parser.Commutes U T) (p : Parser) :
    Res.Sim U T (Parser.expr (T p).exprFuel (T p)) (Parser.expr p.exprFuel p) := by
  have h : (T p).exprFuel = p.exprFuel := by rw [Parser.exprFuel, Parser.exprFuel, hT.tokens]
  rw [h]
  exact (Parser.sim_all hT _).2.2.2.2 p

theorem Parser.assign_sim {U : Prop} {T : Parser → Parser} (hT : Parser.Commutes U T) (p : Parser) :
    Res.Sim U T (T p).assign p.assign := by
  have h : (T p).exprFuel = p.exprFuel := by rw [Parser.exprFuel, Parser.exprFuel, hT.tokens]
  rw [Parser.assign, Parser.assign, hT.currTok, h, hT.advance, hT.advance]
  cases p.currTok.value <;> try exact Or.inr rfl
  rename_i name
  refine Res.sim_bind ((Parser.sim_all hT _).2.2.2.2 _) fun v q => ?_
  right
  rw [hT.store]
  rfl

theorem Parser.print_sim {U : Prop} {T : Parser → Parser} (hT : Parser.Commutes U T) (p : Parser) :
    Res.Sim U T (T p).print p.print := by
  rw [Parser.print, Parser.print]
  refine Res.sim_bind (Parser.expr_sim hT p) fun v q => ?_
  right
  rw [hT.println]
  rfl

theorem Parser.parseLoop_sim {U : Prop} {T : Parser → Parser} (hT : Parser.Commutes U T)
    (n : Nat) : ∀ p : Parser, Res.Sim U T (Parser.parseLoop n (T p)) (Parser.parseLoop n p) := by
  induction n with
  | zero => intro p; exact Or.inr rfl
  | succ n ih =>
    intro p
    have h : (T p).exprFuel = p.exprFuel := by rw [Parser.exprFuel, Parser.exprFuel, hT.tokens]
    rw [Parser.parseLoop, Parser.parseLoop]
    simp only [hT.currTok, hT.idx, hT.tokens]
    split
    · refine Res.sim_bind ?_ fun _ q => ih q
      split
      · split
        · exact Parser.assign_sim hT p
        · split
          · rw [hT.advance]
            exact Parser.print_sim hT _
          · exact Res.sim_bind (Parser.expr_sim hT p) fun _ q => Or.inr rfl
      · exact Res.sim_bind (Parser.expr_sim hT p) fun _ q => Or.inr rfl
    · exact Or.inr rfl

theorem Parser.parse_sim {U : Prop} {T : Parser → Parser} (hT : Parser.Commutes U T)
    (p : Parser) : Res.Sim U T (T p).advance.parse p.advance.parse := by
  rw [hT.advance, Parser.parse, Parser.parse, hT.tokens]
  exact Parser.parseLoop_sim hT _ _

theorem Lexer.scanLoop_sim {T : Lexer → Lexer} (hT : Lexer.Commutes T) (P : Char → Bool)
    (n : Nat) : ∀ (l : Lexer) (acc : List Char),
      Lexer.scanLoop P n (T l) acc = (Lexer.scanLoop P n l acc).map fun x => (T x.1, x.2) := by
  induction n with
  | zero => intro l acc; rfl
  | succ n ih =>
    intro l acc
    rw [Lexer.scanLoop, Lexer.scanLoop, hT.currChar, hT.advance, ih]
    split <;> rfl

theorem Lexer.parseNum_sim {T : Lexer → Lexer} (hT : Lexer.Commutes T) (l : Lexer) :
    (T l).parseNum = l.parseNum.map T := by
  rw [Lexer.parseNum, Lexer.parseNum, Lexer.parseNumLoop_eq_scanLoop,
    Lexer.parseNumLoop_eq_scanLoop, hT.src, Lexer.scanLoop_sim hT]
  cases Lexer.scanLoop _ (l.src.length + 1) l [] with
  | none => rfl
  | some x => simp only [Option.map, hT.push, LexRes.map]

theorem Lexer.parseVar_sim {T : Lexer → Lexer} (hT : Lexer.Commutes T) (l : Lexer) :
    (T l).parseVar = l.parseVar.map T := by
  rw [Lexer.parseVar, Lexer.parseVar, Lexer.parseVarLoop_eq_scanLoop,
    Lexer.parseVarLoop_eq_scanLoop, hT.src, Lexer.scanLoop_sim hT]
  cases Lexer.scanLoop _ (l.src.length + 1) l [] with
  | none => rfl
  | some x =>
    simp only [Option.map, hT.push]
    split <;> rfl

theorem Lexer.parseString_sim {T : Lexer → Lexer} (hT : Lexer.Commutes T) (l : Lexer) :
    (T l).parseString = l.parseString.map T := by
  rw [Lexer.parseString, Lexer.parseString, Lexer.parseStringLoop_eq_scanLoop,
    Lexer.parseStringLoop_eq_scanLoop, hT.src, hT.advance, Lexer.scanLoop_sim hT]
  cases Lexer.scanLoop _ (l.src.length + 1) l.advance [] with
  | none => rfl
  | some x =>
    simp only [Option.map, hT.currChar, hT.advance, hT.push]
    split <;> rfl

theorem Lexer.tokenizeLoop_sim {T : Lexer → Lexer} (hT : Lexer.Commutes T) (n : Nat) :
    ∀ l : Lexer, Lexer.tokenizeLoop n (T l) = (Lexer.tokenizeLoop n l).map T := by
  induction n with
  | zero => intro l; rfl
  | succ n ih =>
    intro l
    have hsub : ∀ r : LexRes,
        (match r.map T with
          | LexRes.ok l1 => Lexer.tokenizeLoop n l1
          | r1 => r1) =
        (match r with
          | LexRes.ok l1 => Lexer.tokenizeLoop n l1
          | r1 => r1).map T := by
      intro r
      cases r with
      | ok l1 => exact ih l1
      | panic e l1 => rfl
      | outOfFuel => rfl
    rw [Lexer.tokenizeLoop, Lexer.tokenizeLoop]
    simp only [hT.currChar, hT.push, hT.advance, Lexer.parseString_sim hT, Lexer.parseNum_sim hT,
      Lexer.parseVar_sim hT]
    split
    · cases tokenMap l.currChar with
      | some ty => exact ih _
      | none =>
        simp only []
        split
        · exact hsub _
        · split
          · exact ih _
          · split
            · exact hsub _
            · split
              · exact hsub _
              · rfl
    · rfl

/-- A change of state that commutes with the steps of the tokenizer is carried through
`tokenize`. -/
theorem Lexer.tokenize_sim {T : Lexer → Lexer} (hT : Lexer.Commutes T) (l : Lexer) :
    (T l).advance.tokenize = l.advance.tokenize.map T := by
  rw [hT.advance, Lexer.tokenize, Lexer.tokenize, hT.src, Lexer.tokenizeLoop_sim hT]
  cases Lexer.tokenizeLoop (l.advance.src.length + 1) l.advance with
  | ok l1 => simp only [LexRes.map, hT.dump]
  | panic e l1 => rfl
  | outOfFuel => rfl

/-! ## Debug mode is observation only; replay of a session (C14, C12) -/

theorem Parser.mute_commutes (k t : Bool) : Parser.Commutes False (Parser.mute k t) where
  tokens := fun _ => rfl
  idx := fun _ => rfl
  currTok := fun _ => rfl
  advance := by
    intro p
    cases hd : p.debug <;> cases t <;>
      simp [Parser.mute, Parser.advance, hd, OutLine.audible]
  echo := by
    intro p v
    cases hc : p.calcMode <;> cases k <;>
      simp [Parser.mute, hc, OutLine.audible]
  println := by
    intro p v
    simp [Parser.mute, OutLine.audible]
  store := by
    intro p n v
    cases hd : p.debug <;> cases t <;>
      simp [Parser.mute, hd, OutLine.audible]
  lookup := fun _ _ => Or.inr rfl

theorem Lexer.mute_commutes_tokenize (k t : Bool) : Lexer.Commutes (Lexer.mute k t) where
  src := fun _ => rfl
  currChar := fun _ => rfl
  advance := by
    intro l
    cases hd : l.debug <;> cases t <;>
      simp [Lexer.mute, Lexer.advance, hd, OutLine.audible]
  push := fun _ _ => rfl
  dump := by
    intro l
    cases hd : l.debug <;> cases t <;>
      simp [Lexer.mute, hd, OutLine.audible]

theorem NewLexer_mute (k t : Bool) (text : List Char) (debug : Bool) :
    NewLexer text (t && debug) = (NewLexer text debug).map (Lexer.mute k t) :=
  Lexer.tokenize_sim (Lexer.mute_commutes_tokenize k t) ⟨text, [], -1, NUL, debug, []⟩

/-- Switching calc mode off (unless `k`) and tracing off (unless `t`) changes what a
line prints and nothing else: the outcome is the one of the original run with the
silenced lines removed. -/
theorem runLine_mute (k t : Bool) (text : List Char) (calcMode debug : Bool) (vars : Env) :
    runLine text (k && calcMode) (t && debug) vars = (runLine text calcMode debug vars).mute k t := by
  rw [runLine, runLine, NewLexer_mute k t text debug]
  cases NewLexer text debug with
  | ok lexer =>
    have hsim := Parser.parse_sim (Parser.mute_commutes k t)
      ⟨lexer.tokens, -1, Token.zero, calcMode, debug, vars, []⟩
    rcases hsim with ⟨hf, -⟩ | heq
    · exact hf.elim
    · have heq2 : NewParser lexer.tokens (k && calcMode) (t && debug) vars =
          (NewParser lexer.tokens calcMode debug vars).map (Parser.mute k t) := heq
      simp only [LexRes.map]
      have htok : (Lexer.mute k t lexer).tokens = lexer.tokens := rfl
      rw [htok, heq2]
      cases NewParser lexer.tokens calcMode debug vars with
      | ok a q => simp [Res.map, Outcome.mute, Parser.mute, Lexer.mute]
      | panic e q => simp [Res.map, Outcome.mute, Parser.mute, Lexer.mute]
      | outOfFuel => rfl
  | panic e lexer => rfl
  | outOfFuel => rfl

theorem OutLine.audible_echo (x : OutLine) : OutLine.audible true false x = !x.isTrace := by
  cases x <;> rfl

theorem OutLine.audible_log (x : OutLine) : OutLine.audible false false x = x.isLog := by
  cases x <;> rfl

/-- Claim C14 (debug mode is observation only). For every line, environment and
calc mode, the run with tracing on and the run with tracing off both end within
their budget, and they agree on the token sequence the tokenizer returns, on the
tokenizer panic, on whether the line ends normally, on the panic that aborts it, on
the final environment, and on the printed lines once the trace lines are removed
from the traced run; the run with tracing off prints no trace line at all. -/
theorem debug_mode_is_observation_only (text : List Char) (calcMode : Bool) (vars : Env) :
    runLine text calcMode true vars ≠ Outcome.outOfFuel ∧
    runLine text calcMode false vars ≠ Outcome.outOfFuel ∧
    (NewLexer text true).tokens? = (NewLexer text false).tokens? ∧
    (NewLexer text true).panic? = (NewLexer text false).panic? ∧
    (runLine text calcMode true vars).isDone = (runLine text calcMode false vars).isDone ∧
    (runLine text calcMode true vars).panic? = (runLine text calcMode false vars).panic? ∧
    (runLine text calcMode true vars).vars? = (runLine text calcMode false vars).vars? ∧
    (runLine text calcMode true vars).out.filter (fun x => !x.isTrace)
      = (runLine text calcMode false vars).out ∧
    ∀ x ∈ (runLine text calcMode false vars).out, x.isTrace = false := by
  have hrun : runLine text calcMode false vars = (runLine text calcMode true vars).mute true false :=
    runLine_mute true false text calcMode true vars
  have hlex : NewLexer text false = (NewLexer text true).map (Lexer.mute true false) :=
    NewLexer_mute true false text true
  have hfilter : ∀ out : List OutLine,
      out.filter (OutLine.audible true false) = out.filter (fun x => !x.isTrace) := by
    intro out
    exact List.filter_congr (fun x _ => OutLine.audible_echo x)
  have hne : ∀ d, runLine text calcMode d vars ≠ Outcome.outOfFuel := by
    intro d h
    rcases runLine_ne_outOfFuel text calcMode d vars with ⟨_, _, h2⟩ | ⟨_, _, _, h2⟩ <;>
      rw [h] at h2 <;> cases h2
  refine ⟨hne true, hne false, ?_, ?_, ?_, ?_, ?_, ?_, ?_⟩
  · rw [hlex]
    cases NewLexer text true <;> rfl
  · rw [hlex]
    cases NewLexer text true <;> rfl
  · rw [hrun]
    cases runLine text calcMode true vars <;> rfl
  · rw [hrun]
    cases runLine text calcMode true vars <;> rfl
  · rw [hrun]
    cases runLine text calcMode true vars <;> rfl
  · rw [hrun]
    cases runLine text calcMode true vars <;> simp only [Outcome.mute, Outcome.out, hfilter]
    rfl
  · rw [hrun]
    intro x hx
    have hx2 : x ∈ (runLine text calcMode true vars).out.filter (fun x => !x.isTrace) := by
      cases h : runLine text calcMode true vars <;> rw [h] at hx <;>
        simp only [Outcome.mute, Outcome.out, hfilter] at hx ⊢
      · exact hx
      · exact hx
      · exact absurd hx (List.not_mem_nil _)
    have := (List.mem_filter.mp hx2).2
    simpa using this

theorem Parser.overlay_commutes (base : Env) : Parser.Commutes True (Parser.overlay base) where
  tokens := fun _ => rfl
  idx := fun _ => rfl
  currTok := fun _ => rfl
  advance := fun _ => rfl
  echo := by
    intro p v
    cases hc : p.calcMode <;> simp [Parser.overlay, hc]
  println := fun _ _ => rfl
  store := by
    intro p n v
    have h : (p.vars.overlay base).set n v = (p.vars.set n v).overlay base := by
      funext k
      simp only [Env.set, Env.overlay]
      split <;> rfl
    simp only [Parser.overlay, h]
  lookup := by
    intro p name
    cases h : p.vars name with
    | none => exact Or.inl ⟨trivial, rfl⟩
    | some v =>
      right
      simp only [Parser.overlay, Env.overlay, h]

/-- A line that ends normally does the same with more bindings under its
environment: it never sees that a name it did not read is bound. -/
theorem runLine_overlay (base : Env) (text : List Char) (calcMode debug : Bool) (vars : Env)
    (vars1 : Env) (out1 : List OutLine)
    (h : runLine text calcMode debug vars = Outcome.done vars1 out1) :
    runLine text calcMode debug (vars.overlay base) = Outcome.done (vars1.overlay base) out1 := by
  rw [runLine] at h ⊢
  cases hl : NewLexer text debug with
  | ok lexer =>
    rw [hl] at h
    simp only [] at h ⊢
    have hsim := Parser.parse_sim (Parser.overlay_commutes base)
      ⟨lexer.tokens, -1, Token.zero, calcMode, debug, vars, []⟩
    have hsim2 : Res.Sim True (Parser.overlay base)
        (NewParser lexer.tokens calcMode debug (vars.overlay base))
        (NewParser lexer.tokens calcMode debug vars) := hsim
    cases hp : NewParser lexer.tokens calcMode debug vars with
    | ok a q =>
      rw [hp] at h hsim2
      rcases hsim2 with ⟨-, hu⟩ | heq
      · exact hu.elim
      · rw [heq]
        simp only [Res.map, Parser.overlay]
        simp only [Outcome.done.injEq] at h
        rw [← h.1, ← h.2]
    | panic e q =>
      rw [hp] at h
      exact absurd h (by simp)
    | outOfFuel =>
      rw [hp] at h
      exact absurd h (by simp)
  | panic e lexer =>
    rw [hl] at h
    exact absurd h (by simp)
  | outOfFuel =>
    rw [hl] at h
    exact absurd h (by simp)

theorem runEntries_overlay (base : Env) (S : List (List Char × Bool × Bool)) :
    ∀ (vars E : Env) (O : List OutLine), runEntries S vars = Outcome.done E O →
      runEntries S (vars.overlay base) = Outcome.done (E.overlay base) O := by
  induction S with
  | nil =>
    intro vars E O h
    simp only [runEntries, Outcome.done.injEq] at h ⊢
    exact ⟨by rw [h.1], h.2⟩
  | cons e rest ih =>
    obtain ⟨text, c, d⟩ := e
    intro vars E O h
    rw [runEntries] at h ⊢
    cases h1 : runLine text c d vars with
    | done v1 o1 =>
      rw [h1] at h
      simp only [] at h
      rw [runLine_overlay base text c d vars v1 o1 h1]
      simp only []
      cases h2 : runEntries rest v1 with
      | done v2 o2 =>
        rw [h2] at h
        simp only [Outcome.done.injEq] at h
        rw [ih v1 v2 o2 h2]
        simp only [Outcome.done.injEq]
        exact ⟨by rw [h.1], h.2⟩
      | panicked e2 v2 o2 =>
        rw [h2] at h
        exact absurd h (by simp)
      | outOfFuel =>
        rw [h2] at h
        exact absurd h (by simp)
    | panicked e1 v1 o1 =>
      rw [h1] at h
      exact absurd h (by simp)
    | outOfFuel =>
      rw [h1] at h
      exact absurd h (by simp)

theorem Env.overlay_self (E : Env) : E.overlay E = E := by
  funext k
  simp only [Env.overlay]
  cases h : E k <;> simp [h]

theorem Env.empty_overlay (E : Env) : Env.empty.overlay E = E := rfl

/-- With both flags off, a session prints exactly the `log` lines of the session run
under any flags, and ends in the same way. -/
theorem runEntries_mute (S : List (List Char × Bool × Bool)) :
    ∀ vars : Env, runLines (S.map Prod.fst) false false vars = (runEntries S vars).mute false false := by
  induction S with
  | nil => intro vars; rfl
  | cons e rest ih =>
    obtain ⟨text, c, d⟩ := e
    intro vars
    have h1 : runLine text false false vars = (runLine text c d vars).mute false false :=
      runLine_mute false false text c d vars
    simp only [runLines, List.map_cons, runEntries] at ih ⊢
    rw [h1]
    cases runLine text c d vars with
    | done v1 o1 =>
      simp only [Outcome.mute]
      rw [ih v1]
      cases runEntries rest v1 <;> simp [Outcome.mute]
    | panicked e1 v1 o1 => rfl
    | outOfFuel => rfl

/-- Claim C12 (`run` replay is idempotent). For every session of entered lines, each
evaluated under the calc and debug flags in force when it was entered, that starts
from the empty environment and ends normally with environment `E` and output `O`:
evaluating the same lines again in order starting from `E` ends normally with the
environment `E` and prints `O` again; and the `run` loop over the stored lines,
under any current flags, starting from `E`, ends normally with the environment `E`
and prints the same `log` lines as `O`, in the same order. -/
theorem run_replay_is_idempotent (S : List (List Char × Bool × Bool)) (E : Env)
    (O : List OutLine) (h : runEntries S Env.empty = Outcome.done E O) :
    runEntries S E = Outcome.done E O ∧
    ∀ calcMode debug : Bool, ∃ O1,
      runLines (S.map Prod.fst) calcMode debug E = Outcome.done E O1 ∧
      O1.filter OutLine.isLog = O.filter OutLine.isLog := by
  have hlog : ∀ out : List OutLine,
      out.filter (OutLine.audible false false) = out.filter OutLine.isLog := by
    intro out
    exact List.filter_congr (fun x _ => OutLine.audible_log x)
  have h1 : runEntries S E = Outcome.done E O := by
    have := runEntries_overlay E S Env.empty E O h
    rw [Env.empty_overlay, Env.overlay_self] at this
    exact this
  refine ⟨h1, ?_⟩
  intro calcMode debug
  have hquiet : runLines (S.map Prod.fst) false false E
      = Outcome.done E (O.filter (OutLine.audible false false)) := by
    rw [runEntries_mute S E, h1]
    rfl
  have hsame : ((S.map Prod.fst).map fun cmd => (cmd, calcMode, debug)).map Prod.fst
      = S.map Prod.fst := by
    have hid : (Prod.fst ∘ fun cmd : List Char => (cmd, calcMode, debug)) = id := rfl
    rw [List.map_map, hid, List.map_id]
  have hrep := runEntries_mute ((S.map Prod.fst).map fun cmd => (cmd, calcMode, debug)) E
  rw [hsame, hquiet] at hrep
  have hR : runLines (S.map Prod.fst) calcMode debug E
      = runEntries ((S.map Prod.fst).map fun cmd => (cmd, calcMode, debug)) E := rfl
  rw [hR]
  cases hr : runEntries ((S.map Prod.fst).map fun cmd => (cmd, calcMode, debug)) E with
  | done v o =>
    rw [hr] at hrep
    simp only [Outcome.mute, Outcome.done.injEq] at hrep
    refine ⟨o, ?_, ?_⟩
    · rw [hrep.1]
    · rw [← hlog, ← hlog, hrep.2]
  | panicked e v o =>
    rw [hr] at hrep
    exact absurd hrep (by simp [Outcome.mute])
  | outOfFuel =>
    rw [hr] at hrep
    exact absurd hrep (by simp [Outcome.mute])

theorem runLine_x_eq_1 (vars : Env) :
    runLine "x = 1".toList false false vars
      = Outcome.done (vars.set "x".toList (Value.int 1)) [] := by
  have hline : "x = 1".toList = lexText [Lexeme.word "x".toList, Lexeme.space,
      Lexeme.op '=' TokType.EQUALS, Lexeme.space, Lexeme.num "1".toList] := by decide
  rw [hline, runLine_quiet _ (by decide)]
  rfl

theorem runLine_log_x :
    runLine "log x".toList false false (Env.empty.set "x".toList (Value.int 1))
      = Outcome.done (Env.empty.set "x".toList (Value.int 1)) [OutLine.println (Value.int 1)] := by
  have hline : "log x".toList = lexText [Lexeme.word "log".toList, Lexeme.space,
      Lexeme.word "x".toList] := by decide
  rw [hline, runLine_quiet _ (by decide)]
  rfl

theorem session_x_eq_1_log_x :
    runEntries [("x = 1".toList, false, false), ("log x".toList, false, false)] Env.empty
      = Outcome.done (Env.empty.set "x".toList (Value.int 1)) [OutLine.println (Value.int 1)] := by
  rw [runEntries, runLine_x_eq_1]
  simp only []
  rw [runEntries, runLine_log_x]
  rfl

theorem run_replay_is_idempotent_witness :
    runEntries [("x = 1".toList, false, false), ("log x".toList, false, false)] Env.empty
      = Outcome.done (Env.empty.set "x".toList (Value.int 1)) [OutLine.println (Value.int 1)] ∧
    (runEntries [("x = 1".toList, false, false), ("log x".toList, false, false)]
        (Env.empty.set "x".toList (Value.int 1))
      = Outcome.done (Env.empty.set "x".toList (Value.int 1)) [OutLine.println (Value.int 1)] ∧
    ∀ calcMode debug : Bool, ∃ O1,
      runLines ([("x = 1".toList, false, false), ("log x".toList, false, false)].map Prod.fst)
          calcMode debug (Env.empty.set "x".toList (Value.int 1))
        = Outcome.done (Env.empty.set "x".toList (Value.int 1)) O1 ∧
      O1.filter OutLine.isLog = [OutLine.println (Value.int 1)].filter OutLine.isLog) :=
  ⟨session_x_eq_1_log_x, run_replay_is_idempotent _ _ _ session_x_eq_1_log_x⟩

/-! ## Calc-mode echo (C13) -/

theorem Lexer.tokenizeLoop_unfold (n : Nat) (l : Lexer) :
    Lexer.tokenizeLoop (n + 1) l =
      if l.currChar ≠ NUL then
        match l.tokenizeStep with
        | LexRes.ok l1 => Lexer.tokenizeLoop n l1
        | r => r
      else LexRes.ok l := by
  rw [Lexer.tokenizeLoop, Lexer.tokenizeStep]
  split
  · cases tokenMap l.currChar with
    | some ty => rfl
    | none =>
      simp only []
      split
      · rfl
      · split
        · rfl
        · split
          · rfl
          · split
            · rfl
            · rfl
  · rfl

theorem Lexer.parseNum_progress {l : Lexer} (h : l.WF) (hd : digits.contains l.currChar = true) :
    l.parseNum.Progress l := by
  have hne : l.currChar ≠ NUL := (digits_facts _ (mem_of_contains hd)).1
  obtain ⟨l1, acc1, e, hw, hs, htk, -, hpos⟩ := Lexer.scanLoop_total
    (fun c => decide (c ≠ NUL ∧ digits.contains c = true)) (by simp) (l.src.length + 1) l []
    h (Lexer.rem_le_length h)
  simp only [Lexer.parseNum, Lexer.parseNumLoop_eq_scanLoop, e]
  exact ⟨hw, hs, hpos (decide_eq_true ⟨hne, hd⟩), by simp [Lexer.push, htk]⟩

theorem Lexer.parseVar_progress {l : Lexer} (h : l.WF) (hd : letters.contains l.currChar = true) :
    l.parseVar.Progress l := by
  have hne : l.currChar ≠ NUL := (letters_facts _ (mem_of_contains hd)).1
  have hin : (letters ++ digits).contains l.currChar = true := by
    have := mem_of_contains hd
    simp [this]
  obtain ⟨l1, acc1, e, hw, hs, htk, -, hpos⟩ := Lexer.scanLoop_total
    (fun c => decide (c ≠ NUL ∧ (letters ++ digits).contains c = true)) (by simp)
    (l.src.length + 1) l [] h (Lexer.rem_le_length h)
  simp only [Lexer.parseVar, Lexer.parseVarLoop_eq_scanLoop, e]
  have hp := hpos (decide_eq_true ⟨hne, hin⟩)
  split
  · exact ⟨hw, hs, hp, by simp [Lexer.push, htk]⟩
  · exact ⟨hw, hs, hp, by simp [Lexer.push, htk]⟩

theorem Lexer.parseString_progress {l : Lexer} (h : l.WF) : l.parseString.Progress l := by
  obtain ⟨hw1, hs1, hp1⟩ := Lexer.advance_keeps_wf h
  obtain ⟨l1, acc1, e, hw, hs, htk, hpos, -⟩ := Lexer.scanLoop_total
    (fun c => decide (c ≠ NUL ∧ c ≠ Char.ofNat 34)) (by simp) (l.advance.src.length + 1)
    l.advance [] hw1 (Lexer.rem_le_length hw1)
  have hsrc : l.advance.src = l.src := rfl
  have htk0 : l.advance.tokens = l.tokens := rfl
  simp only [Lexer.parseString, Lexer.parseStringLoop_eq_scanLoop]
  rw [hsrc] at e
  rw [e]
  obtain ⟨hw2, hs2, hp2⟩ := Lexer.advance_keeps_wf hw
  simp only
  split
  · refine ⟨hw2, (hs2.trans hs).trans hs1, by show l.pos + 1 ≤ l1.advance.pos; omega, ?_⟩
    have : l1.advance.tokens = l1.tokens := rfl
    simp [Lexer.push, this, htk, htk0]
  · trivial

/-- Every branch of the loop body of `tokenize` moves the position forward or
panics. -/
theorem Lexer.tokenizeStep_progress {l : Lexer} (h : l.WF) : l.tokenizeStep.Progress l := by
  rw [Lexer.tokenizeStep]
  cases tokenMap l.currChar with
  | some ty =>
    obtain ⟨hw0, hs0, hp0⟩ := Lexer.push_wf ⟨ty, Value.rune l.currChar⟩ h
    obtain ⟨hw1, hs1, hp1⟩ := Lexer.advance_keeps_wf hw0
    refine ⟨hw1, hs1.trans hs0, by rw [hp1, hp0], ?_⟩
    have : (l.push ⟨ty, Value.rune l.currChar⟩).advance.tokens = l.tokens ++ [⟨ty, Value.rune l.currChar⟩] := rfl
    simp [this]
  | none =>
    simp only []
    split
    · exact Lexer.parseString_progress h
    · split
      · obtain ⟨hw1, hs1, hp1⟩ := Lexer.advance_keeps_wf h
        refine ⟨hw1, hs1, by rw [hp1], ?_⟩
        have : l.advance.tokens = l.tokens := rfl
        rw [this]
        omega
      · split
        · rename_i hd
          exact Lexer.parseNum_progress h hd
        · split
          · rename_i hd
            exact Lexer.parseVar_progress h hd
          · trivial

theorem Lexer.rem_step {l l1 : Lexer} (h : l.WF) (hne : l.currChar ≠ NUL)
    (hs : l1.src = l.src) (hp : l.pos + 1 ≤ l1.pos) : l1.rem + 1 ≤ l.rem := by
  have hlt := Lexer.lt_of_ne_NUL h hne
  unfold Lexer.rem
  rw [hs]
  omega

/-- The loop of `tokenize`, when it returns, has read the same text, stands on the
end-of-input mark, and has emitted at most one token per character it passed. -/
theorem Lexer.tokenizeLoop_measure (fuel : Nat) :
    ∀ l l2 : Lexer, l.WF → Lexer.tokenizeLoop fuel l = LexRes.ok l2 →
      l2.src = l.src ∧ l2.currChar = NUL ∧ l.pos ≤ l2.pos ∧
        l2.tokens.length + l2.rem ≤ l.tokens.length + l.rem := by
  induction fuel with
  | zero => intro l l2 _ h; rw [Lexer.tokenizeLoop] at h; cases h
  | succ n ih =>
    intro l l2 hl h
    rw [Lexer.tokenizeLoop_unfold] at h
    by_cases hne : l.currChar ≠ NUL
    · rw [if_pos hne] at h
      have hstep := Lexer.tokenizeStep_progress hl
      cases hs : l.tokenizeStep with
      | ok l1 =>
        rw [hs] at h hstep
        obtain ⟨hw, hsrc, hpos, htok⟩ := hstep
        obtain ⟨h1, h2, h3, h4⟩ := ih l1 l2 hw h
        have hrem := Lexer.rem_step hl hne hsrc hpos
        exact ⟨h1.trans hsrc, h2, by omega, by omega⟩
      | panic e l1 => rw [hs] at h; cases h
      | outOfFuel => rw [hs] at h; cases h
    · rw [if_neg hne] at h
      cases h
      exact ⟨rfl, not_not.mp hne, le_refl _, le_refl _⟩

theorem NewLexer_token_count (text : List Char) (debug : Bool) (toks : List Token)
    (h : (NewLexer text debug).tokens? = some toks) : toks.length ≤ text.length := by
  have key : ∀ l : Lexer, l.pos = -1 → l.tokens = [] →
      l.advance.tokenize.tokens? = some toks → toks.length ≤ l.src.length := by
    intro l hpos htok hres
    have hwf : l.advance.WF := ⟨by show (0 : Int) ≤ l.pos + 1; omega, rfl⟩
    rw [Lexer.tokenize] at hres
    cases hl : Lexer.tokenizeLoop (l.advance.src.length + 1) l.advance with
    | ok l2 =>
      rw [hl] at hres
      obtain ⟨-, -, -, hm⟩ := Lexer.tokenizeLoop_measure _ _ _ hwf hl
      have ht2 : toks = l2.tokens := by
        simp only [LexRes.tokens?] at hres
        cases hd : l2.debug <;> rw [hd] at hres <;> simp at hres <;> exact hres.symm
      have ht0 : l.advance.tokens = [] := htok
      have hr0 : l.advance.rem = l.src.length := by
        show (((l.src.length : Int) - (l.pos + 1)).toNat) = l.src.length
        rw [hpos]
        omega
      rw [ht0, hr0] at hm
      rw [ht2]
      simp only [List.length_nil] at hm
      omega
    | panic e l2 =>
      rw [hl] at hres
      cases hres
    | outOfFuel =>
      rw [hl] at hres
      cases hres
  exact key ⟨text, [], -1, NUL, debug, []⟩ rfl rfl h

/-- Claim C21 (the tokenizer always terminates). For every line and debug flag,
`NewLexer` ends within its budget, either with a token sequence, which has at most
as many tokens as the line has characters, or with a panic. The reason is stated for
every lexer state `l` whose current character is the one at its position and is not
the end-of-input mark: the loop of `tokenize` runs its body once and continues from
the state the body returns; the body always ends, and when it does not panic it
leaves the text as it is and moves the position forward by at least one, so the
number of characters left decreases; this holds branch by branch (an operator and a
blank advance by exactly one; `parseString`, `parseNum` on a digit and `parseVar`
on a letter each end, and advance by at least one unless they panic); hence a
budget of one iteration per character left, plus one, is enough for the loop, and
`tokenize` gives it at least that. -/
theorem tokenizer_always_terminates (text : List Char) (debug : Bool) (l : Lexer) (n : Nat)
    (hwf : l.WF) (hne : l.currChar ≠ NUL) :
    NewLexer text debug ≠ LexRes.outOfFuel ∧
    ((∃ toks, (NewLexer text debug).tokens? = some toks ∧ toks.length ≤ text.length) ∨
      ∃ e, (NewLexer text debug).panic? = some e) ∧
    Lexer.tokenizeLoop (n + 1) l =
      (match l.tokenizeStep with
        | LexRes.ok l1 => Lexer.tokenizeLoop n l1
        | r => r) ∧
    l.tokenizeStep ≠ LexRes.outOfFuel ∧
    (∀ l1, l.tokenizeStep = LexRes.ok l1 →
      l1.WF ∧ l1.src = l.src ∧ l.pos + 1 ≤ l1.pos ∧ l1.rem + 1 ≤ l.rem) ∧
    (∀ tok, (l.push tok).advance.pos = l.pos + 1) ∧
    l.advance.pos = l.pos + 1 ∧
    l.parseString.Progress l ∧
    (digits.contains l.currChar = true → l.parseNum.Progress l) ∧
    (letters.contains l.currChar = true → l.parseVar.Progress l) ∧
    (l.rem + 1 ≤ n → Lexer.tokenizeLoop n l ≠ LexRes.outOfFuel) ∧
    l.rem + 1 ≤ l.src.length + 1 := by
  have hstep := Lexer.tokenizeStep_progress hwf
  refine ⟨NewLexer_ne_outOfFuel text debug, ?_, ?_, ?_, ?_, fun _ => rfl, rfl,
    Lexer.parseString_progress hwf, Lexer.parseNum_progress hwf, Lexer.parseVar_progress hwf,
    ?_, Lexer.rem_le_length hwf⟩
  · cases hr : NewLexer text debug with
    | ok l1 =>
      exact Or.inl ⟨l1.tokens, rfl, NewLexer_token_count text debug l1.tokens (by rw [hr]; rfl)⟩
    | panic e l1 => exact Or.inr ⟨e, rfl⟩
    | outOfFuel => exact absurd hr (NewLexer_ne_outOfFuel text debug)
  · rw [Lexer.tokenizeLoop_unfold, if_pos hne]
  · intro hcon
    rw [hcon] at hstep
    exact hstep
  · intro l1 h1
    rw [h1] at hstep
    obtain ⟨hw, hs, hp, -⟩ := hstep
    exact ⟨hw, hs, hp, Lexer.rem_step hwf hne hs hp⟩
  · intro hn hcon
    have hg := Lexer.tokenizeLoop_good n l hwf hn
    rw [hcon] at hg
    exact hg

theorem tokenizer_always_terminates_witness :
    (⟨"1+2".toList, [], 0, '1', false, []⟩ : Lexer).WF ∧
    (⟨"1+2".toList, [], 0, '1', false, []⟩ : Lexer).currChar ≠ NUL ∧
    NewLexer "1+2".toList false ≠ LexRes.outOfFuel ∧
    ((∃ toks, (NewLexer "1+2".toList false).tokens? = some toks ∧
        toks.length ≤ "1+2".toList.length) ∨
      ∃ e, (NewLexer "1+2".toList false).panic? = some e) ∧
    (⟨"1+2".toList, [], 0, '1', false, []⟩ : Lexer).tokenizeStep ≠ LexRes.outOfFuel ∧
    (∀ l1, (⟨"1+2".toList, [], 0, '1', false, []⟩ : Lexer).tokenizeStep = LexRes.ok l1 →
      l1.WF ∧ l1.src = "1+2".toList ∧ (0 : Int) + 1 ≤ l1.pos ∧
        l1.rem + 1 ≤ (⟨"1+2".toList, [], 0, '1', false, []⟩ : Lexer).rem) :=
  have h := tokenizer_always_terminates "1+2".toList false
    ⟨"1+2".toList, [], 0, '1', false, []⟩ 4 ⟨by decide, by decide⟩ (by decide)
  ⟨⟨by decide, by decide⟩, by decide, h.1, h.2.1, h.2.2.2.1, h.2.2.2.2.1⟩

/-! ## Left association in 64-bit arithmetic (C19) -/

theorem wrap64_sub_sub {a b c : Int} (ha : InInt64 a) (hb : InInt64 b) (hc : InInt64 c)
    (ha0 : 0 ≤ a) (hb0 : 0 ≤ b) (hc0 : 0 ≤ c) :
    wrap64 (wrap64 (a - b) - c) =
      if -9223372036854775808 ≤ (a - b) - c then (a - b) - c
      else (a - b) - c + 18446744073709551616 := by
  obtain ⟨-, ha2⟩ := ha
  obtain ⟨-, hb2⟩ := hb
  obtain ⟨-, hc2⟩ := hc
  have h1 : wrap64 (a - b) = a - b := wrap64_eq ⟨by omega, by omega⟩
  rw [h1]
  unfold wrap64
  split <;> omega

/-- Claim C19, counterexample. The line `x = 0 - 9223372036854775807 - 2`, whose
three literals fit in 64 bits, ends normally and binds `x` to 9223372036854775807,
not to `(0 - 9223372036854775807) - 2`, which is -9223372036854775809: the second
subtraction leaves the 64-bit range and wraps around. -/
theorem subtraction_chain_wraps_around :
    (runLine "x = 0 - 9223372036854775807 - 2".toList false false Env.empty).isDone = true ∧
    (runLine "x = 0 - 9223372036854775807 - 2".toList false false Env.empty).lookup "x".toList
      = some (Value.int 9223372036854775807) ∧
    (runLine "x = 0 - 9223372036854775807 - 2".toList false false Env.empty).lookup "x".toList
      ≠ some (Value.int ((0 - 9223372036854775807) - 2)) := by
  have hline : "x = 0 - 9223372036854775807 - 2".toList = "x = ".toList ++ "0".toList
      ++ [' ', '-', ' '] ++ "9223372036854775807".toList ++ [' ', '-', ' '] ++ "2".toList := by
    decide
  obtain ⟨o1, h1⟩ := runLine_three_numbers '-' TokType.MINUS (by decide) "0".toList
    "9223372036854775807".toList "2".toList false false Env.empty (by decide) (by decide)
    (by decide) (by decide) (by decide) (by decide)
  obtain ⟨s, e, v⟩ := parse_sub_sub (decimalValue "0".toList)
    (decimalValue "9223372036854775807".toList) (decimalValue "2".toList) false false Env.empty
  have hv : wrap64 (wrap64 ((decimalValue "0".toList : Int)
      - decimalValue "9223372036854775807".toList) - decimalValue "2".toList)
      = 9223372036854775807 := by decide
  rw [hline, h1, e]
  simp only [Outcome.ofParse, Outcome.isDone, Outcome.lookup, Outcome.vars?, v, hv]
  refine ⟨trivial, by simp [Env.set], ?_⟩
  simp [Env.set]

/-- Claim C19, amended (left-to-right association in 64-bit arithmetic). For unsigned
decimal literals `a`, `b`, `c` with values in the 64-bit range, every environment
and both flags: the line `x = a - b - c` ends normally and binds `x` to
`(a - b) - c` when that difference is at least -9223372036854775808, and to
`(a - b) - c + 18446744073709551616` otherwise (the second subtraction wraps
around); in particular it binds the exact difference whenever that fits in 64 bits;
and when `b` and `c` are not zero the line `x = a / b / c` ends normally and binds
`x` to `(a / b) / c`, each division truncating. -/
theorem subtraction_division_left_associative (da db dc : List Char) (calcMode debug : Bool)
    (vars : Env) (ha : IsNumeral da) (hb : IsNumeral db) (hc : IsNumeral dc)
    (hfa : InInt64 (decimalValue da)) (hfb : InInt64 (decimalValue db))
    (hfc : InInt64 (decimalValue dc)) :
    ((runLine ("x = ".toList ++ da ++ " - ".toList ++ db ++ " - ".toList ++ dc)
        calcMode debug vars).isDone = true ∧
      (runLine ("x = ".toList ++ da ++ " - ".toList ++ db ++ " - ".toList ++ dc)
        calcMode debug vars).lookup "x".toList
        = some (Value.int
            (if -9223372036854775808 ≤ ((decimalValue da : Int) - decimalValue db) - decimalValue dc
              then ((decimalValue da : Int) - decimalValue db) - decimalValue dc
              else ((decimalValue da : Int) - decimalValue db) - decimalValue dc
                + 18446744073709551616)) ∧
      (runLine ("x = ".toList ++ da ++ " - ".toList ++ db ++ " - ".toList ++ dc)
        calcMode debug vars).lookup "x".toList
        = some (Value.int (wrap64 (((decimalValue da : Int) - decimalValue db) - decimalValue dc))) ∧
      (InInt64 (((decimalValue da : Int) - decimalValue db) - decimalValue dc) →
        (runLine ("x = ".toList ++ da ++ " - ".toList ++ db ++ " - ".toList ++ dc)
          calcMode debug vars).lookup "x".toList
          = some (Value.int (((decimalValue da : Int) - decimalValue db) - decimalValue dc)))) ∧
    (decimalValue db ≠ 0 → decimalValue dc ≠ 0 →
      (runLine ("x = ".toList ++ da ++ " / ".toList ++ db ++ " / ".toList ++ dc)
        calcMode debug vars).isDone = true ∧
      (runLine ("x = ".toList ++ da ++ " / ".toList ++ db ++ " / ".toList ++ dc)
        calcMode debug vars).lookup "x".toList
        = some (Value.int (Int.tdiv (Int.tdiv (decimalValue da) (decimalValue db))
            (decimalValue dc)))) := by
  have t1 : " - ".toList = [' ', '-', ' '] := rfl
  have t2 : " / ".toList = [' ', '/', ' '] := rfl
  obtain ⟨o1, h1⟩ := runLine_three_numbers '-' TokType.MINUS (by decide) da db dc calcMode debug
    vars ha hb hc hfa hfb hfc
  obtain ⟨o2, h2⟩ := runLine_three_numbers '/' TokType.DIVIDE (by decide) da db dc calcMode debug
    vars ha hb hc hfa hfb hfc
  rw [t1, t2, h1, h2]
  have hsub : InInt64 ((decimalValue da : Int) - decimalValue db) := by
    have h3 := hfa.2
    have h4 := hfb.2
    constructor <;> omega
  have hexp := wrap64_sub_sub hfa hfb hfc (Int.natCast_nonneg _) (Int.natCast_nonneg _)
    (Int.natCast_nonneg _)
  constructor
  · obtain ⟨s, e, v⟩ := parse_sub_sub (decimalValue da) (decimalValue db) (decimalValue dc)
      calcMode debug vars
    rw [e]
    simp only [Outcome.ofParse, Outcome.isDone, Outcome.lookup, Outcome.vars?, v]
    refine ⟨trivial, ?_, ?_, ?_⟩
    · rw [hexp]
      simp [Env.set]
    · rw [wrap64_eq hsub]
      simp [Env.set]
    · intro hfit
      rw [wrap64_eq hsub, wrap64_eq hfit]
      simp [Env.set]
  · intro hbz hcz
    have hb1 : (0 : Int) < decimalValue db := by omega
    have hc1 : (0 : Int) < decimalValue dc := by omega
    obtain ⟨s, e, v⟩ := parse_div_div (decimalValue da) (decimalValue db) (decimalValue dc)
      hb1 hc1 calcMode debug vars
    rw [e]
    have hq := InInt64_tdiv hfa hb1
    simp only [Outcome.ofParse, Outcome.isDone, Outcome.lookup, Outcome.vars?, v,
      wrap64_eq hq, wrap64_eq (InInt64_tdiv hq hc1)]
    exact ⟨trivial, by simp [Env.set]⟩

theorem subtraction_division_left_associative_witness :
    (runLine "x = 10 - 3 - 2".toList false false Env.empty).lookup "x".toList
      = some (Value.int 5) ∧
    (runLine "x = 0 - 9223372036854775807 - 2".toList false false Env.empty).lookup "x".toList
      = some (Value.int 9223372036854775807) ∧
    (runLine "x = 8 / 4 / 2".toList false false Env.empty).lookup "x".toList
      = some (Value.int 1) :=
  ⟨((subtraction_division_left_associative "10".toList "3".toList "2".toList false false
      Env.empty (by decide) (by decide) (by decide) (by decide) (by decide) (by decide)).1).2.2.2
      (by decide),
   ((subtraction_division_left_associative "0".toList "9223372036854775807".toList "2".toList
      false false Env.empty (by decide) (by decide) (by decide) (by decide) (by decide)
      (by decide)).1).2.1,
   ((subtraction_division_left_associative "8".toList "4".toList "2".toList false false
      Env.empty (by decide) (by decide) (by decide) (by decide) (by decide) (by decide)).2
      (by decide) (by decide)).2⟩

/-! ## Calc-mode echo, statement by statement (C13) -/

end Xinter
